import Mathlib

/-!
# Linked containers of `main.c`: doubly linked list, queue, stack

A shallow embedding of the container operations of `src/main.c`, and of the
bubble sort and binary search of `test_sorting_and_searching_array`.

Memory model. Every container owns nodes that live on the C heap. The heap is
a finite sequence of cells addressed by their index; a cell is either a live
node (`some n`) or not allocated / already released (`none`). A pointer is an
`Option Nat`, with `none` for `NULL`. `malloc` hands out the first address past
the end of the sequence (blocks are never recycled) or, when the request is
not granted, returns `NULL` and leaves the heap alone. Dereferencing `NULL` or
a cell that is not live is undefined behaviour in C and is a `Fault` here, as
is a failed `assert`.

Arrays. The buffer of the sort and search is a `List Int` and `size` is its
length. The `for` loops are recursions on the number of iterations left; the
`while` loop of the search takes an iteration budget. Indices of the search
are `Int`, as in the source, and a read outside the buffer is a `Fault`. The
midpoint of the search goes through `float`, as in the source: the index sum
is rounded to 24 significant bits before it is halved and rounded up.
-/

namespace DataStructures

/-- Ways in which a run can stop without a result. -/
inductive Fault where
  /-- An `assert(...)` of the source failed. -/
  | assert_failed
  /-- A pointer that is `NULL` or not live was dereferenced or released. -/
  | invalid_pointer
  /-- The iteration budget given to a loop of the embedding ran out. -/
  | out_of_fuel
  deriving DecidableEq, Repr

/-- The heap: cell `a` holds the node stored at address `a`, if it is live. -/
abbrev Heap (α : Type) := List (Option α)

namespace Heap

variable {α : Type}

/-- Content of the cell at address `a` (`none` when the cell is not live). -/
def load (h : Heap α) (a : Nat) : Option α := (h[a]?).join

/-- Result of `malloc(sizeof(node))`: when the request is granted, a fresh cell
holding `init` (the fields are overwritten by every caller before they are
read) at the first unused address; otherwise `NULL` and the same heap. -/
def malloc (h : Heap α) (granted : Bool) (init : α) : Option Nat × Heap α :=
  if granted then (some h.length, h ++ [some init]) else (none, h)

/-- Read through a pointer: `*p`. -/
def deref (h : Heap α) (p : Option Nat) : Except Fault α :=
  match p with
  | none => .error .invalid_pointer
  | some a =>
    match load h a with
    | some x => .ok x
    | none => .error .invalid_pointer

/-- Write through a pointer: `p->field = ...`, as an update `f` of the node. -/
def assign (h : Heap α) (p : Option Nat) (f : α → α) : Except Fault (Heap α) :=
  match p with
  | none => .error .invalid_pointer
  | some a =>
    match load h a with
    | some x => .ok (h.set a (some (f x)))
    | none => .error .invalid_pointer

/-- Release of a node: `free(p)` for a non-`NULL` pointer `p`. -/
def free (h : Heap α) (p : Option Nat) : Except Fault (Heap α) :=
  match p with
  | none => .error .invalid_pointer
  | some a =>
    match load h a with
    | some _ => .ok (h.set a none)
    | none => .error .invalid_pointer

end Heap

open Heap

/-! ## Doubly linked list -/

/-- Node of the doubly linked list (`struct list_node`). -/
structure list_node where
  prev : Option Nat
  next : Option Nat
  value : Int
  deriving DecidableEq, Repr

/-- The list handle (`struct list`). -/
structure list where
  head : Option Nat
  tail : Option Nat
  deriving DecidableEq, Repr

/-- A list handle together with the heap its nodes live in. -/
structure ListState where
  heap : Heap list_node
  L : list
  deriving DecidableEq, Repr

/-- Content of a block just returned by `malloc` for a list node. -/
def list_node.blank : list_node := { prev := none, next := none, value := 0 }

/-- The function `list_create`: head and tail are `NULL`. -/
def list_create : list := { head := none, tail := none }

/-- The function `list_is_empty`: `List->head == NULL`. -/
def list_is_empty (L : list) : Bool := L.head.isNone

/-- The function `list_push_front`. `granted` tells whether `malloc` succeeds. -/
def list_push_front (s : ListState) (granted : Bool) (Value : Int) :
    Except Fault (Option Nat × ListState) :=
  match malloc s.heap granted list_node.blank with
  | (none, _) => .ok (none, s)
  | (some newNode, h0) => do
    let oldHead := s.L.head
    let L1 : list := { s.L with head := some newNode }
    let L2 : list := if L1.tail.isNone then { L1 with tail := some newNode } else L1
    let h1 ← if oldHead.isSome then assign h0 oldHead (fun n => { n with prev := some newNode })
      else pure h0
    let h2 ← assign h1 (some newNode) (fun n => { n with next := oldHead })
    let h3 ← assign h2 (some newNode) (fun n => { n with prev := none })
    let h4 ← assign h3 (some newNode) (fun n => { n with value := Value })
    pure (some newNode, { heap := h4, L := L2 })

/-- The function `list_push_back`. `granted` tells whether `malloc` succeeds. -/
def list_push_back (s : ListState) (granted : Bool) (Value : Int) :
    Except Fault (Option Nat × ListState) :=
  match malloc s.heap granted list_node.blank with
  | (none, _) => .ok (none, s)
  | (some newNode, h0) => do
    let oldTail := s.L.tail
    let L1 : list := { s.L with tail := some newNode }
    let L2 : list := if L1.head.isNone then { L1 with head := some newNode } else L1
    let h1 ← if oldTail.isSome then assign h0 oldTail (fun n => { n with next := some newNode })
      else pure h0
    let h2 ← assign h1 (some newNode) (fun n => { n with prev := oldTail })
    let h3 ← assign h2 (some newNode) (fun n => { n with next := none })
    let h4 ← assign h3 (some newNode) (fun n => { n with value := Value })
    pure (some newNode, { heap := h4, L := L2 })

/-- The function `list_pop_front`: the removed value and the new state. -/
def list_pop_front (s : ListState) : Except Fault (Int × ListState) :=
  if list_is_empty s.L then .error .assert_failed else do
    let hd ← deref s.heap s.L.head
    let next := hd.next
    let h1 ← if next.isSome then assign s.heap next (fun n => { n with prev := none })
      else pure s.heap
    let oldHead := s.L.head
    let L1 : list := { s.L with head := next }
    let L2 : list := if oldHead = L1.tail then { L1 with tail := none } else L1
    let old ← deref h1 oldHead
    let value := old.value
    let h2 ← free h1 oldHead
    pure (value, { heap := h2, L := L2 })

/-- The loop of `clear_list`: release the head node and advance, until the head
is `NULL`. Every iteration costs one unit of `fuel`. -/
def clear_list_loop : Nat → ListState → Except Fault ListState
  | fuel, s =>
    if s.L.head.isSome then
      match fuel with
      | 0 => .error .out_of_fuel
      | fuel + 1 => do
        let hd ← deref s.heap s.L.head
        let next := hd.next
        let h1 ← free s.heap s.L.head
        clear_list_loop fuel { heap := h1, L := { s.L with head := next } }
    else .ok s

/-- The function `clear_list`: the loop, then `List->tail = NULL`. -/
def clear_list (fuel : Nat) (s : ListState) : Except Fault ListState := do
  let s1 ← clear_list_loop fuel s
  pure { s1 with L := { s1.L with tail := none } }

/-- The function `insert_list_item`. `granted` tells whether `malloc` succeeds. -/
def insert_list_item (s : ListState) (Where : Option Nat) (granted : Bool) (Value : Int) :
    Except Fault (Option Nat × ListState) :=
  if Where.isNone then list_push_back s granted Value else
  match malloc s.heap granted list_node.blank with
  | (none, _) => .ok (none, s)
  | (some newNode, h0) => do
    let h1 ← assign h0 (some newNode) (fun n => { n with value := Value })
    let h2 ← assign h1 (some newNode) (fun n => { n with next := Where })
    let w ← deref h2 Where
    let prev := w.prev
    let h3 ← assign h2 Where (fun n => { n with prev := some newNode })
    let h4 ← assign h3 (some newNode) (fun n => { n with prev := prev })
    if prev.isSome then do
      let h5 ← assign h4 prev (fun n => { n with next := some newNode })
      pure (some newNode, { heap := h5, L := s.L })
    else
      pure (some newNode, { heap := h4, L := { s.L with head := some newNode } })

/-- The function `erase_list_item`. The node is unlinked; the source contains
no `free` for it, so its cell stays live. -/
def erase_list_item (s : ListState) (Where : Option Nat) : Except Fault ListState :=
  if Where.isNone then .error .assert_failed else do
    let w ← deref s.heap Where
    let prev := w.prev
    let next := w.next
    let (h1, L1) ← if prev.isSome then do
        let h ← assign s.heap prev (fun n => { n with next := next })
        pure (h, s.L)
      else
        pure (s.heap, ({ s.L with head := none } : list))
    if next.isSome then do
      let h2 ← assign h1 next (fun n => { n with prev := prev })
      pure { heap := h2, L := L1 }
    else
      pure { heap := h1, L := { L1 with tail := none } }

/-- Forward traversal, the loop `for (p = head; p; p = p->next)` of the
drivers, collecting `p->value`. -/
def walk_next (h : Heap list_node) : Nat → Option Nat → Except Fault (List Int)
  | fuel, p =>
    if p.isSome then
      match fuel with
      | 0 => .error .out_of_fuel
      | fuel + 1 => do
        let n ← deref h p
        let rest ← walk_next h fuel n.next
        pure (n.value :: rest)
    else .ok []

/-- Backward traversal, `for (p = tail; p; p = p->prev)`, collecting `p->value`. -/
def walk_prev (h : Heap list_node) : Nat → Option Nat → Except Fault (List Int)
  | fuel, p =>
    if p.isSome then
      match fuel with
      | 0 => .error .out_of_fuel
      | fuel + 1 => do
        let n ← deref h p
        let rest ← walk_prev h fuel n.prev
        pure (n.value :: rest)
    else .ok []

/-- Values of the list, following `next` from `head`. -/
def list_forward (fuel : Nat) (s : ListState) : Except Fault (List Int) :=
  walk_next s.heap fuel s.L.head

/-- Values of the list, following `prev` from `tail`. -/
def list_backward (fuel : Nat) (s : ListState) : Except Fault (List Int) :=
  walk_prev s.heap fuel s.L.tail

/-- The pointer reached from `p` after `i` steps along `next`
(`p = p->next` repeated `i` times, as in `test_lists_advanced`). -/
def advance (h : Heap list_node) : Nat → Option Nat → Except Fault (Option Nat)
  | 0, p => .ok p
  | i + 1, p => do
    let n ← deref h p
    advance h i n.next

/-- Repeated `list_push_back` of the given values, every allocation granted. -/
def push_back_all : ListState → List Int → Except Fault ListState
  | s, [] => .ok s
  | s, v :: vs => do
    let r ← list_push_back s true v
    push_back_all r.2 vs

/-- Repeated `list_push_front` of the given values, every allocation granted. -/
def push_front_all : ListState → List Int → Except Fault ListState
  | s, [] => .ok s
  | s, v :: vs => do
    let r ← list_push_front s true v
    push_front_all r.2 vs

/-- The drain loop of `test_list`:
`while (!list_is_empty(&list)) print(list_pop_front(&list))`. -/
def drain_list : Nat → ListState → Except Fault (List Int × ListState)
  | fuel, s =>
    if list_is_empty s.L then .ok ([], s) else
      match fuel with
      | 0 => .error .out_of_fuel
      | fuel + 1 => do
        let r ← list_pop_front s
        let rest ← drain_list fuel r.2
        pure (r.1 :: rest.1, rest.2)

/-- An operation of the list interface used by `test_list`. -/
inductive ListOp where
  | push_front (v : Int)
  | push_back (v : Int)
  | pop_front
  deriving DecidableEq, Repr

/-- One call on the list, every allocation granted. The result carries the
value returned by `list_pop_front` (nothing for a push). -/
def apply_list_op (s : ListState) : ListOp → Except Fault (Option Int × ListState)
  | .push_front v => do
    let r ← list_push_front s true v
    pure (none, r.2)
  | .push_back v => do
    let r ← list_push_back s true v
    pure (none, r.2)
  | .pop_front => do
    let r ← list_pop_front s
    pure (some r.1, r.2)

/-- A sequence of calls on the list; collects the popped values in order. -/
def run_list_ops : ListState → List ListOp → Except Fault (List Int × ListState)
  | s, [] => .ok ([], s)
  | s, op :: ops => do
    let r ← apply_list_op s op
    let rest ← run_list_ops r.2 ops
    pure (r.1.toList ++ rest.1, rest.2)

/-- Reference sequence container of the specification: `pushFront` prepends,
`pushBack` appends, `popFront` returns and removes the first element and is not
available on the empty sequence. -/
def ref_list_op (xs : List Int) : ListOp → Option (Option Int × List Int)
  | .push_front v => some (none, v :: xs)
  | .push_back v => some (none, xs ++ [v])
  | .pop_front =>
    match xs with
    | [] => none
    | x :: rest => some (some x, rest)

/-- A sequence of operations on the reference sequence container. -/
def ref_run_list : List Int → List ListOp → Option (List Int × List Int)
  | xs, [] => some ([], xs)
  | xs, op :: ops =>
    match ref_list_op xs op with
    | none => none
    | some (o, xs1) =>
      match ref_run_list xs1 ops with
      | none => none
      | some (outs, xs2) => some (o.toList ++ outs, xs2)

/-! ## Queue and stack -/

/-- Status code returned by `enqueue` and `push` (`enum STATUS`). -/
inductive STATUS where
  | STATUS_OK
  | STATUS_FAIL
  deriving DecidableEq, Repr

/-- Node of the queue (`struct queue_node`). -/
structure queue_node where
  next : Option Nat
  value : Int
  deriving DecidableEq, Repr

/-- The queue handle (`struct queue`). -/
structure queue where
  head : Option Nat
  tail : Option Nat
  deriving DecidableEq, Repr

/-- A queue handle together with the heap its nodes live in. -/
structure QueueState where
  heap : Heap queue_node
  Q : queue
  deriving DecidableEq, Repr

/-- Content of a block just returned by `malloc` for a queue node. -/
def queue_node.blank : queue_node := { next := none, value := 0 }

/-- The function `create_queue`: head and tail are `NULL`. -/
def create_queue : queue := { head := none, tail := none }

/-- The function `queue_is_empty`: `Queue->head == NULL`. -/
def queue_is_empty (Q : queue) : Bool := Q.head.isNone

/-- The function `enqueue`. `granted` tells whether `malloc` succeeds. -/
def enqueue (s : QueueState) (granted : Bool) (Value : Int) :
    Except Fault (STATUS × QueueState) :=
  match malloc s.heap granted queue_node.blank with
  | (none, _) => .ok (.STATUS_FAIL, s)
  | (some newTail, h0) => do
    let h1 ← assign h0 (some newTail) (fun n => { n with next := none })
    let h2 ← assign h1 (some newTail) (fun n => { n with value := Value })
    let oldTail := s.Q.tail
    let Q1 : queue := { s.Q with tail := some newTail }
    let h3 ← if oldTail.isSome then assign h2 oldTail (fun n => { n with next := some newTail })
      else pure h2
    let Q2 : queue := if Q1.head.isNone then { Q1 with head := some newTail } else Q1
    pure (.STATUS_OK, { heap := h3, Q := Q2 })

/-- The function `dequeue`: the removed value and the new state. -/
def dequeue (s : QueueState) : Except Fault (Int × QueueState) :=
  if queue_is_empty s.Q then .error .assert_failed else do
    let oldHead := s.Q.head
    let old ← deref s.heap oldHead
    let newHead := old.next
    let Q1 : queue := { s.Q with head := newHead }
    let Q2 : queue := if newHead.isNone then { Q1 with tail := none } else Q1
    let value := old.value
    let h1 ← free s.heap oldHead
    pure (value, { heap := h1, Q := Q2 })

/-- The function `peek_queue`: the value of the head node; the queue is only
read (the parameter is a pointer to `const`), so the state is returned as is. -/
def peek_queue (s : QueueState) : Except Fault (Int × QueueState) :=
  if queue_is_empty s.Q then .error .assert_failed else do
    let hd ← deref s.heap s.Q.head
    pure (hd.value, s)

/-- The loop of `clear_queue`. Every iteration costs one unit of `fuel`. -/
def clear_queue_loop : Nat → QueueState → Except Fault QueueState
  | fuel, s =>
    if s.Q.head.isSome then
      match fuel with
      | 0 => .error .out_of_fuel
      | fuel + 1 => do
        let hd ← deref s.heap s.Q.head
        let next := hd.next
        let h1 ← free s.heap s.Q.head
        clear_queue_loop fuel { heap := h1, Q := { s.Q with head := next } }
    else .ok s

/-- The function `clear_queue`: the loop, then `Queue->tail = NULL`. -/
def clear_queue (fuel : Nat) (s : QueueState) : Except Fault QueueState := do
  let s1 ← clear_queue_loop fuel s
  pure { s1 with Q := { s1.Q with tail := none } }

/-- Node of the stack (`struct stack_node`). -/
structure stack_node where
  next : Option Nat
  value : Int
  deriving DecidableEq, Repr

/-- The stack handle (`struct stack`). -/
structure stack where
  head : Option Nat
  deriving DecidableEq, Repr

/-- A stack handle together with the heap its nodes live in. -/
structure StackState where
  heap : Heap stack_node
  S : stack
  deriving DecidableEq, Repr

/-- Content of a block just returned by `malloc` for a stack node. -/
def stack_node.blank : stack_node := { next := none, value := 0 }

/-- The function `create_stack`: head is `NULL`. -/
def create_stack : stack := { head := none }

/-- The function `stack_is_empty`: `Stack->head == NULL`. -/
def stack_is_empty (S : stack) : Bool := S.head.isNone

/-- The function `push`. `granted` tells whether `malloc` succeeds. -/
def push (s : StackState) (granted : Bool) (Value : Int) :
    Except Fault (STATUS × StackState) :=
  match malloc s.heap granted stack_node.blank with
  | (none, _) => .ok (.STATUS_FAIL, s)
  | (some newHead, h0) => do
    let h1 ← assign h0 (some newHead) (fun n => { n with value := Value })
    let oldHead := s.S.head
    let S1 : stack := { s.S with head := some newHead }
    let h2 ← assign h1 (some newHead) (fun n => { n with next := oldHead })
    pure (.STATUS_OK, { heap := h2, S := S1 })

/-- The function `pop`: the removed value and the new state. -/
def pop (s : StackState) : Except Fault (Int × StackState) :=
  if stack_is_empty s.S then .error .assert_failed else do
    let oldHead := s.S.head
    let hd ← deref s.heap s.S.head
    let S1 : stack := { s.S with head := hd.next }
    let old ← deref s.heap oldHead
    let value := old.value
    let h1 ← free s.heap oldHead
    pure (value, { heap := h1, S := S1 })

/-- The function `peek_stack`: the value of the head node; the stack is only
read (the parameter is a pointer to `const`), so the state is returned as is. -/
def peek_stack (s : StackState) : Except Fault (Int × StackState) :=
  if stack_is_empty s.S then .error .assert_failed else do
    let hd ← deref s.heap s.S.head
    pure (hd.value, s)

/-- The function `clear_stack`: release the head node and advance, until the
head is `NULL`. Every iteration costs one unit of `fuel`. -/
def clear_stack : Nat → StackState → Except Fault StackState
  | fuel, s =>
    if s.S.head.isSome then
      match fuel with
      | 0 => .error .out_of_fuel
      | fuel + 1 => do
        let hd ← deref s.heap s.S.head
        let next := hd.next
        let h1 ← free s.heap s.S.head
        clear_stack fuel { heap := h1, S := { s.S with head := next } }
    else .ok s

/-- The walk `for (p = head; p; p = p->next)` over stack nodes, collecting
`p->value`. -/
def walk_stack (h : Heap stack_node) : Nat → Option Nat → Except Fault (List Int)
  | fuel, p =>
    if p.isSome then
      match fuel with
      | 0 => .error .out_of_fuel
      | fuel + 1 => do
        let n ← deref h p
        let rest ← walk_stack h fuel n.next
        pure (n.value :: rest)
    else .ok []

/-- Values stored in the stack, following `next` from `head`. -/
def stack_values (fuel : Nat) (s : StackState) : Except Fault (List Int) :=
  walk_stack s.heap fuel s.S.head

/-- Repeated `push` of the given values, every allocation granted. -/
def push_all : StackState → List Int → Except Fault StackState
  | s, [] => .ok s
  | s, v :: vs => do
    let r ← push s true v
    push_all r.2 vs

/-- The function `pop` called `n` times; collects the returned values. -/
def pop_n : Nat → StackState → Except Fault (List Int × StackState)
  | 0, s => .ok ([], s)
  | n + 1, s => do
    let r ← pop s
    let rest ← pop_n n r.2
    pure (r.1 :: rest.1, rest.2)

/-- An operation of the queue interface. -/
inductive QueueOp where
  | enqueue (v : Int)
  | dequeue
  | peek
  deriving DecidableEq, Repr

/-- One call on the queue, every allocation granted. The result carries the
value returned by `dequeue` or `peek_queue` (nothing for `enqueue`). -/
def apply_queue_op (s : QueueState) : QueueOp → Except Fault (Option Int × QueueState)
  | .enqueue v => do
    let r ← enqueue s true v
    pure (none, r.2)
  | .dequeue => do
    let r ← dequeue s
    pure (some r.1, r.2)
  | .peek => do
    let r ← peek_queue s
    pure (some r.1, r.2)

/-- A sequence of calls on the queue; collects the returned values in order. -/
def run_queue_ops : QueueState → List QueueOp → Except Fault (List Int × QueueState)
  | s, [] => .ok ([], s)
  | s, op :: ops => do
    let r ← apply_queue_op s op
    let rest ← run_queue_ops r.2 ops
    pure (r.1.toList ++ rest.1, rest.2)

/-- Reference FIFO sequence of the specification: `enqueue` appends at the
back, `dequeue` returns and removes the oldest value, `peek` returns it and
keeps it; the last two are not available on the empty sequence. -/
def ref_queue_op (xs : List Int) : QueueOp → Option (Option Int × List Int)
  | .enqueue v => some (none, xs ++ [v])
  | .dequeue =>
    match xs with
    | [] => none
    | x :: rest => some (some x, rest)
  | .peek =>
    match xs with
    | [] => none
    | x :: rest => some (some x, x :: rest)

/-- A sequence of operations on the reference FIFO sequence. -/
def ref_run_queue : List Int → List QueueOp → Option (List Int × List Int)
  | xs, [] => some ([], xs)
  | xs, op :: ops =>
    match ref_queue_op xs op with
    | none => none
    | some (o, xs1) =>
      match ref_run_queue xs1 ops with
      | none => none
      | some (outs, xs2) => some (o.toList ++ outs, xs2)

/-- The drain loop `while (!queue_is_empty(&q)) print(dequeue(&q))`. -/
def drain_queue : Nat → QueueState → Except Fault (List Int × QueueState)
  | fuel, s =>
    if queue_is_empty s.Q then .ok ([], s) else
      match fuel with
      | 0 => .error .out_of_fuel
      | fuel + 1 => do
        let r ← dequeue s
        let rest ← drain_queue fuel r.2
        pure (r.1 :: rest.1, rest.2)

/-! ## Well-formed lists -/

/-- Address of the first cell of `cells`, or `n` when there is none. -/
def nextOf (cells : List (Nat × Int)) (n : Option Nat) : Option Nat :=
  match cells with
  | [] => n
  | c :: _ => some c.1

/-- Address of the last cell of `cells`, or `p` when there is none. -/
def lastOf : List (Nat × Int) → Option Nat → Option Nat
  | [], p => p
  | c :: rest, _ => lastOf rest (some c.1)

/-- The heap holds the doubly linked segment `cells` (address and value of each
node, in order): every node is live with the listed value, its `next` is the
following node (`n` for the last one) and its `prev` is the preceding node (`p`
for the first one). -/
def dll (h : Heap list_node) : Option Nat → List (Nat × Int) → Option Nat → Prop
  | _, [], _ => True
  | p, c :: rest, n =>
    load h c.1 = some { prev := p, next := nextOf rest n, value := c.2 } ∧
      dll h (some c.1) rest n

/-- Well-formed list: the nodes `cells` are pairwise distinct, form a doubly
linked chain closed by `NULL` at both ends, `head` is the first node and `tail`
the last one (both `NULL` for the empty list). -/
def ListRep (s : ListState) (cells : List (Nat × Int)) : Prop :=
  (cells.map Prod.fst).Nodup ∧ s.L.head = nextOf cells none ∧
    s.L.tail = lastOf cells none ∧ dll s.heap none cells none

/-- The heap holds the singly linked chain `cells` (address and value of each
node, in order): every node is live with the listed value and its `next` is the
following node (`n` for the last one). `mk` builds a node from its fields. -/
def sll {α : Type} (mk : Option Nat → Int → α) (h : Heap α) :
    List (Nat × Int) → Option Nat → Prop
  | [], _ => True
  | c :: rest, n => load h c.1 = some (mk (nextOf rest n) c.2) ∧ sll mk h rest n

/-- Well-formed queue: the nodes `cells` are pairwise distinct and chained by
`next` up to `NULL`, `head` is the first node and `tail` the last one (both
`NULL` for the empty queue). -/
def QueueRep (s : QueueState) (cells : List (Nat × Int)) : Prop :=
  (cells.map Prod.fst).Nodup ∧ s.Q.head = nextOf cells none ∧
    s.Q.tail = lastOf cells none ∧ sll queue_node.mk s.heap cells none

/-- Well-formed stack: the nodes `cells` are pairwise distinct and chained by
`next` up to `NULL`, and `head` is the first node (`NULL` for the empty stack). -/
def StackRep (s : StackState) (cells : List (Nat × Int)) : Prop :=
  (cells.map Prod.fst).Nodup ∧ s.S.head = nextOf cells none ∧
    sll stack_node.mk s.heap cells none

/-- Deciding whether the heap holds a given doubly linked segment. -/
instance dll.decidable (h : Heap list_node) :
    ∀ (p : Option Nat) (cells : List (Nat × Int)) (n : Option Nat), Decidable (dll h p cells n)
  | _, [], _ => isTrue trivial
  | p, c :: rest, n =>
    match dll.decidable h (some c.1) rest n with
    | isTrue h2 =>
      if h1 : load h c.1 = some { prev := p, next := nextOf rest n, value := c.2 } then
        isTrue ⟨h1, h2⟩
      else isFalse (fun hd => h1 hd.1)
    | isFalse h2 => isFalse (fun hd => h2 hd.2)

/-- Deciding whether the heap holds a given singly linked chain. -/
instance sll.decidable {α : Type} [DecidableEq α] (mk : Option Nat → Int → α) (h : Heap α) :
    ∀ (cells : List (Nat × Int)) (n : Option Nat), Decidable (sll mk h cells n)
  | [], _ => isTrue trivial
  | c :: rest, n =>
    match sll.decidable mk h rest n with
    | isTrue h2 =>
      if h1 : load h c.1 = some (mk (nextOf rest n) c.2) then isTrue ⟨h1, h2⟩
      else isFalse (fun hd => h1 hd.1)
    | isFalse h2 => isFalse (fun hd => h2 hd.2)

instance ListRep.decidable (s : ListState) (cells : List (Nat × Int)) :
    Decidable (ListRep s cells) := by
  unfold ListRep
  infer_instance

instance QueueRep.decidable (s : QueueState) (cells : List (Nat × Int)) :
    Decidable (QueueRep s cells) := by
  unfold QueueRep
  infer_instance

instance StackRep.decidable (s : StackState) (cells : List (Nat × Int)) :
    Decidable (StackRep s cells) := by
  unfold StackRep
  infer_instance

/-- A sample list holding 7, 8 in the nodes at addresses 0 and 1. -/
def sample_list : ListState :=
  { heap := [some ⟨none, some 1, 7⟩, some ⟨some 0, none, 8⟩], L := ⟨some 0, some 1⟩ }

/-- A sample queue holding 7, 8 in the nodes at addresses 0 and 1. -/
def sample_queue : QueueState :=
  { heap := [some ⟨some 1, 7⟩, some ⟨none, 8⟩], Q := ⟨some 0, some 1⟩ }

/-- A sample stack holding 7, 8 (7 on top) in the nodes at addresses 0 and 1. -/
def sample_stack : StackState :=
  { heap := [some ⟨some 1, 7⟩, some ⟨none, 8⟩], S := ⟨some 0⟩ }

/-! ## Sequences of push, pop and clear calls -/

/-- What a call does to the number of stored values. -/
inductive OpKind where
  | push
  | pop
  | clear
  deriving DecidableEq, Repr

/-- A call on the list among `list_push_front`, `list_push_back`,
`list_pop_front` and `clear_list`. -/
inductive ListCall where
  | push_front (v : Int)
  | push_back (v : Int)
  | pop_front
  | clear
  deriving DecidableEq, Repr

/-- Kind of a list call. -/
def ListCall.kind : ListCall → OpKind
  | .push_front _ => .push
  | .push_back _ => .push
  | .pop_front => .pop
  | .clear => .clear

/-- One call on the list, every allocation granted; `fuel` is the budget of the
loop of `clear_list`. -/
def apply_list_call (fuel : Nat) (s : ListState) : ListCall → Except Fault ListState
  | .push_front v => do
    let r ← list_push_front s true v
    pure r.2
  | .push_back v => do
    let r ← list_push_back s true v
    pure r.2
  | .pop_front => do
    let r ← list_pop_front s
    pure r.2
  | .clear => clear_list fuel s

/-- A call on the queue among `enqueue`, `dequeue` and `clear_queue`. -/
inductive QueueCall where
  | enqueue (v : Int)
  | dequeue
  | clear
  deriving DecidableEq, Repr

/-- Kind of a queue call. -/
def QueueCall.kind : QueueCall → OpKind
  | .enqueue _ => .push
  | .dequeue => .pop
  | .clear => .clear

/-- One call on the queue, every allocation granted; `fuel` is the budget of
the loop of `clear_queue`. -/
def apply_queue_call (fuel : Nat) (s : QueueState) : QueueCall → Except Fault QueueState
  | .enqueue v => do
    let r ← enqueue s true v
    pure r.2
  | .dequeue => do
    let r ← dequeue s
    pure r.2
  | .clear => clear_queue fuel s

/-- A call on the stack among `push`, `pop` and `clear_stack`. -/
inductive StackCall where
  | push (v : Int)
  | pop
  | clear
  deriving DecidableEq, Repr

/-- Kind of a stack call. -/
def StackCall.kind : StackCall → OpKind
  | .push _ => .push
  | .pop => .pop
  | .clear => .clear

/-- One call on the stack, every allocation granted; `fuel` is the budget of
the loop of `clear_stack`. -/
def apply_stack_call (fuel : Nat) (s : StackState) : StackCall → Except Fault StackState
  | .push v => do
    let r ← push s true v
    pure r.2
  | .pop => do
    let r ← pop s
    pure r.2
  | .clear => clear_stack fuel s

/-- A sequence of calls, run one after the other; stops at the first fault. -/
def run_calls {σ κ : Type} (step : σ → κ → Except Fault σ) : σ → List κ → Except Fault σ
  | s, [] => .ok s
  | s, c :: cs => do
    let s1 ← step s c
    run_calls step s1 cs

/-- Numbers of pushes and of pops since the last clear, starting from the
numbers `t` counted so far: a push adds one to the first, a pop adds one to the
second, a clear resets both to zero. -/
def tally : List OpKind → Nat × Nat → Nat × Nat
  | [], t => t
  | .push :: ks, t => tally ks (t.1 + 1, t.2)
  | .pop :: ks, t => tally ks (t.1, t.2 + 1)
  | .clear :: ks, _ => tally ks (0, 0)

/-- Every pop of the sequence comes when more pushes than pops have been
counted since the last clear, that is, on a container that is not empty. -/
def pops_allowed : List OpKind → Nat × Nat → Bool
  | [], _ => true
  | .push :: ks, t => pops_allowed ks (t.1 + 1, t.2)
  | .pop :: ks, t => decide (t.2 < t.1) && pops_allowed ks (t.1, t.2 + 1)
  | .clear :: ks, _ => pops_allowed ks (0, 0)

/-! ## Well-formedness stated on the pointers -/

/-- The chain of nodes reached from `p` by following `next` (read with `nxt`)
until `NULL`: `chain` lists their addresses in order, all of them live. -/
def next_chain {α : Type} (nxt : α → Option Nat) (h : Heap α) :
    Option Nat → List Nat → Prop
  | p, [] => p = none
  | p, a :: rest => p = some a ∧ ∃ n, load h a = some n ∧ next_chain nxt h (nxt n) rest

/-- Well-formedness of the list, on the pointers: the `next` chain from `head`
ends at `NULL` without visiting a node twice and its last node is `tail`;
`head` is `NULL` iff `tail` is; `head->prev` and `tail->next` are `NULL`; for
every node `n` of the chain, `n->next = m` implies `m->prev = n` and
`n->prev = m` implies `m->next = n`. -/
def list_well_formed (s : ListState) : Prop :=
  ∃ chain : List Nat,
    next_chain list_node.next s.heap s.L.head chain ∧ chain.Nodup ∧
    s.L.tail = chain.getLast? ∧
    (s.L.head = none ↔ s.L.tail = none) ∧
    (∀ a n, s.L.head = some a → load s.heap a = some n → n.prev = none) ∧
    (∀ a n, s.L.tail = some a → load s.heap a = some n → n.next = none) ∧
    (∀ a ∈ chain, ∀ n, load s.heap a = some n → ∀ m, n.next = some m →
      ∃ nm, load s.heap m = some nm ∧ nm.prev = some a) ∧
    (∀ a ∈ chain, ∀ n, load s.heap a = some n → ∀ m, n.prev = some m →
      ∃ nm, load s.heap m = some nm ∧ nm.next = some a)

/-- The pointer `p` is a node of the list: it is reached from `head` by a number
of `next` steps. -/
def is_list_node (s : ListState) (a : Nat) : Prop :=
  ∃ k, advance s.heap k s.L.head = .ok (some a)

/-- Well-formedness of the queue, on the pointers: the `next` chain from `head`
ends at `NULL` without visiting a node twice and its last node is `tail`;
`head` is `NULL` iff `tail` is; `tail->next` is `NULL`. -/
def queue_well_formed (s : QueueState) : Prop :=
  ∃ chain : List Nat,
    next_chain queue_node.next s.heap s.Q.head chain ∧ chain.Nodup ∧
    s.Q.tail = chain.getLast? ∧
    (s.Q.head = none ↔ s.Q.tail = none) ∧
    (∀ a n, s.Q.tail = some a → load s.heap a = some n → n.next = none)

/-- The cells of a chain: each address with the value stored there. -/
def cells_of {α : Type} (val : α → Int) (h : Heap α) (chain : List Nat) : List (Nat × Int) :=
  chain.map (fun a => (a, ((load h a).map val).getD 0))

/-! ## Bubble sort and binary search of `test_sorting_and_searching_array` -/

/-- The exchange `tmp = arr[j]; arr[j] = arr[j + 1]; arr[j + 1] = tmp`. -/
def swap_adjacent (arr : List Int) (j : Nat) : List Int :=
  let tmp := arr.getD j 0
  let arr1 := arr.set j (arr.getD (j + 1) 0)
  arr1.set (j + 1) tmp

/-- The inner loop `for (j = ..; j < size - 1; ++j)` of the bubble sort, from
index `j` with `n = size - 1 - j` iterations left: the buffer and the `swapped`
flag after the pass. -/
def inner_loop : Nat → Nat → List Int → Bool → List Int × Bool
  | 0, _, arr, swapped => (arr, swapped)
  | n + 1, j, arr, swapped =>
    if arr.getD j 0 > arr.getD (j + 1) 0 then
      inner_loop n (j + 1) (swap_adjacent arr j) true
    else
      inner_loop n (j + 1) arr swapped

/-- Outcome of the bubble sort: the buffer, the number of inner passes that
were run, and whether the outer loop was left through `break`. -/
structure SortRun where
  arr : List Int
  passes : Nat
  broke : Bool
  deriving DecidableEq, Repr

/-- The outer loop `for (i = ..; i < size - 1; ++i)` with `n = size - 1 - i`
iterations left, after `k` passes: one inner pass from `swapped = 0`, then
`break` when nothing was swapped. -/
def outer_loop (size : Nat) : Nat → List Int → Nat → SortRun
  | 0, arr, k => { arr := arr, passes := k, broke := false }
  | n + 1, arr, k =>
    let r := inner_loop (size - 1) 0 arr false
    if !r.2 then { arr := r.1, passes := k + 1, broke := true }
    else outer_loop size n r.1 (k + 1)

/-- The bubble sort of the buffer `arr`, with `size` its number of elements. -/
def bubble_sort (arr : List Int) : SortRun :=
  outer_loop arr.length (arr.length - 1) arr 0

/-- One pass seen on the values: the value `c` carried so far is compared with
the next one and the larger of the two is carried on. -/
def bubble : Int → List Int → List Int
  | c, [] => [c]
  | c, y :: rest => if c > y then y :: bubble c rest else c :: bubble y rest

/-- Whether the pass carrying `c` over the values exchanges anything. -/
def bubble_swaps : Int → List Int → Bool
  | _, [] => false
  | c, y :: rest => if c > y then true else bubble_swaps y rest

/-- The value carried out of a pass. -/
def bubble_last : Int → List Int → Int
  | c, [] => c
  | c, y :: rest => if c > y then bubble_last c rest else bubble_last y rest

/-- The values a pass leaves behind the carried one. -/
def bubble_init : Int → List Int → List Int
  | _, [] => []
  | c, y :: rest => if c > y then y :: bubble_init c rest else c :: bubble_init y rest

/-- Invariant of the outer loop: the buffer is a front part of at most `m`
values followed by a sorted back part, no front value exceeding a back value. -/
def SortedTail (m : Nat) (arr : List Int) : Prop :=
  ∃ front back, arr = front ++ back ∧ front.length ≤ m ∧ List.Sorted (· ≤ ·) back ∧
    ∀ x ∈ front, ∀ y ∈ back, x ≤ y

/-- The `int` value of a sum computed in `int`: the exact sum wrapped to 32
bits in two's complement (an overflowing signed sum is undefined in C; no sum
of two indices of a buffer of fewer than `2 ^ 30` elements overflows). -/
def wrap32 (x : Int) : Int := (x + 2147483648) % 4294967296 - 2147483648

/-- Spacing of the `float` values at magnitude `a`: the least power of two `u`,
starting from `u`, with `a < 2 ^ 24 * u`, found in at most `n` doublings. -/
def ulp_f32 : Nat → Nat → Nat → Nat
  | 0, _, u => u
  | n + 1, a, u => if a < 16777216 * u then u else ulp_f32 n a (2 * u)

/-- The conversion of an `int` to `float` (24 significant bits): the nearest
multiple of the spacing at its magnitude, a tie going to the even multiple.
Magnitudes up to `2 ^ 24` are kept exactly. -/
def round_f32 (x : Int) : Int :=
  let a := x.natAbs
  if a ≤ 16777216 then x else
    let u := ulp_f32 40 a 1
    let q := a / u
    let rem := a % u
    let m := if 2 * rem < u then q * u
      else if u < 2 * rem then (q + 1) * u
      else if q % 2 = 0 then q * u else (q + 1) * u
    if x < 0 then -(m : Int) else (m : Int)

/-- The expression `(int)ceilf(x / 2.0f)` for an `int` `x`: `x` is converted to
`float`, halved (exact) and rounded up to a whole number (exact). -/
def ceil_half (x : Int) : Int := (round_f32 x + 1) / 2

/-- The midpoint `(int)ceilf((l + r) / 2.0f)` of the binary search. -/
def midpoint (l r : Int) : Int := ceil_half (wrap32 (l + r))

/-- The array read `arr[i]`; an index outside the buffer is a fault. -/
def read (arr : List Int) (i : Int) : Except Fault Int :=
  if 0 ≤ i ∧ i < arr.length then .ok (arr.getD i.toNat 0) else .error .invalid_pointer

/-- The loop `while (l != r)` of the binary search: the final `l`. Every
iteration costs one unit of `fuel`. -/
def search_loop (arr : List Int) (target : Int) : Nat → Int → Int → Except Fault Int
  | fuel, l, r =>
    if l ≠ r then
      match fuel with
      | 0 => .error .out_of_fuel
      | fuel + 1 => do
        let mid := midpoint l r
        let x ← read arr mid
        if x > target then search_loop arr target fuel l (mid - 1)
        else search_loop arr target fuel mid r
    else .ok l

/-- The values of `(l, r)` at every test of the loop condition of the binary
search, up to the first fault. -/
def search_trace (arr : List Int) (target : Int) : Nat → Int → Int → List (Int × Int)
  | fuel, l, r =>
    (l, r) ::
      if l ≠ r then
        match fuel with
        | 0 => []
        | fuel + 1 =>
          match read arr (midpoint l r) with
          | .error _ => []
          | .ok x =>
            if x > target then search_trace arr target fuel l (midpoint l r - 1)
            else search_trace arr target fuel (midpoint l r) r
      else []

/-- The binary search of `test_sorting_and_searching_array`: `l = 0`,
`r = size - 1`, the loop, then the test `arr[l] == target`. The result is the
final `l` and whether the number was reported as found. -/
def binary_search (arr : List Int) (target : Int) (fuel : Nat) : Except Fault (Int × Bool) := do
  let l ← search_loop arr target fuel 0 ((arr.length : Int) - 1)
  let x ← read arr l
  pure (l, decide (x = target))

/-- A sorted buffer of the program's size, 16 elements; 11 occurs twice. -/
def sorted_buffer : List Int := [1, 2, 3, 5, 5, 7, 8, 9, 11, 11, 12, 14, 15, 17, 20, 23]

/-- An unsorted buffer of the program's size, 16 elements. -/
def unsorted_buffer : List Int := [9, 4, 17, 1, 12, 4, 8, 23, 2, 15, 7, 5, 20, 3, 11, 14]

/-! ## Reasoning about the heap -/

namespace Heap

variable {α : Type}

theorem load_lt {h : Heap α} {a : Nat} {x : α} (hx : load h a = some x) : a < h.length := by
  by_contra hge
  have : h[a]? = none := List.getElem?_eq_none (by omega)
  simp [load, this] at hx

theorem load_length (h : Heap α) : load h h.length = none := by
  simp [load]

theorem load_append_single (h : Heap α) (x : Option α) (a : Nat) :
    load (h ++ [x]) a = if a = h.length then x else load h a := by
  unfold load
  by_cases ha : a < h.length
  · rw [List.getElem?_append_left ha]
    simp [Nat.ne_of_lt ha]
  · by_cases he : a = h.length
    · subst he
      simp
    · have h1 : (h ++ [x])[a]? = none := List.getElem?_eq_none (by simp; omega)
      have h2 : h[a]? = none := List.getElem?_eq_none (by omega)
      simp [h1, h2, he]

theorem load_set (h : Heap α) (a b : Nat) (y : Option α) (ha : a < h.length) :
    load (h.set a y) b = if b = a then y else load h b := by
  unfold load
  by_cases hb : b = a
  · subst hb
    simp [ha]
  · have : a ≠ b := fun e => hb e.symm
    simp [List.getElem?_set_ne this, hb]

end Heap

/-! ## Reasoning about doubly linked segments -/

theorem nextOf_append (l1 l2 : List (Nat × Int)) (n : Option Nat) :
    nextOf (l1 ++ l2) n = nextOf l1 (nextOf l2 n) := by
  cases l1 <;> rfl

theorem lastOf_cons (c : Nat × Int) (l : List (Nat × Int)) (p : Option Nat) :
    lastOf (c :: l) p = lastOf l (some c.1) := by
  rfl

theorem lastOf_append (l1 l2 : List (Nat × Int)) (p : Option Nat) :
    lastOf (l1 ++ l2) p = lastOf l2 (lastOf l1 p) := by
  induction l1 generalizing p with
  | nil => rfl
  | cons c l ih => rw [List.cons_append, lastOf_cons, ih, lastOf_cons]

theorem lastOf_some_ne_none (l : List (Nat × Int)) (a : Nat) : lastOf l (some a) ≠ none := by
  induction l generalizing a with
  | nil => simp [lastOf]
  | cons c l ih => exact ih c.1

theorem not_mem_of_fresh {cells : List (Nat × Int)} {a : Nat} (hf : ∀ c ∈ cells, c.1 ≠ a) :
    a ∉ cells.map Prod.fst := by
  intro hm
  obtain ⟨c, hc, rfl⟩ := List.mem_map.1 hm
  exact hf c hc rfl

theorem nodup_snoc_fresh {cells : List (Nat × Int)} {a : Nat} (v : Int)
    (hnd : (cells.map Prod.fst).Nodup) (hf : a ∉ cells.map Prod.fst) :
    ((cells ++ [(a, v)]).map Prod.fst).Nodup := by
  rw [List.map_append, List.nodup_append]
  refine ⟨hnd, by simp, ?_⟩
  intro x hx hy
  simp at hy
  subst hy
  exact hf hx

theorem lastOf_cases (l : List (Nat × Int)) (p : Option Nat) :
    (l = [] ∧ lastOf l p = p) ∨ ∃ c ∈ l, lastOf l p = some c.1 := by
  induction l generalizing p with
  | nil => exact Or.inl ⟨rfl, rfl⟩
  | cons c l ih =>
    right
    rcases ih (some c.1) with ⟨_, h⟩ | ⟨d, hd, h⟩
    · exact ⟨c, List.mem_cons_self _ _, h⟩
    · exact ⟨d, List.mem_cons_of_mem _ hd, h⟩

theorem fst_ne_of_nodup_append {A B : List (Nat × Int)}
    (hnd : ((A ++ B).map Prod.fst).Nodup) {x y : Nat × Int} (hx : x ∈ A) (hy : y ∈ B) :
    x.1 ≠ y.1 := by
  intro e
  rw [List.map_append, List.nodup_append] at hnd
  exact hnd.2.2 (List.mem_map_of_mem Prod.fst hx) (e ▸ List.mem_map_of_mem Prod.fst hy)

theorem dll_frame {h h' : Heap list_node} {cells : List (Nat × Int)} {p n : Option Nat}
    (hf : ∀ c ∈ cells, load h' c.1 = load h c.1) (hd : dll h p cells n) : dll h' p cells n := by
  induction cells generalizing p with
  | nil => trivial
  | cons c rest ih =>
    refine ⟨?_, ih (fun d hd' => hf d (List.mem_cons_of_mem _ hd')) hd.2⟩
    rw [hf c (List.mem_cons_self _ _)]
    exact hd.1

theorem dll_append {h : Heap list_node} (l1 l2 : List (Nat × Int)) (p n : Option Nat) :
    dll h p (l1 ++ l2) n ↔ dll h p l1 (nextOf l2 n) ∧ dll h (lastOf l1 p) l2 n := by
  induction l1 generalizing p with
  | nil => simp [dll, lastOf]
  | cons c l ih =>
    rw [List.cons_append]
    simp only [dll, ih, nextOf_append, lastOf_cons]
    tauto

theorem dll_live {h : Heap list_node} {cells : List (Nat × Int)} {p n : Option Nat}
    (hd : dll h p cells n) {c : Nat × Int} (hc : c ∈ cells) : ∃ x, load h c.1 = some x := by
  induction cells generalizing p with
  | nil => cases hc
  | cons d rest ih =>
    rcases List.mem_cons.1 hc with rfl | hc'
    · exact ⟨_, hd.1⟩
    · exact ih hd.2 hc'

theorem dll_lt {h : Heap list_node} {cells : List (Nat × Int)} {p n : Option Nat}
    (hd : dll h p cells n) {c : Nat × Int} (hc : c ∈ cells) : c.1 < h.length := by
  obtain ⟨x, hx⟩ := dll_live hd hc
  exact load_lt hx

/-! ## Specifications of the list operations on well-formed lists -/

theorem ListRep_fresh {s : ListState} {cells : List (Nat × Int)} (hr : ListRep s cells) :
    ∀ c ∈ cells, c.1 ≠ s.heap.length :=
  fun _ hc => Nat.ne_of_lt (dll_lt hr.2.2.2 hc)

theorem list_push_front_spec {s : ListState} {cells : List (Nat × Int)} (hr : ListRep s cells)
    (v : Int) :
    ∃ s', list_push_front s true v = .ok (some s.heap.length, s') ∧
      ListRep s' ((s.heap.length, v) :: cells) := by
  have hfresh := ListRep_fresh hr
  obtain ⟨hnd, hhead, htail, hd⟩ := hr
  cases cells with
  | nil =>
    simp only [nextOf, lastOf] at hhead htail
    simp [list_push_front, malloc, hhead, htail, assign, load_append_single, load_set, bind,
      Except.bind, pure, Except.pure, ListRep, dll, nextOf, lastOf]
  | cons c rest =>
    simp only [nextOf] at hhead
    have hc := hd.1
    have hlt := load_lt hc
    have hne : c.1 ≠ s.heap.length := Nat.ne_of_lt hlt
    simp [list_push_front, malloc, hhead, htail, assign, load_append_single, load_set, bind,
      Except.bind, pure, Except.pure, hc, hne, hlt]
    have hl : lastOf (c :: rest) none ≠ none := lastOf_some_ne_none rest c.1
    simp only [hl, if_false]
    refine ⟨?_, rfl, rfl, ?_, ?_, ?_⟩
    · exact List.nodup_cons.2 ⟨not_mem_of_fresh hfresh, hnd⟩
    · simp [load_append_single, nextOf]
    · simp [load_append_single, load_set, hne, hlt]
    · refine dll_frame (fun d hd' => ?_) hd.2
      have h1 : d.1 ≠ s.heap.length := hfresh d (List.mem_cons_of_mem _ hd')
      have h2 : d.1 ≠ c.1 := by
        intro e
        have := (List.nodup_cons.1 hnd).1
        exact this (e ▸ List.mem_map_of_mem Prod.fst hd')
      simp [load_append_single, load_set, h1, h2, hlt]

theorem nextOf_ne_none_of_ne_nil {l : List (Nat × Int)} (hl : l ≠ []) (n : Option Nat) :
    nextOf l n ≠ none := by
  cases l with
  | nil => exact absurd rfl hl
  | cons c l => simp [nextOf]

theorem list_push_back_spec {s : ListState} {cells : List (Nat × Int)} (hr : ListRep s cells)
    (v : Int) :
    ∃ s', list_push_back s true v = .ok (some s.heap.length, s') ∧
      ListRep s' (cells ++ [(s.heap.length, v)]) := by
  have hfresh := ListRep_fresh hr
  obtain ⟨hnd, hhead, htail, hd⟩ := hr
  rcases List.eq_nil_or_concat cells with rfl | ⟨init, c, hcells⟩
  · simp only [nextOf, lastOf] at hhead htail
    simp [list_push_back, malloc, hhead, htail, assign, load_append_single, load_set, bind,
      Except.bind, pure, Except.pure, ListRep, dll, nextOf, lastOf]
  · rw [List.concat_eq_append] at hcells
    subst hcells
    rw [lastOf_append] at htail
    simp only [lastOf] at htail
    rw [dll_append] at hd
    have hc : load s.heap c.1 = some { prev := lastOf init none, next := none, value := c.2 } :=
      hd.2.1
    have hlt := load_lt hc
    have hne : c.1 ≠ s.heap.length := Nat.ne_of_lt hlt
    have hh : s.L.head ≠ none := by
      rw [hhead]; exact nextOf_ne_none_of_ne_nil (by simp) none
    simp [list_push_back, malloc, hh, htail, assign, load_append_single, load_set, bind,
      Except.bind, pure, Except.pure, hc, hne, hlt]
    have e : init ++ [c, (s.heap.length, v)] = init ++ [c] ++ [(s.heap.length, v)] := by simp
    refine ⟨?_, ?_, ?_, ?_⟩
    · rw [e]
      exact nodup_snoc_fresh v hnd (not_mem_of_fresh hfresh)
    · show s.L.head = _
      rw [hhead, nextOf_append, nextOf_append]
      cases init <;> rfl
    · show some s.heap.length = _
      rw [lastOf_append]; rfl
    · rw [dll_append]
      refine ⟨dll_frame (fun d hd' => ?_) hd.1, ?_, ?_, trivial⟩
      · have h1 : d.1 ≠ s.heap.length := hfresh d (List.mem_append_left _ hd')
        have h2 : d.1 ≠ c.1 := by
          intro e
          rw [List.map_append, List.nodup_append] at hnd
          exact hnd.2.2 (List.mem_map_of_mem Prod.fst hd') (by simp [e])
        simp [load_append_single, load_set, h1, h2, hlt]
      · simp [load_append_single, load_set, hne, hlt, nextOf]
      · simp [load_append_single, nextOf]

theorem list_pop_front_spec {s : ListState} {c : Nat × Int} {rest : List (Nat × Int)}
    (hr : ListRep s (c :: rest)) :
    ∃ s', list_pop_front s = .ok (c.2, s') ∧ ListRep s' rest := by
  obtain ⟨hnd, hhead, htail, hd⟩ := hr
  simp only [nextOf] at hhead
  have hc := hd.1
  have hlt := load_lt hc
  cases rest with
  | nil =>
    simp only [lastOf] at htail
    simp only [nextOf] at hc
    simp [list_pop_front, list_is_empty, hhead, htail, deref, hc, free, bind, Except.bind, pure,
      Except.pure, ListRep, dll, nextOf, lastOf]
  | cons d rest =>
    have hdl := hd.2.1
    have hdlt := load_lt hdl
    simp only [nextOf] at hc
    have hcd : c.1 ≠ d.1 := by
      intro e
      have := (List.nodup_cons.1 hnd).1
      simp [e] at this
    have hdc : d.1 ≠ c.1 := fun e => hcd e.symm
    have ht : some c.1 ≠ lastOf (c :: d :: rest) none := by
      intro e
      rcases lastOf_cases (d :: rest) (some c.1) with ⟨h0, _⟩ | ⟨x, hx, h1⟩
      · cases h0
      · have e2 : some c.1 = some x.1 := e.trans h1
        have := (List.nodup_cons.1 hnd).1
        exact this (Option.some.inj e2 ▸ List.mem_map_of_mem Prod.fst hx)
    simp [list_pop_front, list_is_empty, hhead, htail, deref, hc, hdl, assign, free, bind,
      Except.bind, pure, Except.pure, load_set, hdlt, hlt, hcd, hdc, ht]
    refine ⟨(List.nodup_cons.1 hnd).2, rfl, rfl, ?_, ?_⟩
    · simp [load_set, hdlt, hlt, hcd, hdc]
    · refine dll_frame (fun x hx => ?_) hd.2.2
      have hn2 := (List.nodup_cons.1 hnd).2
      have h1 : x.1 ≠ c.1 := by
        intro e
        exact (List.nodup_cons.1 hnd).1
          (e ▸ List.mem_map_of_mem Prod.fst (List.mem_cons_of_mem _ hx))
      have h2 : x.1 ≠ d.1 := by
        intro e
        exact (List.nodup_cons.1 hn2).1 (e ▸ List.mem_map_of_mem Prod.fst hx)
      simp [load_set, hdlt, hlt, h1, h2]

theorem walk_next_dll {h : Heap list_node} {cells : List (Nat × Int)} {p : Option Nat}
    (hd : dll h p cells none) (fuel : Nat) (hf : cells.length ≤ fuel) :
    walk_next h fuel (nextOf cells none) = .ok (cells.map Prod.snd) := by
  induction cells generalizing p fuel with
  | nil => unfold walk_next; simp [nextOf]
  | cons c rest ih =>
    cases fuel with
    | zero => simp at hf
    | succ fuel =>
      have hrest := ih hd.2 fuel (by simpa using hf)
      show walk_next h (fuel + 1) (some c.1) = _
      rw [walk_next]
      simp [deref, hd.1, hrest, bind, Except.bind, pure, Except.pure]

theorem walk_prev_dll {h : Heap list_node} {cells : List (Nat × Int)} {n : Option Nat}
    (hd : dll h none cells n) (fuel : Nat) (hf : cells.length ≤ fuel) :
    walk_prev h fuel (lastOf cells none) = .ok (cells.map Prod.snd).reverse := by
  induction cells using List.reverseRecOn generalizing n fuel with
  | nil => unfold walk_prev; simp [lastOf]
  | append_singleton init c ih =>
    rw [dll_append] at hd
    cases fuel with
    | zero => simp at hf
    | succ fuel =>
      have hinit := ih hd.1 fuel (by simpa using hf)
      have hc : load h c.1 = some { prev := lastOf init none, next := n, value := c.2 } := hd.2.1
      rw [lastOf_append]
      show walk_prev h (fuel + 1) (some c.1) = _
      rw [walk_prev]
      simp [deref, hc, hinit, bind, Except.bind, pure, Except.pure]

theorem list_forward_spec {s : ListState} {cells : List (Nat × Int)} (hr : ListRep s cells)
    (fuel : Nat) (hf : cells.length ≤ fuel) :
    list_forward fuel s = .ok (cells.map Prod.snd) := by
  unfold list_forward
  rw [hr.2.1]
  exact walk_next_dll hr.2.2.2 fuel hf

theorem list_backward_spec {s : ListState} {cells : List (Nat × Int)} (hr : ListRep s cells)
    (fuel : Nat) (hf : cells.length ≤ fuel) :
    list_backward fuel s = .ok (cells.map Prod.snd).reverse := by
  unfold list_backward
  rw [hr.2.2.1]
  exact walk_prev_dll hr.2.2.2 fuel hf

example : (do
    let s ← push_back_all ⟨[], list_create⟩ [10, 20, 30]
    let s1 ← erase_list_item s s.L.head
    list_forward 3 s1) = .ok [] := by rfl

theorem nodup_insert_fresh {l1 l2 : List (Nat × Int)} {a : Nat} (v : Int)
    (hnd : ((l1 ++ l2).map Prod.fst).Nodup) (hf : a ∉ (l1 ++ l2).map Prod.fst) :
    ((l1 ++ (a, v) :: l2).map Prod.fst).Nodup := by
  rw [List.map_append, List.map_cons, List.nodup_middle, List.nodup_cons, ← List.map_append]
  exact ⟨hf, hnd⟩

theorem insert_list_item_spec {s : ListState} {l1 l2 : List (Nat × Int)} {w : Nat × Int}
    (hr : ListRep s (l1 ++ w :: l2)) (v : Int) :
    ∃ s', insert_list_item s (some w.1) true v = .ok (some s.heap.length, s') ∧
      ListRep s' (l1 ++ (s.heap.length, v) :: w :: l2) := by
  have hfresh := ListRep_fresh hr
  obtain ⟨hnd, hhead, htail, hd⟩ := hr
  have hnd' := nodup_insert_fresh v hnd (not_mem_of_fresh hfresh)
  rw [dll_append] at hd
  have hw : load s.heap w.1 =
      some { prev := lastOf l1 none, next := nextOf l2 none, value := w.2 } := hd.2.1
  have hwlt := load_lt hw
  have hwne : w.1 ≠ s.heap.length := Nat.ne_of_lt hwlt
  have hwne' : s.heap.length ≠ w.1 := fun e => hwne e.symm
  have hframe2 : ∀ x ∈ l2, x.1 ≠ s.heap.length ∧ x.1 ≠ w.1 := by
    intro x hx
    refine ⟨hfresh x (by simp [hx]), ?_⟩
    intro e
    rw [List.map_append, List.map_cons, List.nodup_middle] at hnd
    exact (List.nodup_cons.1 hnd).1 (e ▸ List.mem_append_right _ (List.mem_map_of_mem Prod.fst hx))
  have hframe1 : ∀ x ∈ l1, x.1 ≠ s.heap.length ∧ x.1 ≠ w.1 := by
    intro x hx
    refine ⟨hfresh x (by simp [hx]), ?_⟩
    intro e
    rw [List.map_append, List.map_cons, List.nodup_middle] at hnd
    exact (List.nodup_cons.1 hnd).1 (e ▸ List.mem_append_left _ (List.mem_map_of_mem Prod.fst hx))
  rcases List.eq_nil_or_concat l1 with hl1 | ⟨init, c, hl1⟩
  · subst hl1
    simp only [lastOf] at hw
    simp [insert_list_item, malloc, assign, deref, load_append_single, load_set, bind,
      Except.bind, pure, Except.pure, hw, hwne, hwne', hwlt]
    refine ⟨by simpa using hnd', rfl, ?_, ?_, ?_, ?_⟩
    · exact htail
    · simp [load_append_single, nextOf]
    · simp [load_append_single, load_set, hwne, hwlt]
    · refine dll_frame (fun x hx => ?_) hd.2.2
      obtain ⟨h1, h2⟩ := hframe2 x hx
      simp [load_append_single, load_set, h1, h2, hwlt]
  · rw [List.concat_eq_append] at hl1
    subst hl1
    have hlast : lastOf (init ++ [c]) none = some c.1 := by rw [lastOf_append]; rfl
    rw [hlast] at hw
    have hd1 := hd.1
    rw [dll_append] at hd1
    have hc : load s.heap c.1 =
        some { prev := lastOf init none, next := some w.1, value := c.2 } := hd1.2.1
    have hclt := load_lt hc
    obtain ⟨hcne, hcw⟩ := hframe1 c (by simp)
    have hcne' : s.heap.length ≠ c.1 := fun e => hcne e.symm
    have hwc : w.1 ≠ c.1 := fun e => hcw e.symm
    simp [insert_list_item, malloc, assign, deref, load_append_single, load_set, bind,
      Except.bind, pure, Except.pure, hw, hwne, hwne', hwlt, hc, hclt, hcne, hcne', hcw, hwc]
    refine ⟨by simpa using hnd', ?_, ?_, ?_⟩
    · show s.L.head = _
      rw [hhead]
      cases init <;> rfl
    · show s.L.tail = _
      rw [htail]
      simp only [List.append_assoc, lastOf_append]
      rfl
    · rw [dll_append]
      refine ⟨dll_frame (fun x hx => ?_) hd1.1, ?_, ?_, ?_, ?_⟩
      · obtain ⟨h1, h2⟩ := hframe1 x (by simp [hx])
        have h3 : x.1 ≠ c.1 := by
          intro e
          rw [List.map_append, List.map_append, List.append_assoc, List.nodup_append] at hnd
          exact hnd.2.2 (List.mem_map_of_mem Prod.fst hx) (by simp [e])
        simp [load_append_single, load_set, h1, h2, h3, hwlt, hclt]
      · simp [load_append_single, load_set, hcne, hcw, hwlt, hclt, nextOf]
      · simp [load_append_single, nextOf]
      · simp [load_append_single, load_set, hwne, hwc, hwlt, hclt]
      · refine dll_frame (fun x hx => ?_) hd.2.2
        obtain ⟨h1, h2⟩ := hframe2 x hx
        have h3 : x.1 ≠ c.1 := fun e =>
          fst_ne_of_nodup_append hnd (List.mem_append_right init (List.mem_singleton_self c))
            (List.mem_cons_of_mem w hx) e.symm
        simp [load_append_single, load_set, h1, h2, h3, hwlt, hclt]

theorem ListRep_create (h : Heap list_node) : ListRep ⟨h, list_create⟩ [] :=
  ⟨List.nodup_nil, rfl, rfl, trivial⟩

theorem apply_list_op_sim {s : ListState} {cells : List (Nat × Int)} (hr : ListRep s cells)
    {op : ListOp} {o : Option Int} {vs : List Int}
    (href : ref_list_op (cells.map Prod.snd) op = some (o, vs)) :
    ∃ s' cells', apply_list_op s op = .ok (o, s') ∧ ListRep s' cells' ∧
      cells'.map Prod.snd = vs := by
  cases op with
  | push_front v =>
    obtain ⟨s', h1, h2⟩ := list_push_front_spec hr v
    simp only [ref_list_op, Option.some.injEq, Prod.mk.injEq] at href
    obtain ⟨rfl, rfl⟩ := href
    exact ⟨s', _, by simp [apply_list_op, h1, bind, Except.bind, pure, Except.pure], h2, rfl⟩
  | push_back v =>
    obtain ⟨s', h1, h2⟩ := list_push_back_spec hr v
    simp only [ref_list_op, Option.some.injEq, Prod.mk.injEq] at href
    obtain ⟨rfl, rfl⟩ := href
    exact ⟨s', _, by simp [apply_list_op, h1, bind, Except.bind, pure, Except.pure], h2,
      by simp⟩
  | pop_front =>
    cases cells with
    | nil => simp [ref_list_op] at href
    | cons c rest =>
      obtain ⟨s', h1, h2⟩ := list_pop_front_spec hr
      simp only [ref_list_op, List.map_cons, Option.some.injEq, Prod.mk.injEq] at href
      obtain ⟨rfl, rfl⟩ := href
      exact ⟨s', _, by simp [apply_list_op, h1, bind, Except.bind, pure, Except.pure], h2, rfl⟩

theorem run_list_ops_sim (ops : List ListOp) {s : ListState} {cells : List (Nat × Int)}
    (hr : ListRep s cells) {outs vs : List Int}
    (href : ref_run_list (cells.map Prod.snd) ops = some (outs, vs)) :
    ∃ s' cells', run_list_ops s ops = .ok (outs, s') ∧ ListRep s' cells' ∧
      cells'.map Prod.snd = vs := by
  induction ops generalizing s cells outs with
  | nil =>
    simp only [ref_run_list, Option.some.injEq, Prod.mk.injEq] at href
    obtain ⟨rfl, rfl⟩ := href
    exact ⟨s, cells, rfl, hr, rfl⟩
  | cons op ops ih =>
    simp only [ref_run_list] at href
    cases h1 : ref_list_op (cells.map Prod.snd) op with
    | none => simp [h1] at href
    | some r =>
      obtain ⟨o, xs1⟩ := r
      simp only [h1] at href
      obtain ⟨s1, cells1, ha, hr1, hv1⟩ := apply_list_op_sim hr h1
      subst hv1
      cases h2 : ref_run_list (cells1.map Prod.snd) ops with
      | none => simp [h2] at href
      | some r2 =>
        obtain ⟨outs2, xs2⟩ := r2
        simp only [h2, Option.some.injEq, Prod.mk.injEq] at href
        obtain ⟨rfl, rfl⟩ := href
        obtain ⟨s2, cells2, hb, hr2, hv2⟩ := ih hr1 h2
        exact ⟨s2, cells2, by simp [run_list_ops, ha, hb, bind, Except.bind, pure, Except.pure],
          hr2, hv2⟩

theorem drain_list_spec {s : ListState} {cells : List (Nat × Int)} (hr : ListRep s cells)
    (fuel : Nat) (hf : cells.length ≤ fuel) :
    ∃ s', drain_list fuel s = .ok (cells.map Prod.snd, s') ∧ ListRep s' [] := by
  induction cells generalizing s fuel with
  | nil =>
    have hh : s.L.head = none := hr.2.1
    refine ⟨s, ?_, hr⟩
    unfold drain_list
    simp [list_is_empty, hh]
  | cons c rest ih =>
    have hh : s.L.head = some c.1 := hr.2.1
    cases fuel with
    | zero => simp at hf
    | succ fuel =>
      obtain ⟨s1, h1, hr1⟩ := list_pop_front_spec hr
      obtain ⟨s2, h2, hr2⟩ := ih hr1 fuel (by simpa using hf)
      refine ⟨s2, ?_, hr2⟩
      rw [drain_list]
      simp [list_is_empty, hh, h1, h2, bind, Except.bind, pure, Except.pure]

theorem push_front_all_spec (xs : List Int) {s : ListState} {cells : List (Nat × Int)}
    (hr : ListRep s cells) :
    ∃ s' cells', push_front_all s xs = .ok s' ∧ ListRep s' cells' ∧
      cells'.map Prod.snd = xs.reverse ++ cells.map Prod.snd := by
  induction xs generalizing s cells with
  | nil => exact ⟨s, cells, rfl, hr, by simp⟩
  | cons x xs ih =>
    obtain ⟨s1, h1, hr1⟩ := list_push_front_spec hr x
    obtain ⟨s2, cells2, h2, hr2, hv⟩ := ih hr1
    refine ⟨s2, cells2, ?_, hr2, ?_⟩
    · simp [push_front_all, h1, h2, bind, Except.bind]
    · simp [hv]

/-! ## Reasoning about singly linked chains -/

theorem sll_frame {α : Type} {mk : Option Nat → Int → α} {h h' : Heap α}
    {cells : List (Nat × Int)} {n : Option Nat}
    (hf : ∀ c ∈ cells, load h' c.1 = load h c.1) (hd : sll mk h cells n) : sll mk h' cells n := by
  induction cells with
  | nil => trivial
  | cons c rest ih =>
    refine ⟨?_, ih (fun d hd' => hf d (List.mem_cons_of_mem _ hd')) hd.2⟩
    rw [hf c (List.mem_cons_self _ _)]
    exact hd.1

theorem sll_append {α : Type} {mk : Option Nat → Int → α} {h : Heap α}
    (l1 l2 : List (Nat × Int)) (n : Option Nat) :
    sll mk h (l1 ++ l2) n ↔ sll mk h l1 (nextOf l2 n) ∧ sll mk h l2 n := by
  induction l1 with
  | nil => simp [sll]
  | cons c l ih =>
    rw [List.cons_append]
    simp only [sll, ih, nextOf_append]
    tauto

theorem sll_lt {α : Type} {mk : Option Nat → Int → α} {h : Heap α}
    {cells : List (Nat × Int)} {n : Option Nat}
    (hd : sll mk h cells n) {c : Nat × Int} (hc : c ∈ cells) : c.1 < h.length := by
  induction cells with
  | nil => cases hc
  | cons d rest ih =>
    rcases List.mem_cons.1 hc with rfl | hc'
    · exact load_lt hd.1
    · exact ih hd.2 hc'

theorem lastOf_of_ne_nil {l : List (Nat × Int)} (hl : l ≠ []) (p q : Option Nat) :
    lastOf l p = lastOf l q := by
  cases l with
  | nil => exact absurd rfl hl
  | cons c l => rfl

/-! ## Specifications of the queue operations on well-formed queues -/

theorem QueueRep_create (h : Heap queue_node) : QueueRep ⟨h, create_queue⟩ [] :=
  ⟨List.nodup_nil, rfl, rfl, trivial⟩

theorem QueueRep_fresh {s : QueueState} {cells : List (Nat × Int)} (hr : QueueRep s cells) :
    ∀ c ∈ cells, c.1 ≠ s.heap.length :=
  fun _ hc => Nat.ne_of_lt (sll_lt hr.2.2.2 hc)

theorem enqueue_spec {s : QueueState} {cells : List (Nat × Int)} (hr : QueueRep s cells)
    (v : Int) :
    ∃ s', enqueue s true v = .ok (.STATUS_OK, s') ∧
      QueueRep s' (cells ++ [(s.heap.length, v)]) := by
  have hfresh := QueueRep_fresh hr
  obtain ⟨hnd, hhead, htail, hd⟩ := hr
  rcases List.eq_nil_or_concat cells with rfl | ⟨init, c, hcells⟩
  · simp only [nextOf, lastOf] at hhead htail
    simp [enqueue, malloc, hhead, htail, assign, load_append_single, load_set, bind,
      Except.bind, pure, Except.pure, QueueRep, sll, nextOf, lastOf]
  · rw [List.concat_eq_append] at hcells
    subst hcells
    rw [lastOf_append] at htail
    simp only [lastOf] at htail
    rw [sll_append] at hd
    have hc : load s.heap c.1 = some { next := none, value := c.2 } := hd.2.1
    have hlt := load_lt hc
    have hne : c.1 ≠ s.heap.length := Nat.ne_of_lt hlt
    have hne' : s.heap.length ≠ c.1 := fun e => hne e.symm
    have hh : s.Q.head ≠ none := by
      rw [hhead]; exact nextOf_ne_none_of_ne_nil (by simp) none
    simp [enqueue, malloc, hh, htail, assign, load_append_single, load_set, bind,
      Except.bind, pure, Except.pure, hc, hne, hne', hlt]
    have e : init ++ [c, (s.heap.length, v)] = init ++ [c] ++ [(s.heap.length, v)] := by simp
    refine ⟨?_, ?_, ?_, ?_⟩
    · rw [e]
      exact nodup_snoc_fresh v hnd (not_mem_of_fresh hfresh)
    · show s.Q.head = _
      rw [hhead, nextOf_append, nextOf_append]
      cases init <;> rfl
    · show some s.heap.length = _
      rw [lastOf_append]; rfl
    · rw [sll_append]
      refine ⟨sll_frame (fun d hd' => ?_) hd.1, ?_, ?_, trivial⟩
      · have h1 : d.1 ≠ s.heap.length := hfresh d (List.mem_append_left _ hd')
        have h2 : d.1 ≠ c.1 :=
          fst_ne_of_nodup_append hnd hd' (List.mem_singleton_self c)
        simp [load_append_single, load_set, h1, h2, hlt]
      · simp [load_append_single, load_set, hne, hlt, nextOf]
      · simp [load_append_single, nextOf]

theorem dequeue_spec {s : QueueState} {c : Nat × Int} {rest : List (Nat × Int)}
    (hr : QueueRep s (c :: rest)) :
    ∃ s', dequeue s = .ok (c.2, s') ∧ QueueRep s' rest := by
  obtain ⟨hnd, hhead, htail, hd⟩ := hr
  simp only [nextOf] at hhead
  have hc := hd.1
  have hlt := load_lt hc
  cases rest with
  | nil =>
    simp only [nextOf] at hc
    simp [dequeue, queue_is_empty, hhead, deref, hc, free, bind, Except.bind, pure,
      Except.pure, QueueRep, sll, nextOf, lastOf]
  | cons d rest =>
    simp only [nextOf] at hc
    simp [dequeue, queue_is_empty, hhead, htail, deref, hc, free, bind, Except.bind, pure,
      Except.pure]
    refine ⟨(List.nodup_cons.1 hnd).2, rfl, rfl, ?_⟩
    refine sll_frame (fun x hx => ?_) hd.2
    have h1 : x.1 ≠ c.1 := fun e =>
      (List.nodup_cons.1 hnd).1 (e ▸ List.mem_map_of_mem Prod.fst hx)
    simp [load_set, hlt, h1]

theorem peek_queue_spec {s : QueueState} {c : Nat × Int} {rest : List (Nat × Int)}
    (hr : QueueRep s (c :: rest)) : peek_queue s = .ok (c.2, s) := by
  obtain ⟨_, hhead, _, hd⟩ := hr
  simp only [nextOf] at hhead
  simp [peek_queue, queue_is_empty, hhead, deref, hd.1, bind, Except.bind, pure, Except.pure]

/-! ## Specifications of the stack operations on well-formed stacks -/

theorem StackRep_create (h : Heap stack_node) : StackRep ⟨h, create_stack⟩ [] :=
  ⟨List.nodup_nil, rfl, trivial⟩

theorem push_spec {s : StackState} {cells : List (Nat × Int)} (hr : StackRep s cells)
    (v : Int) :
    ∃ s', push s true v = .ok (.STATUS_OK, s') ∧ StackRep s' ((s.heap.length, v) :: cells) := by
  obtain ⟨hnd, hhead, hd⟩ := hr
  have hfresh : ∀ c ∈ cells, c.1 ≠ s.heap.length := fun _ hc => Nat.ne_of_lt (sll_lt hd hc)
  simp [push, malloc, assign, load_append_single, load_set, bind, Except.bind, pure,
    Except.pure]
  refine ⟨List.nodup_cons.2 ⟨not_mem_of_fresh hfresh, hnd⟩, rfl, ?_, ?_⟩
  · simp [load_append_single, hhead]
  · refine sll_frame (fun x hx => ?_) hd
    simp [load_append_single, hfresh x hx]

theorem pop_spec {s : StackState} {c : Nat × Int} {rest : List (Nat × Int)}
    (hr : StackRep s (c :: rest)) :
    ∃ s', pop s = .ok (c.2, s') ∧ StackRep s' rest := by
  obtain ⟨hnd, hhead, hd⟩ := hr
  simp only [nextOf] at hhead
  have hc := hd.1
  have hlt := load_lt hc
  simp [pop, stack_is_empty, hhead, deref, hc, free, bind, Except.bind, pure, Except.pure]
  refine ⟨(List.nodup_cons.1 hnd).2, rfl, ?_⟩
  refine sll_frame (fun x hx => ?_) hd.2
  have h1 : x.1 ≠ c.1 := fun e =>
    (List.nodup_cons.1 hnd).1 (e ▸ List.mem_map_of_mem Prod.fst hx)
  simp [load_set, hlt, h1]

theorem peek_stack_spec {s : StackState} {c : Nat × Int} {rest : List (Nat × Int)}
    (hr : StackRep s (c :: rest)) : peek_stack s = .ok (c.2, s) := by
  obtain ⟨_, hhead, hd⟩ := hr
  simp only [nextOf] at hhead
  simp [peek_stack, stack_is_empty, hhead, deref, hd.1, bind, Except.bind, pure, Except.pure]

/-! ## The clear loops -/

theorem clear_list_loop_spec {cells : List (Nat × Int)} {s : ListState} {p : Option Nat}
    (hnd : (cells.map Prod.fst).Nodup) (hhead : s.L.head = nextOf cells none)
    (hd : dll s.heap p cells none) (fuel : Nat) (hf : cells.length ≤ fuel) :
    ∃ s', clear_list_loop fuel s = .ok s' ∧ s'.L.head = none ∧ s'.L.tail = s.L.tail := by
  induction cells generalizing s p fuel with
  | nil =>
    refine ⟨s, ?_, hhead, rfl⟩
    unfold clear_list_loop
    simp [hhead, nextOf]
  | cons c rest ih =>
    cases fuel with
    | zero => simp at hf
    | succ fuel =>
      have hc := hd.1
      have hlt := load_lt hc
      have hd' : dll (s.heap.set c.1 none) (some c.1) rest none := by
        refine dll_frame (fun x hx => ?_) hd.2
        have h1 : x.1 ≠ c.1 := fun e =>
          (List.nodup_cons.1 hnd).1 (e ▸ List.mem_map_of_mem Prod.fst hx)
        simp [load_set, hlt, h1]
      obtain ⟨s', h1, h2, h3⟩ :=
        ih (s := { heap := s.heap.set c.1 none, L := { s.L with head := nextOf rest none } })
          (List.nodup_cons.1 hnd).2 rfl hd' fuel (by simpa using hf)
      refine ⟨s', ?_, h2, h3⟩
      rw [clear_list_loop]
      simp only [nextOf] at hhead
      simp [hhead, deref, hc, free, bind, Except.bind, h1]

theorem clear_list_spec {s : ListState} {cells : List (Nat × Int)} (hr : ListRep s cells)
    (fuel : Nat) (hf : cells.length ≤ fuel) :
    ∃ s', clear_list fuel s = .ok s' ∧ s'.L.head = none ∧ s'.L.tail = none ∧
      ∀ fuel', clear_list fuel' s' = .ok s' := by
  obtain ⟨s1, h1, h2, _⟩ := clear_list_loop_spec hr.1 hr.2.1 hr.2.2.2 fuel hf
  refine ⟨{ s1 with L := { s1.L with tail := none } }, ?_, h2, rfl, ?_⟩
  · simp [clear_list, h1, bind, Except.bind, pure, Except.pure]
  · intro fuel'
    unfold clear_list clear_list_loop
    simp [h2, bind, Except.bind, pure, Except.pure]

theorem clear_queue_loop_spec {cells : List (Nat × Int)} {s : QueueState}
    (hnd : (cells.map Prod.fst).Nodup) (hhead : s.Q.head = nextOf cells none)
    (hd : sll queue_node.mk s.heap cells none) (fuel : Nat) (hf : cells.length ≤ fuel) :
    ∃ s', clear_queue_loop fuel s = .ok s' ∧ s'.Q.head = none ∧ s'.Q.tail = s.Q.tail := by
  induction cells generalizing s fuel with
  | nil =>
    refine ⟨s, ?_, hhead, rfl⟩
    unfold clear_queue_loop
    simp [hhead, nextOf]
  | cons c rest ih =>
    cases fuel with
    | zero => simp at hf
    | succ fuel =>
      have hc := hd.1
      have hlt := load_lt hc
      have hd' : sll queue_node.mk (s.heap.set c.1 none) rest none := by
        refine sll_frame (fun x hx => ?_) hd.2
        have h1 : x.1 ≠ c.1 := fun e =>
          (List.nodup_cons.1 hnd).1 (e ▸ List.mem_map_of_mem Prod.fst hx)
        simp [load_set, hlt, h1]
      obtain ⟨s', h1, h2, h3⟩ :=
        ih (s := { heap := s.heap.set c.1 none, Q := { s.Q with head := nextOf rest none } })
          (List.nodup_cons.1 hnd).2 rfl hd' fuel (by simpa using hf)
      refine ⟨s', ?_, h2, h3⟩
      rw [clear_queue_loop]
      simp only [nextOf] at hhead
      simp [hhead, deref, hc, free, bind, Except.bind, h1]

theorem clear_queue_spec {s : QueueState} {cells : List (Nat × Int)} (hr : QueueRep s cells)
    (fuel : Nat) (hf : cells.length ≤ fuel) :
    ∃ s', clear_queue fuel s = .ok s' ∧ s'.Q.head = none ∧ s'.Q.tail = none ∧
      ∀ fuel', clear_queue fuel' s' = .ok s' := by
  obtain ⟨s1, h1, h2, _⟩ := clear_queue_loop_spec hr.1 hr.2.1 hr.2.2.2 fuel hf
  refine ⟨{ s1 with Q := { s1.Q with tail := none } }, ?_, h2, rfl, ?_⟩
  · simp [clear_queue, h1, bind, Except.bind, pure, Except.pure]
  · intro fuel'
    unfold clear_queue clear_queue_loop
    simp [h2, bind, Except.bind, pure, Except.pure]

theorem clear_stack_spec {cells : List (Nat × Int)} {s : StackState}
    (hr : StackRep s cells) (fuel : Nat) (hf : cells.length ≤ fuel) :
    ∃ s', clear_stack fuel s = .ok s' ∧ s'.S.head = none ∧
      ∀ fuel', clear_stack fuel' s' = .ok s' := by
  obtain ⟨hnd, hhead, hd⟩ := hr
  induction cells generalizing s fuel with
  | nil =>
    refine ⟨s, ?_, hhead, ?_⟩
    · unfold clear_stack
      simp [hhead, nextOf]
    · intro fuel'
      unfold clear_stack
      simp [hhead, nextOf]
  | cons c rest ih =>
    cases fuel with
    | zero => simp at hf
    | succ fuel =>
      have hc := hd.1
      have hlt := load_lt hc
      have hd' : sll stack_node.mk (s.heap.set c.1 none) rest none := by
        refine sll_frame (fun x hx => ?_) hd.2
        have h1 : x.1 ≠ c.1 := fun e =>
          (List.nodup_cons.1 hnd).1 (e ▸ List.mem_map_of_mem Prod.fst hx)
        simp [load_set, hlt, h1]
      obtain ⟨s', h1, h2, h3⟩ :=
        ih (s := { heap := s.heap.set c.1 none, S := { s.S with head := nextOf rest none } })
          fuel (by simpa using hf) (List.nodup_cons.1 hnd).2 rfl hd'
      refine ⟨s', ?_, h2, h3⟩
      rw [clear_stack]
      simp only [nextOf] at hhead
      simp [hhead, deref, hc, free, bind, Except.bind, h1]

/-! ## Simulation of the reference sequences -/

theorem apply_queue_op_sim {s : QueueState} {cells : List (Nat × Int)} (hr : QueueRep s cells)
    {op : QueueOp} {o : Option Int} {vs : List Int}
    (href : ref_queue_op (cells.map Prod.snd) op = some (o, vs)) :
    ∃ s' cells', apply_queue_op s op = .ok (o, s') ∧ QueueRep s' cells' ∧
      cells'.map Prod.snd = vs := by
  cases op with
  | enqueue v =>
    obtain ⟨s', h1, h2⟩ := enqueue_spec hr v
    simp only [ref_queue_op, Option.some.injEq, Prod.mk.injEq] at href
    obtain ⟨rfl, rfl⟩ := href
    exact ⟨s', _, by simp [apply_queue_op, h1, bind, Except.bind, pure, Except.pure], h2,
      by simp⟩
  | dequeue =>
    cases cells with
    | nil => simp [ref_queue_op] at href
    | cons c rest =>
      obtain ⟨s', h1, h2⟩ := dequeue_spec hr
      simp only [ref_queue_op, List.map_cons, Option.some.injEq, Prod.mk.injEq] at href
      obtain ⟨rfl, rfl⟩ := href
      exact ⟨s', _, by simp [apply_queue_op, h1, bind, Except.bind, pure, Except.pure], h2, rfl⟩
  | peek =>
    cases cells with
    | nil => simp [ref_queue_op] at href
    | cons c rest =>
      have h1 := peek_queue_spec hr
      simp only [ref_queue_op, List.map_cons, Option.some.injEq, Prod.mk.injEq] at href
      obtain ⟨rfl, rfl⟩ := href
      exact ⟨s, _, by simp [apply_queue_op, h1, bind, Except.bind, pure, Except.pure], hr, rfl⟩

theorem run_queue_ops_sim (ops : List QueueOp) {s : QueueState} {cells : List (Nat × Int)}
    (hr : QueueRep s cells) {outs vs : List Int}
    (href : ref_run_queue (cells.map Prod.snd) ops = some (outs, vs)) :
    ∃ s' cells', run_queue_ops s ops = .ok (outs, s') ∧ QueueRep s' cells' ∧
      cells'.map Prod.snd = vs := by
  induction ops generalizing s cells outs with
  | nil =>
    simp only [ref_run_queue, Option.some.injEq, Prod.mk.injEq] at href
    obtain ⟨rfl, rfl⟩ := href
    exact ⟨s, cells, rfl, hr, rfl⟩
  | cons op ops ih =>
    simp only [ref_run_queue] at href
    cases h1 : ref_queue_op (cells.map Prod.snd) op with
    | none => simp [h1] at href
    | some r =>
      obtain ⟨o, xs1⟩ := r
      simp only [h1] at href
      obtain ⟨s1, cells1, ha, hr1, hv1⟩ := apply_queue_op_sim hr h1
      subst hv1
      cases h2 : ref_run_queue (cells1.map Prod.snd) ops with
      | none => simp [h2] at href
      | some r2 =>
        obtain ⟨outs2, xs2⟩ := r2
        simp only [h2, Option.some.injEq, Prod.mk.injEq] at href
        obtain ⟨rfl, rfl⟩ := href
        obtain ⟨s2, cells2, hb, hr2, hv2⟩ := ih hr1 h2
        exact ⟨s2, cells2, by simp [run_queue_ops, ha, hb, bind, Except.bind, pure, Except.pure],
          hr2, hv2⟩

theorem drain_queue_spec {s : QueueState} {cells : List (Nat × Int)} (hr : QueueRep s cells)
    (fuel : Nat) (hf : cells.length ≤ fuel) :
    ∃ s', drain_queue fuel s = .ok (cells.map Prod.snd, s') ∧ QueueRep s' [] := by
  induction cells generalizing s fuel with
  | nil =>
    have hh : s.Q.head = none := hr.2.1
    refine ⟨s, ?_, hr⟩
    unfold drain_queue
    simp [queue_is_empty, hh]
  | cons c rest ih =>
    have hh : s.Q.head = some c.1 := hr.2.1
    cases fuel with
    | zero => simp at hf
    | succ fuel =>
      obtain ⟨s1, h1, hr1⟩ := dequeue_spec hr
      obtain ⟨s2, h2, hr2⟩ := ih hr1 fuel (by simpa using hf)
      refine ⟨s2, ?_, hr2⟩
      rw [drain_queue]
      simp [queue_is_empty, hh, h1, h2, bind, Except.bind, pure, Except.pure]

theorem push_all_spec (xs : List Int) {s : StackState} {cells : List (Nat × Int)}
    (hr : StackRep s cells) :
    ∃ s' cells', push_all s xs = .ok s' ∧ StackRep s' cells' ∧
      cells'.map Prod.snd = xs.reverse ++ cells.map Prod.snd := by
  induction xs generalizing s cells with
  | nil => exact ⟨s, cells, rfl, hr, by simp⟩
  | cons x xs ih =>
    obtain ⟨s1, h1, hr1⟩ := push_spec hr x
    obtain ⟨s2, cells2, h2, hr2, hv⟩ := ih hr1
    refine ⟨s2, cells2, ?_, hr2, ?_⟩
    · simp [push_all, h1, h2, bind, Except.bind]
    · simp [hv]

theorem pop_n_spec {s : StackState} {cells : List (Nat × Int)} (hr : StackRep s cells) :
    ∃ s', pop_n cells.length s = .ok (cells.map Prod.snd, s') ∧ StackRep s' [] := by
  induction cells generalizing s with
  | nil => exact ⟨s, rfl, hr⟩
  | cons c rest ih =>
    obtain ⟨s1, h1, hr1⟩ := pop_spec hr
    obtain ⟨s2, h2, hr2⟩ := ih hr1
    refine ⟨s2, ?_, hr2⟩
    simp [pop_n, h1, h2, bind, Except.bind, pure, Except.pure]

theorem walk_stack_congr {h h' : Heap stack_node} (hl : ∀ a, load h' a = load h a)
    (fuel : Nat) (p : Option Nat) : walk_stack h' fuel p = walk_stack h fuel p := by
  induction fuel generalizing p with
  | zero => unfold walk_stack; rfl
  | succ fuel ih =>
    cases p with
    | none => unfold walk_stack; rfl
    | some a =>
      rw [walk_stack, walk_stack]
      simp only [deref, hl, ih]

theorem walk_stack_sll {h : Heap stack_node} {cells : List (Nat × Int)}
    (hd : sll stack_node.mk h cells none) (fuel : Nat) (hf : cells.length ≤ fuel) :
    walk_stack h fuel (nextOf cells none) = .ok (cells.map Prod.snd) := by
  induction cells generalizing fuel with
  | nil => unfold walk_stack; simp [nextOf]
  | cons c rest ih =>
    cases fuel with
    | zero => simp at hf
    | succ fuel =>
      have hrest := ih hd.2 fuel (by simpa using hf)
      show walk_stack h (fuel + 1) (some c.1) = _
      rw [walk_stack]
      simp [deref, hd.1, hrest, bind, Except.bind, pure, Except.pure]

/-! ## What `erase_list_item` does on a well-formed list -/

theorem erase_list_item_spec {s : ListState} {l1 l2 : List (Nat × Int)} {w : Nat × Int}
    (hr : ListRep s (l1 ++ w :: l2)) :
    ∃ s', erase_list_item s (some w.1) = .ok s' ∧
      s'.L.head = (if l1 = [] then none else s.L.head) ∧
      s'.L.tail = (if l2 = [] then none else s.L.tail) ∧
      dll s'.heap none (l1 ++ l2) none ∧ load s'.heap w.1 = load s.heap w.1 := by
  obtain ⟨hnd, hhead, htail, hd⟩ := hr
  rw [dll_append] at hd
  have hw : load s.heap w.1 =
      some { prev := lastOf l1 none, next := nextOf l2 none, value := w.2 } := hd.2.1
  have hwlt := load_lt hw
  have hnd' : (((l1 ++ [w]) ++ l2).map Prod.fst).Nodup := by
    rw [List.append_assoc]; exact hnd
  have hne2 : ∀ x ∈ l2, x.1 ≠ w.1 := fun x hx e =>
    fst_ne_of_nodup_append hnd' (List.mem_append_right l1 (List.mem_singleton_self w)) hx e.symm
  have hne1 : ∀ x ∈ l1, x.1 ≠ w.1 := fun x hx =>
    fst_ne_of_nodup_append hnd hx (List.mem_cons_self w l2)
  have hne12 : ∀ x ∈ l1, ∀ y ∈ l2, x.1 ≠ y.1 := fun x hx y hy =>
    fst_ne_of_nodup_append hnd hx (List.mem_cons_of_mem w hy)
  have hndl1 : (l1.map Prod.fst).Nodup := by
    rw [List.map_append, List.nodup_append] at hnd
    exact hnd.1
  have hndl2 : (l2.map Prod.fst).Nodup := by
    rw [List.map_append, List.nodup_append] at hnd
    exact (List.nodup_cons.1 hnd.2.1).2
  rcases List.eq_nil_or_concat l1 with hl1 | ⟨init, c, hl1⟩
  · subst hl1
    simp only [lastOf] at hw
    cases l2 with
    | nil =>
      simp only [nextOf] at hw
      simp [erase_list_item, deref, hw, bind, Except.bind, pure, Except.pure, dll]
    | cons d rest =>
      simp only [nextOf] at hw
      have hdl : load s.heap d.1 =
          some { prev := some w.1, next := nextOf rest none, value := d.2 } := hd.2.2.1
      have hdlt := load_lt hdl
      have hwd : w.1 ≠ d.1 := fun e => hne2 d (List.mem_cons_self _ _) e.symm
      simp [erase_list_item, deref, assign, hw, hdl, bind, Except.bind, pure, Except.pure,
        load_set, hdlt, hwd]
      refine ⟨?_, ?_⟩
      · simp [load_set, hdlt]
      · refine dll_frame (fun x hx => ?_) hd.2.2.2
        have h1 : x.1 ≠ d.1 := fun e =>
          (List.nodup_cons.1 hndl2).1 (e ▸ List.mem_map_of_mem Prod.fst hx)
        simp [load_set, hdlt, h1]
  · rw [List.concat_eq_append] at hl1
    subst hl1
    have hlast : lastOf (init ++ [c]) none = some c.1 := by rw [lastOf_append]; rfl
    rw [hlast] at hw
    have hd1 := hd.1
    rw [dll_append] at hd1
    have hcmem : c ∈ init ++ [c] := List.mem_append_right init (List.mem_singleton_self c)
    have hcw : c.1 ≠ w.1 := hne1 c hcmem
    have hwc : w.1 ≠ c.1 := fun e => hcw e.symm
    have hinit : ∀ x ∈ init, x.1 ≠ c.1 := fun x hx =>
      fst_ne_of_nodup_append hndl1 hx (List.mem_singleton_self c)
    have hnil : init ++ [c] ≠ [] := by simp
    cases l2 with
    | nil =>
      simp only [nextOf] at hw hd1
      have hc : load s.heap c.1 =
          some { prev := lastOf init none, next := some w.1, value := c.2 } := hd1.2.1
      have hclt := load_lt hc
      simp [erase_list_item, deref, assign, hw, hc, bind, Except.bind, pure, Except.pure,
        load_set, hclt, hwc]
      rw [dll_append]
      refine ⟨dll_frame (fun x hx => ?_) hd1.1, ?_, trivial⟩
      · simp [load_set, hclt, hinit x hx]
      · simp [load_set, hclt, nextOf]
    | cons d rest =>
      simp only [nextOf] at hw hd1
      have hc : load s.heap c.1 =
          some { prev := lastOf init none, next := some w.1, value := c.2 } := hd1.2.1
      have hclt := load_lt hc
      have hdl : load s.heap d.1 =
          some { prev := some w.1, next := nextOf rest none, value := d.2 } := hd.2.2.1
      have hdlt := load_lt hdl
      have hwd : w.1 ≠ d.1 := fun e => hne2 d (List.mem_cons_self _ _) e.symm
      have hcd : c.1 ≠ d.1 := hne12 c hcmem d (List.mem_cons_self _ _)
      have hdc : d.1 ≠ c.1 := fun e => hcd e.symm
      simp [erase_list_item, deref, assign, hw, hc, hdl, bind, Except.bind, pure, Except.pure,
        load_set, hclt, hdlt, hwc, hwd, hcd, hdc]
      rw [dll_append]
      refine ⟨dll_frame (fun x hx => ?_) hd1.1, ?_, ?_, ?_⟩
      · have h2 : x.1 ≠ d.1 :=
          hne12 x (List.mem_append_left _ hx) d (List.mem_cons_self _ _)
        simp [load_set, hclt, hdlt, hinit x hx, h2]
      · simp [load_set, hclt, hdlt, hcd, nextOf]
      · simp [load_set, hclt, hdlt]
      · refine dll_frame (fun x hx => ?_) hd.2.2.2
        have h1 : x.1 ≠ d.1 := fun e =>
          (List.nodup_cons.1 hndl2).1 (e ▸ List.mem_map_of_mem Prod.fst hx)
        have h2 : x.1 ≠ c.1 := fun e =>
          hne12 c hcmem x (List.mem_cons_of_mem _ hx) e.symm
        simp [load_set, hclt, hdlt, h1, h2]

/-! ## Where a failed assertion can come from -/

theorem bind_ne_assert {α β : Type} {x : Except Fault α} {f : α → Except Fault β}
    (hx : x ≠ .error .assert_failed) (hf : ∀ a, f a ≠ .error .assert_failed) :
    (x >>= f) ≠ .error .assert_failed := by
  cases x with
  | error e => simpa [bind, Except.bind] using hx
  | ok a => simpa [bind, Except.bind] using hf a

theorem deref_ne_assert {α : Type} (h : Heap α) (p : Option Nat) :
    deref h p ≠ .error .assert_failed := by
  unfold deref
  repeat' split
  all_goals simp

theorem assign_ne_assert {α : Type} (h : Heap α) (p : Option Nat) (f : α → α) :
    assign h p f ≠ .error .assert_failed := by
  unfold assign
  repeat' split
  all_goals simp

theorem free_ne_assert {α : Type} (h : Heap α) (p : Option Nat) :
    free h p ≠ .error .assert_failed := by
  unfold free
  repeat' split
  all_goals simp

theorem pure_ne_assert {α : Type} (a : α) :
    (pure a : Except Fault α) ≠ .error .assert_failed := by
  simp [pure, Except.pure]

theorem list_pop_front_assert_iff (s : ListState) :
    list_pop_front s = .error .assert_failed ↔ list_is_empty s.L = true := by
  cases hh : s.L.head with
  | none => simp [list_pop_front, list_is_empty, hh]
  | some a =>
    have : list_pop_front s ≠ .error .assert_failed := by
      simp only [list_pop_front, list_is_empty, hh, Option.isNone_some, Bool.false_eq_true,
        if_false]
      refine bind_ne_assert (deref_ne_assert _ _) (fun hd => ?_)
      split
      · exact bind_ne_assert (assign_ne_assert _ _ _) (fun h1 =>
          bind_ne_assert (deref_ne_assert _ _) (fun old =>
            bind_ne_assert (free_ne_assert _ _) (fun h2 => pure_ne_assert _)))
      · exact bind_ne_assert (pure_ne_assert _) (fun h1 =>
          bind_ne_assert (deref_ne_assert _ _) (fun old =>
            bind_ne_assert (free_ne_assert _ _) (fun h2 => pure_ne_assert _)))
    simp [this, list_is_empty, hh]

theorem dequeue_assert_iff (s : QueueState) :
    dequeue s = .error .assert_failed ↔ queue_is_empty s.Q = true := by
  cases hh : s.Q.head with
  | none => simp [dequeue, queue_is_empty, hh]
  | some a =>
    have : dequeue s ≠ .error .assert_failed := by
      simp only [dequeue, queue_is_empty, hh, Option.isNone_some, Bool.false_eq_true, if_false]
      exact bind_ne_assert (deref_ne_assert _ _) (fun old =>
        bind_ne_assert (free_ne_assert _ _) (fun h1 => pure_ne_assert _))
    simp [this, queue_is_empty, hh]

theorem peek_queue_assert_iff (s : QueueState) :
    peek_queue s = .error .assert_failed ↔ queue_is_empty s.Q = true := by
  cases hh : s.Q.head with
  | none => simp [peek_queue, queue_is_empty, hh]
  | some a =>
    have : peek_queue s ≠ .error .assert_failed := by
      simp only [peek_queue, queue_is_empty, hh, Option.isNone_some, Bool.false_eq_true,
        if_false]
      exact bind_ne_assert (deref_ne_assert _ _) (fun hd => pure_ne_assert _)
    simp [this, queue_is_empty, hh]

theorem pop_assert_iff (s : StackState) :
    pop s = .error .assert_failed ↔ stack_is_empty s.S = true := by
  cases hh : s.S.head with
  | none => simp [pop, stack_is_empty, hh]
  | some a =>
    have : pop s ≠ .error .assert_failed := by
      simp only [pop, stack_is_empty, hh, Option.isNone_some, Bool.false_eq_true, if_false]
      exact bind_ne_assert (deref_ne_assert _ _) (fun hd =>
        bind_ne_assert (deref_ne_assert _ _) (fun old =>
          bind_ne_assert (free_ne_assert _ _) (fun h1 => pure_ne_assert _)))
    simp [this, stack_is_empty, hh]

theorem peek_stack_assert_iff (s : StackState) :
    peek_stack s = .error .assert_failed ↔ stack_is_empty s.S = true := by
  cases hh : s.S.head with
  | none => simp [peek_stack, stack_is_empty, hh]
  | some a =>
    have : peek_stack s ≠ .error .assert_failed := by
      simp only [peek_stack, stack_is_empty, hh, Option.isNone_some, Bool.false_eq_true,
        if_false]
      exact bind_ne_assert (deref_ne_assert _ _) (fun hd => pure_ne_assert _)
    simp [this, stack_is_empty, hh]

/-! ## The claims -/

/-- C1, evaluated at a failing input. The list 10, 20, 30 is built with
`list_push_back`; `erase_list_item` is called on the node at index 0. The call
returns normally, but `head` is `NULL` afterwards while `tail` still points to
the last node, and the forward traversal from `head` is empty instead of
20, 30. -/
theorem erase_list_item_head_of_three :
    (do
      let s ← push_back_all ⟨[], list_create⟩ [10, 20, 30]
      let p ← advance s.heap 0 s.L.head
      let s1 ← erase_list_item s p
      let vs ← list_forward 3 s1
      pure (vs, s1.L)) =
    (.ok ([], { head := none, tail := some 2 }) : Except Fault (List Int × list)) := by
  rfl

/-- C2, evaluated at a failing input. The list 10, 20 is built with
`list_push_back`; `erase_list_item` is called on its tail node. Afterwards the
forward traversal from `head` yields 10 and the backward traversal from `tail`
yields nothing, so the two are not reverses of each other. -/
theorem erase_list_item_tail_breaks_symmetry :
    (do
      let s ← push_back_all ⟨[], list_create⟩ [10, 20]
      let s1 ← erase_list_item s s.L.tail
      let f ← list_forward 2 s1
      let b ← list_backward 2 s1
      pure (f, b, s1.L)) =
    (.ok ([10], [], { head := some 0, tail := none }) :
      Except Fault (List Int × List Int × list)) := by
  rfl

/-- C3. Starting from the empty list (in any heap), every sequence of
`list_push_front`, `list_push_back` and `list_pop_front` calls that the
reference sequence admits (no pop of the empty sequence) runs without fault,
returns exactly the popped values of the reference, and leaves a list whose
forward traversal and whose drain by `list_pop_front` both give the reference
sequence, the drain ending with an empty list. In particular pushing `xs` with
`list_push_front` and draining yields `xs` reversed, and 0..9 yields 9..0. -/
theorem list_simulates_reference_sequence :
    (∀ (h : Heap list_node) (ops : List ListOp) (outs vs : List Int),
      ref_run_list [] ops = some (outs, vs) →
      ∃ s', run_list_ops ⟨h, list_create⟩ ops = .ok (outs, s') ∧
        (∀ fuel, vs.length ≤ fuel → list_forward fuel s' = .ok vs) ∧
        (∀ fuel, vs.length ≤ fuel →
          ∃ s'', drain_list fuel s' = .ok (vs, s'') ∧ list_is_empty s''.L = true)) ∧
    (∀ (h : Heap list_node) (xs : List Int),
      ∃ s s', push_front_all ⟨h, list_create⟩ xs = .ok s ∧
        drain_list xs.length s = .ok (xs.reverse, s') ∧ list_is_empty s'.L = true) ∧
    (∃ s s', push_front_all ⟨[], list_create⟩ [0, 1, 2, 3, 4, 5, 6, 7, 8, 9] = .ok s ∧
      drain_list 10 s = .ok ([9, 8, 7, 6, 5, 4, 3, 2, 1, 0], s') ∧
      list_is_empty s'.L = true) := by
  have hpush : ∀ (h : Heap list_node) (xs : List Int),
      ∃ s s', push_front_all ⟨h, list_create⟩ xs = .ok s ∧
        drain_list xs.length s = .ok (xs.reverse, s') ∧ list_is_empty s'.L = true := by
    intro h xs
    obtain ⟨s, cells, h1, hr, hv⟩ := push_front_all_spec xs (ListRep_create h)
    have hlen : cells.length = xs.length := by
      have := congrArg List.length hv
      simpa using this
    obtain ⟨s', h2, hr'⟩ := drain_list_spec hr xs.length (by omega)
    refine ⟨s, s', h1, ?_, ?_⟩
    · rw [h2, hv]; simp
    · simp [list_is_empty, hr'.2.1, nextOf]
  refine ⟨?_, hpush, hpush [] [0, 1, 2, 3, 4, 5, 6, 7, 8, 9]⟩
  intro h ops outs vs href
  obtain ⟨s', cells', h1, hr, hv⟩ := run_list_ops_sim ops (ListRep_create h) href
  subst hv
  refine ⟨s', h1, ?_, ?_⟩
  · intro fuel hf
    exact list_forward_spec hr fuel (by simpa using hf)
  · intro fuel hf
    obtain ⟨s'', h2, hr'⟩ := drain_list_spec hr fuel (by simpa using hf)
    exact ⟨s'', h2, by simp [list_is_empty, hr'.2.1, nextOf]⟩

/-- Witness for C3: push 1 at the front, push 2 at the back, pop (returns 1);
the list then holds 2. -/
theorem list_simulates_reference_sequence_witness :
    ref_run_list [] [.push_front 1, .push_back 2, .pop_front] = some ([1], [2]) ∧
    ∃ s', run_list_ops ⟨[], list_create⟩ [.push_front 1, .push_back 2, .pop_front] =
        .ok ([1], s') ∧
      (∀ fuel, [(2 : Int)].length ≤ fuel → list_forward fuel s' = .ok [2]) ∧
      (∀ fuel, [(2 : Int)].length ≤ fuel →
        ∃ s'', drain_list fuel s' = .ok ([2], s'') ∧ list_is_empty s''.L = true) :=
  ⟨by decide, list_simulates_reference_sequence.1 [] _ _ _ (by decide)⟩

/-- C4. On a well-formed list with nodes `cells`, `insert_list_item` with
`Where` the node at index `i` (`NULL` when `i` is the length), allocation
granted, returns the freshly allocated node and leaves a well-formed list in
which that node, holding `v`, sits at index `i` in front of the old nodes from
index `i` on: the forward traversal is the old sequence with `v` inserted at
index `i`. With `Where = NULL` the call is `list_push_back`. -/
theorem insert_list_item_inserts_at_index (s : ListState) (cells : List (Nat × Int))
    (hr : ListRep s cells) (i : Nat) (hi : i ≤ cells.length) (v : Int) :
    (∃ s', insert_list_item s ((cells[i]?).map Prod.fst) true v =
          .ok (some s.heap.length, s') ∧
        load s.heap s.heap.length = none ∧
        ListRep s' (cells.take i ++ (s.heap.length, v) :: cells.drop i) ∧
        ∀ fuel, cells.length + 1 ≤ fuel →
          list_forward fuel s' =
            .ok ((cells.map Prod.snd).take i ++ v :: (cells.map Prod.snd).drop i)) ∧
    (∀ (granted : Bool), insert_list_item s none granted v = list_push_back s granted v) := by
  refine ⟨?_, fun g => by simp [insert_list_item]⟩
  have key : ∃ s', insert_list_item s ((cells[i]?).map Prod.fst) true v =
        .ok (some s.heap.length, s') ∧
      ListRep s' (cells.take i ++ (s.heap.length, v) :: cells.drop i) := by
    rcases Nat.lt_or_ge i cells.length with hlt | hge
    · have hsplit : cells = cells.take i ++ cells[i] :: cells.drop (i + 1) := by
        rw [← List.drop_eq_getElem_cons hlt, List.take_append_drop]
      have hr2 : ListRep s (cells.take i ++ cells[i] :: cells.drop (i + 1)) := by
        rw [← hsplit]; exact hr
      obtain ⟨s', h1, h2⟩ := insert_list_item_spec hr2 v
      refine ⟨s', ?_, ?_⟩
      · rw [List.getElem?_eq_getElem hlt]
        exact h1
      · rw [List.drop_eq_getElem_cons hlt]
        exact h2
    · have hi' : i = cells.length := Nat.le_antisymm hi hge
      subst hi'
      obtain ⟨s', h1, h2⟩ := list_push_back_spec hr v
      refine ⟨s', ?_, ?_⟩
      · simp [insert_list_item, h1]
      · simpa using h2
  obtain ⟨s', h1, h2⟩ := key
  refine ⟨s', h1, load_length _, h2, ?_⟩
  intro fuel hf
  rw [list_forward_spec h2 fuel (by simp; omega)]
  simp [List.map_take, List.map_drop]

/-- Witness for C4: inserting 9 before the node at index 1 of the list 7, 8. -/
theorem insert_list_item_inserts_at_index_witness :
    ListRep sample_list [(0, 7), (1, 8)] ∧
    ((∃ s', insert_list_item sample_list (([((0 : Nat), (7 : Int)), (1, 8)][1]?).map Prod.fst)
          true 9 = .ok (some sample_list.heap.length, s') ∧
        load sample_list.heap sample_list.heap.length = none ∧
        ListRep s' ([(0, 7), (1, 8)].take 1 ++
          (sample_list.heap.length, 9) :: [(0, 7), (1, 8)].drop 1) ∧
        ∀ fuel, [((0 : Nat), (7 : Int)), (1, 8)].length + 1 ≤ fuel →
          list_forward fuel s' =
            .ok (([((0 : Nat), (7 : Int)), (1, 8)].map Prod.snd).take 1 ++
              9 :: ([((0 : Nat), (7 : Int)), (1, 8)].map Prod.snd).drop 1)) ∧
      (∀ (granted : Bool),
        insert_list_item sample_list none granted 9 = list_push_back sample_list granted 9)) :=
  ⟨by decide,
    insert_list_item_inserts_at_index sample_list [(0, 7), (1, 8)] (by decide) 1 (by decide) 9⟩

/-- C5. Starting from the empty queue (in any heap), every sequence of
`enqueue`, `dequeue` and `peek_queue` calls that the reference FIFO sequence
admits (no dequeue or peek of the empty sequence) runs without fault and
returns exactly the values of the reference; draining what is left with
`dequeue` gives the remaining reference sequence, oldest value first. In
particular enqueue 1, 2, 3, dequeue, peek, dequeue, dequeue returns 1, 2, 2, 3. -/
theorem queue_simulates_reference_fifo :
    (∀ (h : Heap queue_node) (ops : List QueueOp) (outs vs : List Int),
      ref_run_queue [] ops = some (outs, vs) →
      ∃ s', run_queue_ops ⟨h, create_queue⟩ ops = .ok (outs, s') ∧
        ∀ fuel, vs.length ≤ fuel →
          ∃ s'', drain_queue fuel s' = .ok (vs, s'') ∧ queue_is_empty s''.Q = true) ∧
    (∃ s', run_queue_ops ⟨[], create_queue⟩
        [.enqueue 1, .enqueue 2, .enqueue 3, .dequeue, .peek, .dequeue, .dequeue] =
      .ok ([1, 2, 2, 3], s') ∧ queue_is_empty s'.Q = true) := by
  have hgen : ∀ (h : Heap queue_node) (ops : List QueueOp) (outs vs : List Int),
      ref_run_queue [] ops = some (outs, vs) →
      ∃ s', run_queue_ops ⟨h, create_queue⟩ ops = .ok (outs, s') ∧
        ∀ fuel, vs.length ≤ fuel →
          ∃ s'', drain_queue fuel s' = .ok (vs, s'') ∧ queue_is_empty s''.Q = true := by
    intro h ops outs vs href
    obtain ⟨s', cells', h1, hr, hv⟩ := run_queue_ops_sim ops (QueueRep_create h) href
    subst hv
    refine ⟨s', h1, ?_⟩
    intro fuel hf
    obtain ⟨s'', h2, hr'⟩ := drain_queue_spec hr fuel (by simpa using hf)
    exact ⟨s'', h2, by simp [queue_is_empty, hr'.2.1, nextOf]⟩
  refine ⟨hgen, ?_⟩
  obtain ⟨s', h1, h2⟩ := hgen []
    [.enqueue 1, .enqueue 2, .enqueue 3, .dequeue, .peek, .dequeue, .dequeue] [1, 2, 2, 3] []
    (by decide)
  obtain ⟨s'', h3, h4⟩ := h2 0 (Nat.le_refl 0)
  refine ⟨s', h1, ?_⟩
  unfold drain_queue at h3
  cases he : queue_is_empty s'.Q with
  | true => rfl
  | false => simp [he] at h3

/-- Witness for C5: enqueue 1, enqueue 2, dequeue (returns 1); 2 is left. -/
theorem queue_simulates_reference_fifo_witness :
    ref_run_queue [] [.enqueue 1, .enqueue 2, .dequeue] = some ([1], [2]) ∧
    ∃ s', run_queue_ops ⟨[], create_queue⟩ [.enqueue 1, .enqueue 2, .dequeue] = .ok ([1], s') ∧
      ∀ fuel, [(2 : Int)].length ≤ fuel →
        ∃ s'', drain_queue fuel s' = .ok ([2], s'') ∧ queue_is_empty s''.Q = true :=
  ⟨by decide, queue_simulates_reference_fifo.1 [] _ _ _ (by decide)⟩

/-- C6. For every stack state `s` and value `v`, `push` (allocation granted)
followed by `pop` returns `v`, restores the handle, leaves every cell of the
old heap as it was, and so leaves the same sequence of values. Pushing `xs` on
the empty stack and popping as many times returns `xs` reversed and leaves the
stack empty; push 1, 2, 3 then three pops give 3, 2, 1. -/
theorem pop_undoes_push :
    (∀ (s : StackState) (v : Int),
      ∃ s1 s2, push s true v = .ok (.STATUS_OK, s1) ∧ pop s1 = .ok (v, s2) ∧
        s2.S = s.S ∧ (∀ a, load s2.heap a = load s.heap a) ∧
        ∀ fuel, stack_values fuel s2 = stack_values fuel s) ∧
    (∀ (h : Heap stack_node) (xs : List Int),
      ∃ s1 s2, push_all ⟨h, create_stack⟩ xs = .ok s1 ∧
        pop_n xs.length s1 = .ok (xs.reverse, s2) ∧ stack_is_empty s2.S = true) ∧
    (∃ s1 s2, push_all ⟨[], create_stack⟩ [1, 2, 3] = .ok s1 ∧
      pop_n 3 s1 = .ok ([3, 2, 1], s2) ∧ stack_is_empty s2.S = true) := by
  have hall : ∀ (h : Heap stack_node) (xs : List Int),
      ∃ s1 s2, push_all ⟨h, create_stack⟩ xs = .ok s1 ∧
        pop_n xs.length s1 = .ok (xs.reverse, s2) ∧ stack_is_empty s2.S = true := by
    intro h xs
    obtain ⟨s1, cells, h1, hr, hv⟩ := push_all_spec xs (StackRep_create h)
    have hlen : cells.length = xs.length := by
      have := congrArg List.length hv
      simpa using this
    obtain ⟨s2, h2, hr'⟩ := pop_n_spec hr
    refine ⟨s1, s2, h1, ?_, ?_⟩
    · rw [← hlen, h2, hv]; simp
    · simp [stack_is_empty, hr'.2.1, nextOf]
  refine ⟨?_, hall, hall [] [1, 2, 3]⟩
  intro s v
  have hl : ∀ a, load (s.heap ++ [none]) a = load s.heap a := by
    intro a
    rw [load_append_single]
    split
    · next e => rw [e, load_length]
    · rfl
  refine ⟨{ heap := s.heap ++ [some ⟨s.S.head, v⟩], S := ⟨some s.heap.length⟩ },
    { heap := s.heap ++ [none], S := s.S }, ?_, ?_, rfl, hl, ?_⟩
  · simp [push, malloc, assign, load_append_single, bind, Except.bind, pure, Except.pure]
  · simp [pop, stack_is_empty, deref, free, load_append_single, bind, Except.bind, pure,
      Except.pure]
  · intro fuel
    exact walk_stack_congr hl fuel _

/-- C7. Whenever `malloc` returns `NULL`, each allocating operation reports
the failure (`NULL` from `list_push_front`, `list_push_back` and
`insert_list_item` with any `Where`, `STATUS_FAIL` from `enqueue` and `push`)
and returns the very state it was given: handle and heap, hence every node, are
untouched. -/
theorem allocation_failure_changes_nothing :
    (∀ (s : ListState) (granted : Bool) (v : Int),
      (malloc s.heap granted list_node.blank).1 = none →
      list_push_front s granted v = .ok (none, s) ∧
      list_push_back s granted v = .ok (none, s) ∧
      ∀ (w : Option Nat), insert_list_item s w granted v = .ok (none, s)) ∧
    (∀ (s : QueueState) (granted : Bool) (v : Int),
      (malloc s.heap granted queue_node.blank).1 = none →
      enqueue s granted v = .ok (.STATUS_FAIL, s)) ∧
    (∀ (s : StackState) (granted : Bool) (v : Int),
      (malloc s.heap granted stack_node.blank).1 = none →
      push s granted v = .ok (.STATUS_FAIL, s)) := by
  refine ⟨?_, ?_, ?_⟩
  · intro s granted v hm
    cases granted with
    | true => simp [malloc] at hm
    | false =>
      refine ⟨rfl, rfl, ?_⟩
      intro w
      cases w with
      | none => rfl
      | some a => rfl
  · intro s granted v hm
    cases granted with
    | true => simp [malloc] at hm
    | false => rfl
  · intro s granted v hm
    cases granted with
    | true => simp [malloc] at hm
    | false => rfl

/-- Witness for C7: a refused allocation on the sample list, queue and stack. -/
theorem allocation_failure_changes_nothing_witness :
    ((malloc sample_list.heap false list_node.blank).1 = none ∧
      list_push_front sample_list false 9 = .ok (none, sample_list) ∧
      list_push_back sample_list false 9 = .ok (none, sample_list) ∧
      ∀ (w : Option Nat), insert_list_item sample_list w false 9 = .ok (none, sample_list)) ∧
    ((malloc sample_queue.heap false queue_node.blank).1 = none ∧
      enqueue sample_queue false 9 = .ok (.STATUS_FAIL, sample_queue)) ∧
    ((malloc sample_stack.heap false stack_node.blank).1 = none ∧
      push sample_stack false 9 = .ok (.STATUS_FAIL, sample_stack)) :=
  ⟨⟨rfl, allocation_failure_changes_nothing.1 sample_list false 9 rfl⟩,
    ⟨rfl, allocation_failure_changes_nothing.2.1 sample_queue false 9 rfl⟩,
    ⟨rfl, allocation_failure_changes_nothing.2.2 sample_stack false 9 rfl⟩⟩

/-- C8. On a well-formed list, queue or stack with nodes `cells` (possibly
none), clear returns after at most `cells.length` iterations with `head`
`NULL` (and `tail` `NULL` for list and queue), so the container is empty; a
further clear of the result, with any budget, returns the same state. -/
theorem clear_empties_and_is_idempotent :
    (∀ (s : ListState) (cells : List (Nat × Int)), ListRep s cells →
      ∀ fuel, cells.length ≤ fuel →
        ∃ s', clear_list fuel s = .ok s' ∧ s'.L.head = none ∧ s'.L.tail = none ∧
          list_is_empty s'.L = true ∧ ∀ fuel', clear_list fuel' s' = .ok s') ∧
    (∀ (s : QueueState) (cells : List (Nat × Int)), QueueRep s cells →
      ∀ fuel, cells.length ≤ fuel →
        ∃ s', clear_queue fuel s = .ok s' ∧ s'.Q.head = none ∧ s'.Q.tail = none ∧
          queue_is_empty s'.Q = true ∧ ∀ fuel', clear_queue fuel' s' = .ok s') ∧
    (∀ (s : StackState) (cells : List (Nat × Int)), StackRep s cells →
      ∀ fuel, cells.length ≤ fuel →
        ∃ s', clear_stack fuel s = .ok s' ∧ s'.S.head = none ∧
          stack_is_empty s'.S = true ∧ ∀ fuel', clear_stack fuel' s' = .ok s') := by
  refine ⟨?_, ?_, ?_⟩
  · intro s cells hr fuel hf
    obtain ⟨s', h1, h2, h3, h4⟩ := clear_list_spec hr fuel hf
    exact ⟨s', h1, h2, h3, by simp [list_is_empty, h2], h4⟩
  · intro s cells hr fuel hf
    obtain ⟨s', h1, h2, h3, h4⟩ := clear_queue_spec hr fuel hf
    exact ⟨s', h1, h2, h3, by simp [queue_is_empty, h2], h4⟩
  · intro s cells hr fuel hf
    obtain ⟨s', h1, h2, h3⟩ := clear_stack_spec hr fuel hf
    exact ⟨s', h1, h2, by simp [stack_is_empty, h2], h3⟩

/-- Witness for C8: clearing the sample list, queue and stack of two nodes, and
the empty list. -/
theorem clear_empties_and_is_idempotent_witness :
    (ListRep sample_list [(0, 7), (1, 8)] ∧
      ∃ s', clear_list 2 sample_list = .ok s' ∧ s'.L.head = none ∧ s'.L.tail = none ∧
        list_is_empty s'.L = true ∧ ∀ fuel', clear_list fuel' s' = .ok s') ∧
    (ListRep ⟨[], list_create⟩ [] ∧
      ∃ s', clear_list 0 ⟨[], list_create⟩ = .ok s' ∧ s'.L.head = none ∧ s'.L.tail = none ∧
        list_is_empty s'.L = true ∧ ∀ fuel', clear_list fuel' s' = .ok s') ∧
    (QueueRep sample_queue [(0, 7), (1, 8)] ∧
      ∃ s', clear_queue 2 sample_queue = .ok s' ∧ s'.Q.head = none ∧ s'.Q.tail = none ∧
        queue_is_empty s'.Q = true ∧ ∀ fuel', clear_queue fuel' s' = .ok s') ∧
    (StackRep sample_stack [(0, 7), (1, 8)] ∧
      ∃ s', clear_stack 2 sample_stack = .ok s' ∧ s'.S.head = none ∧
        stack_is_empty s'.S = true ∧ ∀ fuel', clear_stack fuel' s' = .ok s') :=
  ⟨⟨by decide, clear_empties_and_is_idempotent.1 sample_list [(0, 7), (1, 8)] (by decide) 2 (by decide)⟩,
    ⟨by decide, clear_empties_and_is_idempotent.1 ⟨[], list_create⟩ [] (by decide) 0 (by decide)⟩,
    ⟨by decide, clear_empties_and_is_idempotent.2.1 sample_queue [(0, 7), (1, 8)] (by decide) 2 (by decide)⟩,
    ⟨by decide, clear_empties_and_is_idempotent.2.2 sample_stack [(0, 7), (1, 8)] (by decide) 2 (by decide)⟩⟩

/-- C9. Each of `list_pop_front`, `dequeue`, `peek_queue`, `pop` and
`peek_stack` stops at its assertion exactly when the container is empty (the
failed assertion yields neither a value nor a new state), and on a well-formed
container that is not empty it returns a result. -/
theorem assertion_fails_iff_empty :
    (∀ (s : ListState),
      list_pop_front s = .error .assert_failed ↔ list_is_empty s.L = true) ∧
    (∀ (s : QueueState),
      (dequeue s = .error .assert_failed ↔ queue_is_empty s.Q = true) ∧
      (peek_queue s = .error .assert_failed ↔ queue_is_empty s.Q = true)) ∧
    (∀ (s : StackState),
      (pop s = .error .assert_failed ↔ stack_is_empty s.S = true) ∧
      (peek_stack s = .error .assert_failed ↔ stack_is_empty s.S = true)) ∧
    (∀ (s : ListState) (cells : List (Nat × Int)), ListRep s cells →
      list_is_empty s.L = false → ∃ r, list_pop_front s = .ok r) ∧
    (∀ (s : QueueState) (cells : List (Nat × Int)), QueueRep s cells →
      queue_is_empty s.Q = false →
      (∃ r, dequeue s = .ok r) ∧ ∃ r, peek_queue s = .ok r) ∧
    (∀ (s : StackState) (cells : List (Nat × Int)), StackRep s cells →
      stack_is_empty s.S = false →
      (∃ r, pop s = .ok r) ∧ ∃ r, peek_stack s = .ok r) := by
  refine ⟨list_pop_front_assert_iff,
    fun s => ⟨dequeue_assert_iff s, peek_queue_assert_iff s⟩,
    fun s => ⟨pop_assert_iff s, peek_stack_assert_iff s⟩, ?_, ?_, ?_⟩
  · intro s cells hr hne
    cases cells with
    | nil =>
      have hh : s.L.head = none := hr.2.1
      simp [list_is_empty, hh] at hne
    | cons c rest =>
      obtain ⟨s', h1, _⟩ := list_pop_front_spec hr
      exact ⟨_, h1⟩
  · intro s cells hr hne
    cases cells with
    | nil =>
      have hh : s.Q.head = none := hr.2.1
      simp [queue_is_empty, hh] at hne
    | cons c rest =>
      obtain ⟨s', h1, _⟩ := dequeue_spec hr
      exact ⟨⟨_, h1⟩, ⟨_, peek_queue_spec hr⟩⟩
  · intro s cells hr hne
    cases cells with
    | nil =>
      have hh : s.S.head = none := hr.2.1
      simp [stack_is_empty, hh] at hne
    | cons c rest =>
      obtain ⟨s', h1, _⟩ := pop_spec hr
      exact ⟨⟨_, h1⟩, ⟨_, peek_stack_spec hr⟩⟩

/-- Witness for C9: the sample list, queue and stack of two nodes. -/
theorem assertion_fails_iff_empty_witness :
    (ListRep sample_list [(0, 7), (1, 8)] ∧ list_is_empty sample_list.L = false ∧
      ∃ r, list_pop_front sample_list = .ok r) ∧
    (QueueRep sample_queue [(0, 7), (1, 8)] ∧ queue_is_empty sample_queue.Q = false ∧
      (∃ r, dequeue sample_queue = .ok r) ∧ ∃ r, peek_queue sample_queue = .ok r) ∧
    (StackRep sample_stack [(0, 7), (1, 8)] ∧ stack_is_empty sample_stack.S = false ∧
      (∃ r, pop sample_stack = .ok r) ∧ ∃ r, peek_stack sample_stack = .ok r) :=
  ⟨⟨by decide, by decide,
      assertion_fails_iff_empty.2.2.2.1 sample_list [(0, 7), (1, 8)] (by decide) (by decide)⟩,
    ⟨by decide, by decide,
      assertion_fails_iff_empty.2.2.2.2.1 sample_queue [(0, 7), (1, 8)] (by decide)
        (by decide)⟩,
    ⟨by decide, by decide,
      assertion_fails_iff_empty.2.2.2.2.2 sample_stack [(0, 7), (1, 8)] (by decide)
        (by decide)⟩⟩

/-- C10. On a well-formed non-empty queue, `peek_queue` returns the value that
`dequeue` returns on the same state and hands back the state it was given; the
same holds for `peek_stack` and `pop` on a well-formed non-empty stack. -/
theorem peek_agrees_with_removal :
    (∀ (s : QueueState) (cells : List (Nat × Int)), QueueRep s cells →
      queue_is_empty s.Q = false →
      ∃ v s', peek_queue s = .ok (v, s) ∧ dequeue s = .ok (v, s')) ∧
    (∀ (s : StackState) (cells : List (Nat × Int)), StackRep s cells →
      stack_is_empty s.S = false →
      ∃ v s', peek_stack s = .ok (v, s) ∧ pop s = .ok (v, s')) := by
  refine ⟨?_, ?_⟩
  · intro s cells hr hne
    cases cells with
    | nil =>
      have hh : s.Q.head = none := hr.2.1
      simp [queue_is_empty, hh] at hne
    | cons c rest =>
      obtain ⟨s', h1, _⟩ := dequeue_spec hr
      exact ⟨c.2, s', peek_queue_spec hr, h1⟩
  · intro s cells hr hne
    cases cells with
    | nil =>
      have hh : s.S.head = none := hr.2.1
      simp [stack_is_empty, hh] at hne
    | cons c rest =>
      obtain ⟨s', h1, _⟩ := pop_spec hr
      exact ⟨c.2, s', peek_stack_spec hr, h1⟩

/-- Witness for C10: the sample queue and stack, with 7 in front. -/
theorem peek_agrees_with_removal_witness :
    (QueueRep sample_queue [(0, 7), (1, 8)] ∧ queue_is_empty sample_queue.Q = false ∧
      ∃ v s', peek_queue sample_queue = .ok (v, sample_queue) ∧
        dequeue sample_queue = .ok (v, s')) ∧
    (StackRep sample_stack [(0, 7), (1, 8)] ∧ stack_is_empty sample_stack.S = false ∧
      ∃ v s', peek_stack sample_stack = .ok (v, sample_stack) ∧
        pop sample_stack = .ok (v, s')) :=
  ⟨⟨by decide, by decide,
      peek_agrees_with_removal.1 sample_queue [(0, 7), (1, 8)] (by decide) (by decide)⟩,
    ⟨by decide, by decide,
      peek_agrees_with_removal.2 sample_stack [(0, 7), (1, 8)] (by decide) (by decide)⟩⟩

/-! ## Counting pushes and pops -/

theorem run_calls_tally {σ κ : Type} (Rep : σ → List (Nat × Int) → Prop)
    (step : σ → κ → Except Fault σ) (kind : κ → OpKind) (fuel : Nat)
    (hpush : ∀ s cells c, Rep s cells → kind c = .push →
      ∃ s' cells', step s c = .ok s' ∧ Rep s' cells' ∧ cells'.length = cells.length + 1)
    (hpop : ∀ s cells c, Rep s cells → kind c = .pop → cells ≠ [] →
      ∃ s' cells', step s c = .ok s' ∧ Rep s' cells' ∧ cells'.length + 1 = cells.length)
    (hpop0 : ∀ s c, Rep s [] → kind c = .pop → step s c = .error .assert_failed)
    (hclear : ∀ s cells c, Rep s cells → kind c = .clear → cells.length ≤ fuel →
      ∃ s', step s c = .ok s' ∧ Rep s' []) :
    ∀ (cs : List κ) (s : σ) (cells : List (Nat × Int)) (t : Nat × Nat),
      Rep s cells → t.2 + cells.length = t.1 → cells.length + cs.length ≤ fuel →
      (pops_allowed (cs.map kind) t = true →
        ∃ s' cells', run_calls step s cs = .ok s' ∧ Rep s' cells' ∧
          (tally (cs.map kind) t).2 + cells'.length = (tally (cs.map kind) t).1) ∧
      (pops_allowed (cs.map kind) t = false → run_calls step s cs = .error .assert_failed) := by
  intro cs
  induction cs with
  | nil =>
    intro s cells t hr ht _
    exact ⟨fun _ => ⟨s, cells, rfl, hr, ht⟩, fun h => by simp [pops_allowed] at h⟩
  | cons c cs ih =>
    intro s cells t hr ht hf
    simp only [List.length_cons] at hf
    cases hk : kind c with
    | push =>
      obtain ⟨s1, cells1, h1, hr1, hl1⟩ := hpush s cells c hr hk
      have := ih s1 cells1 (t.1 + 1, t.2) hr1 (by simp; omega) (by omega)
      simpa [List.map_cons, hk, pops_allowed, tally, run_calls, h1, bind, Except.bind] using this
    | pop =>
      by_cases hlt : t.2 < t.1
      · have hne : cells ≠ [] := by
          intro e
          subst e
          simp at ht
          omega
        obtain ⟨s1, cells1, h1, hr1, hl1⟩ := hpop s cells c hr hk hne
        have := ih s1 cells1 (t.1, t.2 + 1) hr1 (by simp; omega) (by omega)
        simpa [List.map_cons, hk, pops_allowed, tally, run_calls, h1, bind, Except.bind, hlt]
          using this
      · have he : cells = [] := by
          cases cells with
          | nil => rfl
          | cons x xs => simp at ht; omega
        subst he
        have h1 := hpop0 s c hr hk
        simp [List.map_cons, hk, pops_allowed, run_calls, h1, bind, Except.bind, hlt]
    | clear =>
      obtain ⟨s1, h1, hr1⟩ := hclear s cells c hr hk (by omega)
      have := ih s1 [] (0, 0) hr1 (by simp) (by simp; omega)
      simpa [List.map_cons, hk, pops_allowed, tally, run_calls, h1, bind, Except.bind] using this

theorem ListRep_empty_iff {s : ListState} {cells : List (Nat × Int)} (hr : ListRep s cells) :
    list_is_empty s.L = true ↔ cells = [] := by
  have hh := hr.2.1
  cases cells with
  | nil => simp [list_is_empty, hh, nextOf]
  | cons c rest => simp [list_is_empty, hh, nextOf]

theorem QueueRep_empty_iff {s : QueueState} {cells : List (Nat × Int)} (hr : QueueRep s cells) :
    queue_is_empty s.Q = true ↔ cells = [] := by
  have hh := hr.2.1
  cases cells with
  | nil => simp [queue_is_empty, hh, nextOf]
  | cons c rest => simp [queue_is_empty, hh, nextOf]

theorem StackRep_empty_iff {s : StackState} {cells : List (Nat × Int)} (hr : StackRep s cells) :
    stack_is_empty s.S = true ↔ cells = [] := by
  have hh := hr.2.1
  cases cells with
  | nil => simp [stack_is_empty, hh, nextOf]
  | cons c rest => simp [stack_is_empty, hh, nextOf]

theorem run_list_calls_tally (fuel : Nat) (cs : List ListCall) (s : ListState)
    (cells : List (Nat × Int)) (t : Nat × Nat) (hr : ListRep s cells)
    (ht : t.2 + cells.length = t.1) (hf : cells.length + cs.length ≤ fuel) :
    (pops_allowed (cs.map ListCall.kind) t = true →
      ∃ s' cells', run_calls (apply_list_call fuel) s cs = .ok s' ∧ ListRep s' cells' ∧
        (tally (cs.map ListCall.kind) t).2 + cells'.length =
          (tally (cs.map ListCall.kind) t).1) ∧
    (pops_allowed (cs.map ListCall.kind) t = false →
      run_calls (apply_list_call fuel) s cs = .error .assert_failed) := by
  refine run_calls_tally ListRep (apply_list_call fuel) ListCall.kind fuel ?_ ?_ ?_ ?_
    cs s cells t hr ht hf
  · intro s cells c hr hk
    cases c with
    | push_front v =>
      obtain ⟨s', h1, h2⟩ := list_push_front_spec hr v
      exact ⟨s', _, by simp [apply_list_call, h1, bind, Except.bind, pure, Except.pure], h2,
        by simp⟩
    | push_back v =>
      obtain ⟨s', h1, h2⟩ := list_push_back_spec hr v
      exact ⟨s', _, by simp [apply_list_call, h1, bind, Except.bind, pure, Except.pure], h2,
        by simp⟩
    | pop_front => cases hk
    | clear => cases hk
  · intro s cells c hr hk hne
    cases c with
    | push_front v => cases hk
    | push_back v => cases hk
    | clear => cases hk
    | pop_front =>
      cases cells with
      | nil => exact absurd rfl hne
      | cons x rest =>
        obtain ⟨s', h1, h2⟩ := list_pop_front_spec hr
        exact ⟨s', rest, by simp [apply_list_call, h1, bind, Except.bind, pure, Except.pure],
          h2, by simp⟩
  · intro s c hr hk
    cases c with
    | push_front v => cases hk
    | push_back v => cases hk
    | clear => cases hk
    | pop_front =>
      have he : list_pop_front s = .error .assert_failed :=
        (list_pop_front_assert_iff s).2 ((ListRep_empty_iff hr).2 rfl)
      simp [apply_list_call, he, bind, Except.bind]
  · intro s cells c hr hk hle
    cases c with
    | push_front v => cases hk
    | push_back v => cases hk
    | pop_front => cases hk
    | clear =>
      obtain ⟨s', h1, h2, h3, _⟩ := clear_list_spec hr fuel hle
      exact ⟨s', h1, List.nodup_nil, h2, h3, trivial⟩

theorem run_queue_calls_tally (fuel : Nat) (cs : List QueueCall) (s : QueueState)
    (cells : List (Nat × Int)) (t : Nat × Nat) (hr : QueueRep s cells)
    (ht : t.2 + cells.length = t.1) (hf : cells.length + cs.length ≤ fuel) :
    (pops_allowed (cs.map QueueCall.kind) t = true →
      ∃ s' cells', run_calls (apply_queue_call fuel) s cs = .ok s' ∧ QueueRep s' cells' ∧
        (tally (cs.map QueueCall.kind) t).2 + cells'.length =
          (tally (cs.map QueueCall.kind) t).1) ∧
    (pops_allowed (cs.map QueueCall.kind) t = false →
      run_calls (apply_queue_call fuel) s cs = .error .assert_failed) := by
  refine run_calls_tally QueueRep (apply_queue_call fuel) QueueCall.kind fuel ?_ ?_ ?_ ?_
    cs s cells t hr ht hf
  · intro s cells c hr hk
    cases c with
    | enqueue v =>
      obtain ⟨s', h1, h2⟩ := enqueue_spec hr v
      exact ⟨s', _, by simp [apply_queue_call, h1, bind, Except.bind, pure, Except.pure], h2,
        by simp⟩
    | dequeue => cases hk
    | clear => cases hk
  · intro s cells c hr hk hne
    cases c with
    | enqueue v => cases hk
    | clear => cases hk
    | dequeue =>
      cases cells with
      | nil => exact absurd rfl hne
      | cons x rest =>
        obtain ⟨s', h1, h2⟩ := dequeue_spec hr
        exact ⟨s', rest, by simp [apply_queue_call, h1, bind, Except.bind, pure, Except.pure],
          h2, by simp⟩
  · intro s c hr hk
    cases c with
    | enqueue v => cases hk
    | clear => cases hk
    | dequeue =>
      have he : dequeue s = .error .assert_failed :=
        (dequeue_assert_iff s).2 ((QueueRep_empty_iff hr).2 rfl)
      simp [apply_queue_call, he, bind, Except.bind]
  · intro s cells c hr hk hle
    cases c with
    | enqueue v => cases hk
    | dequeue => cases hk
    | clear =>
      obtain ⟨s', h1, h2, h3, _⟩ := clear_queue_spec hr fuel hle
      exact ⟨s', h1, List.nodup_nil, h2, h3, trivial⟩

theorem run_stack_calls_tally (fuel : Nat) (cs : List StackCall) (s : StackState)
    (cells : List (Nat × Int)) (t : Nat × Nat) (hr : StackRep s cells)
    (ht : t.2 + cells.length = t.1) (hf : cells.length + cs.length ≤ fuel) :
    (pops_allowed (cs.map StackCall.kind) t = true →
      ∃ s' cells', run_calls (apply_stack_call fuel) s cs = .ok s' ∧ StackRep s' cells' ∧
        (tally (cs.map StackCall.kind) t).2 + cells'.length =
          (tally (cs.map StackCall.kind) t).1) ∧
    (pops_allowed (cs.map StackCall.kind) t = false →
      run_calls (apply_stack_call fuel) s cs = .error .assert_failed) := by
  refine run_calls_tally StackRep (apply_stack_call fuel) StackCall.kind fuel ?_ ?_ ?_ ?_
    cs s cells t hr ht hf
  · intro s cells c hr hk
    cases c with
    | push v =>
      obtain ⟨s', h1, h2⟩ := push_spec hr v
      exact ⟨s', _, by simp [apply_stack_call, h1, bind, Except.bind, pure, Except.pure], h2,
        by simp⟩
    | pop => cases hk
    | clear => cases hk
  · intro s cells c hr hk hne
    cases c with
    | push v => cases hk
    | clear => cases hk
    | pop =>
      cases cells with
      | nil => exact absurd rfl hne
      | cons x rest =>
        obtain ⟨s', h1, h2⟩ := pop_spec hr
        exact ⟨s', rest, by simp [apply_stack_call, h1, bind, Except.bind, pure, Except.pure],
          h2, by simp⟩
  · intro s c hr hk
    cases c with
    | push v => cases hk
    | clear => cases hk
    | pop =>
      have he : pop s = .error .assert_failed :=
        (pop_assert_iff s).2 ((StackRep_empty_iff hr).2 rfl)
      simp [apply_stack_call, he, bind, Except.bind]
  · intro s cells c hr hk hle
    cases c with
    | push v => cases hk
    | pop => cases hk
    | clear =>
      obtain ⟨s', h1, h2, _⟩ := clear_stack_spec hr fuel hle
      exact ⟨s', h1, List.nodup_nil, h2, trivial⟩

/-- C11. Take any sequence of push calls (`list_push_front` / `list_push_back`,
`enqueue`, `push`), pop calls (`list_pop_front`, `dequeue`, `pop`) and clear
calls on a freshly created list, queue or stack, every allocation granted. If
every pop comes on a non-empty container (more pushes than pops counted since
the last clear), the sequence runs to the end and the container is empty
afterwards exactly when the number of pushes since the last clear equals the
number of pops since then; otherwise the run stops at a failed assertion. -/
theorem is_empty_iff_pushes_equal_pops :
    (∀ (h : Heap list_node) (calls : List ListCall) (fuel : Nat), calls.length ≤ fuel →
      (pops_allowed (calls.map ListCall.kind) (0, 0) = true →
        ∃ s', run_calls (apply_list_call fuel) ⟨h, list_create⟩ calls = .ok s' ∧
          (list_is_empty s'.L = true ↔
            (tally (calls.map ListCall.kind) (0, 0)).1 =
              (tally (calls.map ListCall.kind) (0, 0)).2)) ∧
      (pops_allowed (calls.map ListCall.kind) (0, 0) = false →
        run_calls (apply_list_call fuel) ⟨h, list_create⟩ calls = .error .assert_failed)) ∧
    (∀ (h : Heap queue_node) (calls : List QueueCall) (fuel : Nat), calls.length ≤ fuel →
      (pops_allowed (calls.map QueueCall.kind) (0, 0) = true →
        ∃ s', run_calls (apply_queue_call fuel) ⟨h, create_queue⟩ calls = .ok s' ∧
          (queue_is_empty s'.Q = true ↔
            (tally (calls.map QueueCall.kind) (0, 0)).1 =
              (tally (calls.map QueueCall.kind) (0, 0)).2)) ∧
      (pops_allowed (calls.map QueueCall.kind) (0, 0) = false →
        run_calls (apply_queue_call fuel) ⟨h, create_queue⟩ calls = .error .assert_failed)) ∧
    (∀ (h : Heap stack_node) (calls : List StackCall) (fuel : Nat), calls.length ≤ fuel →
      (pops_allowed (calls.map StackCall.kind) (0, 0) = true →
        ∃ s', run_calls (apply_stack_call fuel) ⟨h, create_stack⟩ calls = .ok s' ∧
          (stack_is_empty s'.S = true ↔
            (tally (calls.map StackCall.kind) (0, 0)).1 =
              (tally (calls.map StackCall.kind) (0, 0)).2)) ∧
      (pops_allowed (calls.map StackCall.kind) (0, 0) = false →
        run_calls (apply_stack_call fuel) ⟨h, create_stack⟩ calls = .error .assert_failed)) := by
  refine ⟨?_, ?_, ?_⟩
  · intro h calls fuel hf
    have key := run_list_calls_tally fuel calls ⟨h, list_create⟩ [] (0, 0) (ListRep_create h)
      rfl (by simpa using hf)
    refine ⟨fun ha => ?_, key.2⟩
    obtain ⟨s', cells', h1, hr, ht⟩ := key.1 ha
    refine ⟨s', h1, ?_⟩
    rw [ListRep_empty_iff hr, ← List.length_eq_zero]
    omega
  · intro h calls fuel hf
    have key := run_queue_calls_tally fuel calls ⟨h, create_queue⟩ [] (0, 0)
      (QueueRep_create h) rfl (by simpa using hf)
    refine ⟨fun ha => ?_, key.2⟩
    obtain ⟨s', cells', h1, hr, ht⟩ := key.1 ha
    refine ⟨s', h1, ?_⟩
    rw [QueueRep_empty_iff hr, ← List.length_eq_zero]
    omega
  · intro h calls fuel hf
    have key := run_stack_calls_tally fuel calls ⟨h, create_stack⟩ [] (0, 0)
      (StackRep_create h) rfl (by simpa using hf)
    refine ⟨fun ha => ?_, key.2⟩
    obtain ⟨s', cells', h1, hr, ht⟩ := key.1 ha
    refine ⟨s', h1, ?_⟩
    rw [StackRep_empty_iff hr, ← List.length_eq_zero]
    omega

/-- Witness for C11: push, push, pop, clear, push on the list (one value left,
not empty) and push, pop on the stack (empty). -/
theorem is_empty_iff_pushes_equal_pops_witness :
    ([ListCall.push_front 1, .push_back 2, .pop_front, .clear, .push_back 3].length ≤ 5 ∧
      pops_allowed ([ListCall.push_front 1, .push_back 2, .pop_front, .clear,
        .push_back 3].map ListCall.kind) (0, 0) = true ∧
      ∃ s', run_calls (apply_list_call 5) ⟨[], list_create⟩
          [.push_front 1, .push_back 2, .pop_front, .clear, .push_back 3] = .ok s' ∧
        (list_is_empty s'.L = true ↔
          (tally ([ListCall.push_front 1, .push_back 2, .pop_front, .clear,
            .push_back 3].map ListCall.kind) (0, 0)).1 =
          (tally ([ListCall.push_front 1, .push_back 2, .pop_front, .clear,
            .push_back 3].map ListCall.kind) (0, 0)).2)) ∧
    ([StackCall.push 1, .pop].length ≤ 2 ∧
      pops_allowed ([StackCall.push 1, .pop].map StackCall.kind) (0, 0) = true ∧
      ∃ s', run_calls (apply_stack_call 2) ⟨[], create_stack⟩ [.push 1, .pop] = .ok s' ∧
        (stack_is_empty s'.S = true ↔
          (tally ([StackCall.push 1, .pop].map StackCall.kind) (0, 0)).1 =
          (tally ([StackCall.push 1, .pop].map StackCall.kind) (0, 0)).2)) :=
  ⟨⟨by decide, by decide,
      (is_empty_iff_pushes_equal_pops.1 [] _ 5 (by decide)).1 (by decide)⟩,
    ⟨by decide, by decide,
      (is_empty_iff_pushes_equal_pops.2.2 [] _ 2 (by decide)).1 (by decide)⟩⟩

/-- C14, evaluated at a failing input. The list 10, 20, 30 is built with
`list_push_back`; `erase_list_item` is called on the node at index 1 (address
1). The node is unlinked (the traversal gives 10, 30) but its cell is still
live afterwards, and it is still live after a following `clear_list`, which
releases the two remaining nodes only. `list_pop_front` on the same list leaves
the cell of the node it removes (address 0) released. -/
theorem erase_list_item_keeps_node_allocated :
    (do
      let s ← push_back_all ⟨[], list_create⟩ [10, 20, 30]
      let p ← advance s.heap 1 s.L.head
      let s1 ← erase_list_item s p
      let f ← list_forward 3 s1
      let s2 ← clear_list 3 s1
      let r ← list_pop_front s
      pure (p, f, load s1.heap 1, s2.heap, load r.2.heap 0)) =
    (.ok (some 1, [10, 30], some ⟨some 0, some 2, 20⟩,
        [none, some ⟨some 0, some 2, 20⟩, none], none) :
      Except Fault (Option Nat × List Int × Option list_node × Heap list_node ×
        Option list_node)) := by
  rfl

/-- C18. On a well-formed list with nodes `l1 ++ w :: l2`, `erase_list_item` on
the node `w` returns. When `w` is not the head (`l1` is not empty) or is the
only node, `head` is the first remaining node and the forward traversal gives
the old values without the value of `w`. In the remaining case, `w` the head of
a list of two or more nodes, `head` is `NULL` and the traversal gives nothing. -/
theorem erase_list_item_forward (s : ListState) (l1 l2 : List (Nat × Int)) (w : Nat × Int)
    (hr : ListRep s (l1 ++ w :: l2)) :
    ∃ s', erase_list_item s (some w.1) = .ok s' ∧
      ((l1 ≠ [] ∨ l2 = []) →
        s'.L.head = nextOf (l1 ++ l2) none ∧
        ∀ fuel, (l1 ++ l2).length ≤ fuel →
          list_forward fuel s' = .ok (l1.map Prod.snd ++ l2.map Prod.snd)) ∧
      (l1 = [] → l2 ≠ [] →
        s'.L.head = none ∧ ∀ fuel, list_forward fuel s' = .ok []) := by
  obtain ⟨s', h1, hhead, _, hd, _⟩ := erase_list_item_spec hr
  have hh := hr.2.1
  refine ⟨s', h1, ?_, ?_⟩
  · intro hpos
    have hhead' : s'.L.head = nextOf (l1 ++ l2) none := by
      rw [hhead]
      cases l1 with
      | nil =>
        rcases hpos with h | h
        · exact absurd rfl h
        · subst h; rfl
      | cons c rest => simpa [nextOf] using hh
    refine ⟨hhead', ?_⟩
    intro fuel hf
    unfold list_forward
    rw [hhead', walk_next_dll hd fuel hf]
    simp
  · intro h1 _
    have hn : s'.L.head = none := by rw [hhead]; simp [h1]
    refine ⟨hn, ?_⟩
    intro fuel
    unfold list_forward walk_next
    simp [hn]

/-- Witness for C18: erasing the second (last) node of the sample list 7, 8
leaves the list 7. -/
theorem erase_list_item_forward_witness :
    ListRep sample_list ([(0, 7)] ++ (1, 8) :: []) ∧
    ([((0 : Nat), (7 : Int))] ≠ [] ∨ ([] : List (Nat × Int)) = []) ∧
    ∃ s', erase_list_item sample_list (some 1) = .ok s' ∧
      s'.L.head = nextOf ([(0, 7)] ++ []) none ∧
      ∀ fuel, ([((0 : Nat), (7 : Int))] ++ []).length ≤ fuel →
        list_forward fuel s' =
          .ok ([((0 : Nat), (7 : Int))].map Prod.snd ++ ([] : List (Nat × Int)).map Prod.snd) :=
  ⟨by decide, by decide,
    (erase_list_item_forward sample_list [(0, 7)] [] (1, 8) (by decide)).imp
      (fun _ h => ⟨h.1, h.2.1 (by decide)⟩)⟩

/-! ## Pointer-level well-formedness and the representation invariants -/

theorem map_fst_cells_of {α : Type} (val : α → Int) (h : Heap α) (chain : List Nat) :
    (cells_of val h chain).map Prod.fst = chain := by
  induction chain with
  | nil => rfl
  | cons a rest ih =>
    simp only [cells_of, List.map_cons, List.cons.injEq, true_and] at ih ⊢
    exact ih

theorem lastOf_some_eq_getLast (cells : List (Nat × Int)) (a : Nat) :
    lastOf cells (some a) = (a :: cells.map Prod.fst).getLast? := by
  induction cells generalizing a with
  | nil => rfl
  | cons d rest ih =>
    rw [lastOf, ih, List.map_cons, List.getLast?_cons_cons]

theorem lastOf_none_eq_getLast (cells : List (Nat × Int)) :
    lastOf cells none = (cells.map Prod.fst).getLast? := by
  cases cells with
  | nil => rfl
  | cons c rest => exact lastOf_some_eq_getLast rest c.1

theorem next_chain_of_dll {h : Heap list_node} {cells : List (Nat × Int)} {p : Option Nat}
    (hd : dll h p cells none) :
    next_chain list_node.next h (nextOf cells none) (cells.map Prod.fst) := by
  induction cells generalizing p with
  | nil => rfl
  | cons c rest ih => exact ⟨rfl, _, hd.1, ih hd.2⟩

theorem next_chain_of_sll {α : Type} {mk : Option Nat → Int → α} {nxt : α → Option Nat}
    (hmk : ∀ x v, nxt (mk x v) = x) {h : Heap α} {cells : List (Nat × Int)}
    (hd : sll mk h cells none) : next_chain nxt h (nextOf cells none) (cells.map Prod.fst) := by
  induction cells with
  | nil => rfl
  | cons c rest ih =>
    refine ⟨rfl, _, hd.1, ?_⟩
    rw [hmk]
    exact ih hd.2

theorem dll_node_at {h : Heap list_node} {l1 l2 : List (Nat × Int)} {c : Nat × Int}
    (hd : dll h none (l1 ++ c :: l2) none) :
    load h c.1 = some { prev := lastOf l1 none, next := nextOf l2 none, value := c.2 } := by
  rw [dll_append] at hd
  exact hd.2.1

theorem list_well_formed_of_ListRep {s : ListState} {cells : List (Nat × Int)}
    (hr : ListRep s cells) : list_well_formed s := by
  obtain ⟨hnd, hhead, htail, hd⟩ := hr
  refine ⟨cells.map Prod.fst, ?_, hnd, ?_, ?_, ?_, ?_, ?_, ?_⟩
  · rw [hhead]; exact next_chain_of_dll hd
  · rw [htail]; exact lastOf_none_eq_getLast cells
  · rw [hhead, htail]
    cases cells with
    | nil => simp [nextOf, lastOf]
    | cons c rest => simpa [nextOf, lastOf] using lastOf_some_ne_none rest c.1
  · intro a n ha hl
    cases cells with
    | nil => simp [hhead, nextOf] at ha
    | cons c rest =>
      simp only [hhead, nextOf, Option.some.injEq] at ha
      subst ha
      have := hd.1
      rw [this] at hl
      cases hl
      rfl
  · intro a n ha hl
    rcases List.eq_nil_or_concat cells with rfl | ⟨init, c, hc⟩
    · simp [htail, lastOf] at ha
    · rw [List.concat_eq_append] at hc
      subst hc
      rw [htail, lastOf_append] at ha
      simp only [lastOf, Option.some.injEq] at ha
      subst ha
      have := dll_node_at hd
      rw [this] at hl
      cases hl
      rfl
  · intro a ha n hl m hm
    obtain ⟨c, hc, rfl⟩ := List.mem_map.1 ha
    obtain ⟨l1, l2, rfl⟩ := List.append_of_mem hc
    have h1 := dll_node_at hd
    rw [h1] at hl
    cases hl
    cases l2 with
    | nil => simp [nextOf] at hm
    | cons d rest =>
      simp only [nextOf, Option.some.injEq] at hm
      subst hm
      have hd2 : dll s.heap none ((l1 ++ [c]) ++ d :: rest) none := by
        rw [List.append_assoc]; exact hd
      have h2 := dll_node_at hd2
      rw [lastOf_append] at h2
      exact ⟨_, h2, rfl⟩
  · intro a ha n hl m hm
    obtain ⟨c, hc, rfl⟩ := List.mem_map.1 ha
    obtain ⟨l1, l2, rfl⟩ := List.append_of_mem hc
    have h1 := dll_node_at hd
    rw [h1] at hl
    cases hl
    rcases List.eq_nil_or_concat l1 with rfl | ⟨init, e, he⟩
    · simp [lastOf] at hm
    · rw [List.concat_eq_append] at he
      subst he
      rw [lastOf_append] at hm
      simp only [lastOf, Option.some.injEq] at hm
      subst hm
      have hd2 : dll s.heap none (init ++ e :: (c :: l2)) none := by
        rw [List.append_assoc] at hd; exact hd
      have h2 := dll_node_at hd2
      exact ⟨_, h2, rfl⟩

theorem dll_of_next_chain {h : Heap list_node} (chain : List Nat) (p q : Option Nat)
    (hc : next_chain list_node.next h p chain)
    (hfirst : ∀ a n, p = some a → load h a = some n → n.prev = q)
    (hlink : ∀ a ∈ chain, ∀ n, load h a = some n → ∀ m, n.next = some m →
      ∃ nm, load h m = some nm ∧ nm.prev = some a) :
    dll h q (cells_of list_node.value h chain) none ∧
      nextOf (cells_of list_node.value h chain) none = p := by
  induction chain generalizing p q with
  | nil => exact ⟨trivial, hc.symm⟩
  | cons a rest ih =>
    obtain ⟨hp, n, hl, hrest⟩ := hc
    have hq : n.prev = q := hfirst a n hp hl
    have hnext : ∀ b nb, n.next = some b → load h b = some nb → nb.prev = some a := by
      intro b nb hb hlb
      obtain ⟨nm, h1, h2⟩ := hlink a (List.mem_cons_self _ _) n hl b hb
      rw [h1] at hlb
      cases hlb
      exact h2
    obtain ⟨ih1, ih2⟩ := ih n.next (some a) hrest hnext
      (fun b hb => hlink b (List.mem_cons_of_mem _ hb))
    have hcells : cells_of list_node.value h (a :: rest) =
        (a, n.value) :: cells_of list_node.value h rest := by
      simp [cells_of, hl]
    rw [hcells]
    refine ⟨⟨?_, ih1⟩, ?_⟩
    · show load h a = _
      rw [hl, ih2, ← hq]
    · exact hp.symm

theorem ListRep_of_list_well_formed {s : ListState} (hw : list_well_formed s) :
    ∃ cells, ListRep s cells := by
  obtain ⟨chain, hc, hnd, htail, _, hfirst, _, hlink, _⟩ := hw
  obtain ⟨h1, h2⟩ := dll_of_next_chain chain s.L.head none hc hfirst hlink
  refine ⟨cells_of list_node.value s.heap chain, ?_, h2.symm, ?_, h1⟩
  · rw [map_fst_cells_of]; exact hnd
  · rw [lastOf_none_eq_getLast, map_fst_cells_of]; exact htail

theorem list_well_formed_iff (s : ListState) :
    list_well_formed s ↔ ∃ cells, ListRep s cells :=
  ⟨ListRep_of_list_well_formed, fun ⟨_, hr⟩ => list_well_formed_of_ListRep hr⟩

theorem sll_of_next_chain {α : Type} (mk : Option Nat → Int → α) {nxt : α → Option Nat}
    (val : α → Int) (heta : ∀ n, mk (nxt n) (val n) = n) {h : Heap α}
    (chain : List Nat) (p : Option Nat) (hc : next_chain nxt h p chain) :
    sll mk h (cells_of val h chain) none ∧ nextOf (cells_of val h chain) none = p := by
  induction chain generalizing p with
  | nil => exact ⟨trivial, hc.symm⟩
  | cons a rest ih =>
    obtain ⟨hp, n, hl, hrest⟩ := hc
    obtain ⟨ih1, ih2⟩ := ih (nxt n) hrest
    have hcells : cells_of val h (a :: rest) = (a, val n) :: cells_of val h rest := by
      simp [cells_of, hl]
    rw [hcells]
    refine ⟨⟨?_, ih1⟩, hp.symm⟩
    show load h a = _
    rw [hl, ih2, heta]

theorem queue_well_formed_of_QueueRep {s : QueueState} {cells : List (Nat × Int)}
    (hr : QueueRep s cells) : queue_well_formed s := by
  obtain ⟨hnd, hhead, htail, hd⟩ := hr
  refine ⟨cells.map Prod.fst, ?_, hnd, ?_, ?_, ?_⟩
  · rw [hhead]; exact next_chain_of_sll (fun _ _ => rfl) hd
  · rw [htail]; exact lastOf_none_eq_getLast cells
  · rw [hhead, htail]
    cases cells with
    | nil => simp [nextOf, lastOf]
    | cons c rest => simpa [nextOf, lastOf] using lastOf_some_ne_none rest c.1
  · intro a n ha hl
    rcases List.eq_nil_or_concat cells with rfl | ⟨init, c, hc⟩
    · simp [htail, lastOf] at ha
    · rw [List.concat_eq_append] at hc
      subst hc
      rw [htail, lastOf_append] at ha
      simp only [lastOf, Option.some.injEq] at ha
      subst ha
      rw [sll_append] at hd
      have := hd.2.1
      rw [this] at hl
      cases hl
      rfl

theorem QueueRep_of_queue_well_formed {s : QueueState} (hw : queue_well_formed s) :
    ∃ cells, QueueRep s cells := by
  obtain ⟨chain, hc, hnd, htail, _, _⟩ := hw
  obtain ⟨h1, h2⟩ := sll_of_next_chain queue_node.mk queue_node.value
    (fun _ => rfl) chain s.Q.head hc
  refine ⟨cells_of queue_node.value s.heap chain, ?_, h2.symm, ?_, h1⟩
  · rw [map_fst_cells_of]; exact hnd
  · rw [lastOf_none_eq_getLast, map_fst_cells_of]; exact htail

theorem queue_well_formed_iff (s : QueueState) :
    queue_well_formed s ↔ ∃ cells, QueueRep s cells :=
  ⟨QueueRep_of_queue_well_formed, fun ⟨_, hr⟩ => queue_well_formed_of_QueueRep hr⟩

theorem advance_dll_mem {h : Heap list_node} {a : Nat} (k : Nat) :
    ∀ {cells : List (Nat × Int)} {p : Option Nat}, dll h p cells none →
      advance h k (nextOf cells none) = .ok (some a) → a ∈ cells.map Prod.fst := by
  induction k with
  | zero =>
    intro cells p _ ha
    cases cells with
    | nil => simp [advance, nextOf] at ha
    | cons c rest =>
      simp only [advance, nextOf, Except.ok.injEq, Option.some.injEq] at ha
      simp [ha]
  | succ k ih =>
    intro cells p hd ha
    cases cells with
    | nil => simp [advance, nextOf, deref, bind, Except.bind] at ha
    | cons c rest =>
      simp only [advance, nextOf, deref, hd.1, bind, Except.bind] at ha
      exact List.mem_cons_of_mem _ (ih hd.2 ha)

theorem ListRep_split_of_node {s : ListState} {cells : List (Nat × Int)} (hr : ListRep s cells)
    {a : Nat} (ha : is_list_node s a) :
    ∃ l1 w l2, cells = l1 ++ w :: l2 ∧ w.1 = a := by
  obtain ⟨k, hk⟩ := ha
  rw [hr.2.1] at hk
  have hm := advance_dll_mem k hr.2.2.2 hk
  obtain ⟨w, hw, rfl⟩ := List.mem_map.1 hm
  obtain ⟨l1, l2, rfl⟩ := List.append_of_mem hw
  exact ⟨l1, w, l2, rfl, rfl⟩

/-- C15. Well-formedness of the list, stated on the pointers, holds for
`list_create` (in any heap) and is kept by `list_push_front` and
`list_push_back` (allocation granted or refused), by `list_pop_front` on a
non-empty list, by `insert_list_item` with `Where` either `NULL` or a node of
the list, and by `clear_list`, which returns once its budget covers the number
of nodes; each of these calls returns a result. -/
theorem list_well_formed_preserved :
    (∀ (h : Heap list_node), list_well_formed ⟨h, list_create⟩) ∧
    (∀ (s : ListState) (granted : Bool) (v : Int), list_well_formed s →
      ∃ r, list_push_front s granted v = .ok r ∧ list_well_formed r.2) ∧
    (∀ (s : ListState) (granted : Bool) (v : Int), list_well_formed s →
      ∃ r, list_push_back s granted v = .ok r ∧ list_well_formed r.2) ∧
    (∀ (s : ListState), list_well_formed s → list_is_empty s.L = false →
      ∃ r, list_pop_front s = .ok r ∧ list_well_formed r.2) ∧
    (∀ (s : ListState) (w : Option Nat) (granted : Bool) (v : Int), list_well_formed s →
      (w = none ∨ ∃ a, w = some a ∧ is_list_node s a) →
      ∃ r, insert_list_item s w granted v = .ok r ∧ list_well_formed r.2) ∧
    (∀ (s : ListState), list_well_formed s →
      ∃ n, ∀ fuel, n ≤ fuel → ∃ s', clear_list fuel s = .ok s' ∧ list_well_formed s') := by
  have hfront : ∀ (s : ListState) (granted : Bool) (v : Int), list_well_formed s →
      ∃ r, list_push_front s granted v = .ok r ∧ list_well_formed r.2 := by
    intro s granted v hw
    cases granted with
    | false => exact ⟨(none, s), rfl, hw⟩
    | true =>
      obtain ⟨cells, hr⟩ := ListRep_of_list_well_formed hw
      obtain ⟨s', h1, h2⟩ := list_push_front_spec hr v
      exact ⟨_, h1, list_well_formed_of_ListRep h2⟩
  have hback : ∀ (s : ListState) (granted : Bool) (v : Int), list_well_formed s →
      ∃ r, list_push_back s granted v = .ok r ∧ list_well_formed r.2 := by
    intro s granted v hw
    cases granted with
    | false => exact ⟨(none, s), rfl, hw⟩
    | true =>
      obtain ⟨cells, hr⟩ := ListRep_of_list_well_formed hw
      obtain ⟨s', h1, h2⟩ := list_push_back_spec hr v
      exact ⟨_, h1, list_well_formed_of_ListRep h2⟩
  refine ⟨fun h => list_well_formed_of_ListRep (ListRep_create h), hfront, hback, ?_, ?_, ?_⟩
  · intro s hw hne
    obtain ⟨cells, hr⟩ := ListRep_of_list_well_formed hw
    cases cells with
    | nil =>
      have := (ListRep_empty_iff hr).2 rfl
      rw [this] at hne
      cases hne
    | cons c rest =>
      obtain ⟨s', h1, h2⟩ := list_pop_front_spec hr
      exact ⟨_, h1, list_well_formed_of_ListRep h2⟩
  · intro s w granted v hw hwhere
    rcases hwhere with rfl | ⟨a, rfl, ha⟩
    · have : insert_list_item s none granted v = list_push_back s granted v := by
        simp [insert_list_item]
      rw [this]
      exact hback s granted v hw
    · cases granted with
      | false => exact ⟨(none, s), rfl, hw⟩
      | true =>
        obtain ⟨cells, hr⟩ := ListRep_of_list_well_formed hw
        obtain ⟨l1, x, l2, rfl, rfl⟩ := ListRep_split_of_node hr ha
        obtain ⟨s', h1, h2⟩ := insert_list_item_spec hr v
        exact ⟨_, h1, list_well_formed_of_ListRep h2⟩
  · intro s hw
    obtain ⟨cells, hr⟩ := ListRep_of_list_well_formed hw
    refine ⟨cells.length, fun fuel hf => ?_⟩
    obtain ⟨s', h1, h2, h3, _⟩ := clear_list_spec hr fuel hf
    have hr' : ListRep s' [] := ⟨List.nodup_nil, h2, h3, trivial⟩
    exact ⟨s', h1, list_well_formed_of_ListRep hr'⟩

/-- Witness for C15: the calls on the sample list 7, 8, which is well formed;
`insert_list_item` is given its second node (one `next` step from `head`). -/
theorem list_well_formed_preserved_witness :
    list_well_formed sample_list ∧ list_is_empty sample_list.L = false ∧
    (some 1 = none ∨ ∃ a, some 1 = some a ∧ is_list_node sample_list a) ∧
    (∃ r, list_push_front sample_list true 9 = .ok r ∧ list_well_formed r.2) ∧
    (∃ r, list_push_back sample_list true 9 = .ok r ∧ list_well_formed r.2) ∧
    (∃ r, list_pop_front sample_list = .ok r ∧ list_well_formed r.2) ∧
    (∃ r, insert_list_item sample_list (some 1) true 9 = .ok r ∧ list_well_formed r.2) ∧
    (∃ n, ∀ fuel, n ≤ fuel →
      ∃ s', clear_list fuel sample_list = .ok s' ∧ list_well_formed s') :=
  have hw : list_well_formed sample_list :=
    (list_well_formed_iff sample_list).2 ⟨[(0, 7), (1, 8)], by decide⟩
  have hn : some 1 = none ∨ ∃ a, some 1 = some a ∧ is_list_node sample_list a :=
    Or.inr ⟨1, rfl, 1, rfl⟩
  ⟨hw, by decide, hn,
    list_well_formed_preserved.2.1 sample_list true 9 hw,
    list_well_formed_preserved.2.2.1 sample_list true 9 hw,
    list_well_formed_preserved.2.2.2.1 sample_list hw (by decide),
    list_well_formed_preserved.2.2.2.2.1 sample_list (some 1) true 9 hw hn,
    list_well_formed_preserved.2.2.2.2.2 sample_list hw⟩

/-- C16. Well-formedness of the queue, stated on the pointers, holds for
`create_queue` (in any heap) and is kept by `enqueue` (allocation granted or
refused), by `dequeue` on a non-empty queue and by `clear_queue`, which returns
once its budget covers the number of nodes; each of these calls returns a
result. When the head node has no successor (the queue holds one element),
`dequeue` leaves both `head` and `tail` `NULL`. -/
theorem queue_well_formed_preserved :
    (∀ (h : Heap queue_node), queue_well_formed ⟨h, create_queue⟩) ∧
    (∀ (s : QueueState) (granted : Bool) (v : Int), queue_well_formed s →
      ∃ r, enqueue s granted v = .ok r ∧ queue_well_formed r.2) ∧
    (∀ (s : QueueState), queue_well_formed s → queue_is_empty s.Q = false →
      ∃ r, dequeue s = .ok r ∧ queue_well_formed r.2 ∧
        ((∀ a n, s.Q.head = some a → load s.heap a = some n → n.next = none) →
          r.2.Q.head = none ∧ r.2.Q.tail = none)) ∧
    (∀ (s : QueueState), queue_well_formed s →
      ∃ n, ∀ fuel, n ≤ fuel → ∃ s', clear_queue fuel s = .ok s' ∧ queue_well_formed s') := by
  refine ⟨fun h => queue_well_formed_of_QueueRep (QueueRep_create h), ?_, ?_, ?_⟩
  · intro s granted v hw
    cases granted with
    | false => exact ⟨(.STATUS_FAIL, s), rfl, hw⟩
    | true =>
      obtain ⟨cells, hr⟩ := QueueRep_of_queue_well_formed hw
      obtain ⟨s', h1, h2⟩ := enqueue_spec hr v
      exact ⟨_, h1, queue_well_formed_of_QueueRep h2⟩
  · intro s hw hne
    obtain ⟨cells, hr⟩ := QueueRep_of_queue_well_formed hw
    cases cells with
    | nil =>
      have := (QueueRep_empty_iff hr).2 rfl
      rw [this] at hne
      cases hne
    | cons c rest =>
      obtain ⟨s', h1, h2⟩ := dequeue_spec hr
      refine ⟨_, h1, queue_well_formed_of_QueueRep h2, ?_⟩
      intro hlast
      have hc := hr.2.2.2.1
      have hnone : nextOf rest none = none := hlast c.1 _ hr.2.1 hc
      cases rest with
      | nil => exact ⟨h2.2.1, h2.2.2.1⟩
      | cons d rest => simp [nextOf] at hnone
  · intro s hw
    obtain ⟨cells, hr⟩ := QueueRep_of_queue_well_formed hw
    refine ⟨cells.length, fun fuel hf => ?_⟩
    obtain ⟨s', h1, h2, h3, _⟩ := clear_queue_spec hr fuel hf
    have hr' : QueueRep s' [] := ⟨List.nodup_nil, h2, h3, trivial⟩
    exact ⟨s', h1, queue_well_formed_of_QueueRep hr'⟩

/-- Witness for C16: the calls on the sample queue 7, 8, which is well formed. -/
theorem queue_well_formed_preserved_witness :
    queue_well_formed sample_queue ∧ queue_is_empty sample_queue.Q = false ∧
    (∃ r, enqueue sample_queue true 9 = .ok r ∧ queue_well_formed r.2) ∧
    (∃ r, dequeue sample_queue = .ok r ∧ queue_well_formed r.2 ∧
      ((∀ a n, sample_queue.Q.head = some a → load sample_queue.heap a = some n →
          n.next = none) →
        r.2.Q.head = none ∧ r.2.Q.tail = none)) ∧
    (∃ n, ∀ fuel, n ≤ fuel →
      ∃ s', clear_queue fuel sample_queue = .ok s' ∧ queue_well_formed s') :=
  have hw : queue_well_formed sample_queue :=
    (queue_well_formed_iff sample_queue).2 ⟨[(0, 7), (1, 8)], by decide⟩
  ⟨hw, by decide,
    queue_well_formed_preserved.2.1 sample_queue true 9 hw,
    queue_well_formed_preserved.2.2.1 sample_queue hw (by decide),
    queue_well_formed_preserved.2.2.2 sample_queue hw⟩

/-! ## The bubble sort -/

theorem getD_append_at (pre : List Int) (c : Int) (rest : List Int) :
    (pre ++ c :: rest).getD pre.length 0 = c := by
  induction pre with
  | nil => rfl
  | cons p pre ih => simpa [List.getD_cons_succ] using ih

theorem getD_append_at_succ (pre : List Int) (c y : Int) (rest : List Int) :
    (pre ++ c :: y :: rest).getD (pre.length + 1) 0 = y := by
  have : pre ++ c :: y :: rest = (pre ++ [c]) ++ y :: rest := by simp
  rw [this]
  have hl : pre.length + 1 = (pre ++ [c]).length := by simp
  rw [hl]
  exact getD_append_at (pre ++ [c]) y rest

theorem set_append_at (pre : List Int) (c x : Int) (rest : List Int) :
    (pre ++ c :: rest).set pre.length x = pre ++ x :: rest := by
  induction pre with
  | nil => rfl
  | cons p pre ih => simp [List.set, ih]

theorem swap_adjacent_at (pre : List Int) (c y : Int) (rest : List Int) :
    swap_adjacent (pre ++ c :: y :: rest) pre.length = pre ++ y :: c :: rest := by
  unfold swap_adjacent
  simp only [getD_append_at, getD_append_at_succ, set_append_at]
  have : pre ++ y :: y :: rest = (pre ++ [y]) ++ y :: rest := by simp
  rw [this]
  have hl : pre.length + 1 = (pre ++ [y]).length := by simp
  rw [hl, set_append_at]
  simp

theorem inner_loop_eq (rest : List Int) :
    ∀ (pre : List Int) (c : Int) (sw : Bool),
      inner_loop rest.length pre.length (pre ++ c :: rest) sw =
        (pre ++ bubble c rest, sw || bubble_swaps c rest) := by
  induction rest with
  | nil => intro pre c sw; simp [inner_loop, bubble, bubble_swaps]
  | cons y rest ih =>
    intro pre c sw
    simp only [List.length_cons, inner_loop, getD_append_at, getD_append_at_succ,
      swap_adjacent_at, bubble, bubble_swaps]
    by_cases hcy : c > y
    · have h1 := ih (pre ++ [y]) c true
      simp only [List.length_append, List.length_singleton, List.append_assoc,
        List.singleton_append] at h1
      simp [hcy, h1]
    · have h1 := ih (pre ++ [c]) y sw
      simp only [List.length_append, List.length_singleton, List.append_assoc,
        List.singleton_append] at h1
      simp [hcy, h1]

theorem inner_loop_pass (c : Int) (rest : List Int) :
    inner_loop ((c :: rest).length - 1) 0 (c :: rest) false =
      (bubble c rest, bubble_swaps c rest) := by
  have := inner_loop_eq rest [] c false
  simpa using this

theorem bubble_eq_init_last (c : Int) (l : List Int) :
    bubble c l = bubble_init c l ++ [bubble_last c l] := by
  induction l generalizing c with
  | nil => rfl
  | cons y rest ih =>
    simp only [bubble, bubble_init, bubble_last]
    split <;> simp [ih]

theorem bubble_perm (c : Int) (l : List Int) : (bubble c l).Perm (c :: l) := by
  induction l generalizing c with
  | nil => exact List.Perm.refl _
  | cons y rest ih =>
    simp only [bubble]
    split
    · exact ((ih c).cons y).trans (List.Perm.swap c y rest)
    · exact (ih y).cons c

theorem bubble_last_ge (c : Int) (l : List Int) : ∀ x ∈ c :: l, x ≤ bubble_last c l := by
  induction l generalizing c with
  | nil => intro x hx; simp at hx; simp [bubble_last, hx]
  | cons y rest ih =>
    intro x hx
    simp only [bubble_last]
    split
    · next hcy =>
      have h1 := ih c
      rcases List.mem_cons.1 hx with rfl | hx'
      · exact h1 _ (List.mem_cons_self _ _)
      · rcases List.mem_cons.1 hx' with rfl | hx''
        · exact le_trans (le_of_lt hcy) (h1 c (List.mem_cons_self _ _))
        · exact h1 _ (List.mem_cons_of_mem _ hx'')
    · next hcy =>
      have h1 := ih y
      rcases List.mem_cons.1 hx with rfl | hx'
      · exact le_trans (not_lt.1 hcy) (h1 y (List.mem_cons_self _ _))
      · exact h1 _ hx'

theorem bubble_append (c : Int) (l1 l2 : List Int) :
    bubble c (l1 ++ l2) = bubble_init c l1 ++ bubble (bubble_last c l1) l2 := by
  induction l1 generalizing c with
  | nil => rfl
  | cons y rest ih =>
    simp only [List.cons_append, bubble, bubble_init, bubble_last]
    split <;> simp [ih]

theorem bubble_swaps_append (c : Int) (l1 l2 : List Int) :
    bubble_swaps c (l1 ++ l2) = (bubble_swaps c l1 || bubble_swaps (bubble_last c l1) l2) := by
  induction l1 generalizing c with
  | nil => simp [bubble_swaps, bubble_last]
  | cons y rest ih =>
    simp only [List.cons_append, bubble_swaps, bubble_last]
    split <;> simp [ih]

theorem bubble_sorted_iff (c : Int) (l : List Int) :
    bubble_swaps c l = false ↔ List.Sorted (· ≤ ·) (c :: l) := by
  induction l generalizing c with
  | nil => simp [bubble_swaps]
  | cons y rest ih =>
    simp only [bubble_swaps]
    by_cases hcy : c > y
    · simp only [hcy, if_true, Bool.true_eq_false, false_iff]
      intro hs
      have := List.rel_of_sorted_cons hs y (List.mem_cons_self _ _)
      omega
    · simp only [hcy, if_false, ih y]
      constructor
      · intro hs
        refine List.sorted_cons.2 ⟨?_, hs⟩
        intro b hb
        rcases List.mem_cons.1 hb with rfl | hb'
        · exact not_lt.1 hcy
        · exact le_trans (not_lt.1 hcy) (List.rel_of_sorted_cons hs b hb')
      · intro hs
        exact (List.sorted_cons.1 hs).2

theorem bubble_of_no_swaps (c : Int) (l : List Int) (h : bubble_swaps c l = false) :
    bubble c l = c :: l := by
  induction l generalizing c with
  | nil => rfl
  | cons y rest ih =>
    simp only [bubble_swaps] at h
    simp only [bubble]
    split
    · next hcy => simp [hcy] at h
    · next hcy =>
      simp only [hcy, if_false] at h
      rw [ih y h]

theorem bubble_init_length (c : Int) (l : List Int) : (bubble_init c l).length = l.length := by
  induction l generalizing c with
  | nil => rfl
  | cons y rest ih =>
    simp only [bubble_init]
    split <;> simp [ih]

theorem bubble_init_last_perm (c : Int) (l : List Int) :
    (bubble_init c l ++ [bubble_last c l]).Perm (c :: l) := by
  rw [← bubble_eq_init_last]
  exact bubble_perm c l

theorem bubble_init_subset (c : Int) (l : List Int) : ∀ x ∈ bubble_init c l, x ∈ c :: l :=
  fun _ hx => (bubble_init_last_perm c l).subset (List.mem_append_left _ hx)

theorem bubble_last_mem (c : Int) (l : List Int) : bubble_last c l ∈ c :: l :=
  (bubble_init_last_perm c l).subset (List.mem_append_right _ (List.mem_singleton_self _))

theorem SortedTail_sorted {arr : List Int} (h : SortedTail 1 arr) : List.Sorted (· ≤ ·) arr := by
  obtain ⟨front, back, rfl, hlen, hs, hle⟩ := h
  cases front with
  | nil => simpa using hs
  | cons x front =>
    cases front with
    | nil => exact List.sorted_cons.2 ⟨fun b hb => hle x (List.mem_singleton_self _) b hb, hs⟩
    | cons y front => simp at hlen

theorem SortedTail_pass {m : Nat} {c : Int} {rest : List Int}
    (h : SortedTail (m + 1) (c :: rest)) : SortedTail m (bubble c rest) := by
  obtain ⟨front, back, harr, hlen, hs, hle⟩ := h
  cases front with
  | nil =>
    simp only [List.nil_append] at harr
    rw [← harr] at hs
    rw [bubble_of_no_swaps c rest ((bubble_sorted_iff c rest).2 hs)]
    exact ⟨[], c :: rest, rfl, Nat.zero_le _, hs, fun x hx => by cases hx⟩
  | cons f fs =>
    simp only [List.cons_append, List.cons.injEq] at harr
    obtain ⟨rfl, rfl⟩ := harr
    have hmax := bubble_last_ge c fs
    have hmem := bubble_last_mem c fs
    have hsb : List.Sorted (· ≤ ·) (bubble_last c fs :: back) :=
      List.sorted_cons.2 ⟨fun b hb => hle _ hmem b hb, hs⟩
    rw [bubble_append, bubble_of_no_swaps _ back ((bubble_sorted_iff _ back).2 hsb)]
    refine ⟨bubble_init c fs, bubble_last c fs :: back, rfl, ?_, hsb, ?_⟩
    · rw [bubble_init_length]
      simpa using hlen
    · intro x hx y hy
      have hxf := bubble_init_subset c fs x hx
      rcases List.mem_cons.1 hy with rfl | hy'
      · exact hmax x hxf
      · exact hle x hxf y hy'

theorem outer_loop_sorted (size : Nat) :
    ∀ (n : Nat) (arr : List Int) (k : Nat), arr.length = size → SortedTail (n + 1) arr →
      List.Sorted (· ≤ ·) (outer_loop size n arr k).arr ∧ (outer_loop size n arr k).arr.Perm arr := by
  intro n
  induction n with
  | zero =>
    intro arr k _ hinv
    exact ⟨SortedTail_sorted hinv, List.Perm.refl _⟩
  | succ n ih =>
    intro arr k hsize hinv
    cases arr with
    | nil =>
      subst hsize
      simp [outer_loop, inner_loop]
    | cons c rest =>
      have hpass : inner_loop (size - 1) 0 (c :: rest) false =
          (bubble c rest, bubble_swaps c rest) := by
        rw [← hsize]; exact inner_loop_pass c rest
      simp only [outer_loop, hpass]
      cases hsw : bubble_swaps c rest with
      | false =>
        simp only [Bool.not_false, if_true]
        rw [bubble_of_no_swaps c rest hsw]
        exact ⟨(bubble_sorted_iff c rest).1 hsw, List.Perm.refl _⟩
      | true =>
        simp only [Bool.not_true, Bool.false_eq_true, if_false]
        have hp := bubble_perm c rest
        obtain ⟨h1, h2⟩ := ih (bubble c rest) (k + 1) (by rw [hp.length_eq, hsize])
          (SortedTail_pass hinv)
        exact ⟨h1, h2.trans hp⟩

theorem bubble_sort_sorted_perm (arr : List Int) :
    List.Sorted (· ≤ ·) (bubble_sort arr).arr ∧ (bubble_sort arr).arr.Perm arr := by
  refine outer_loop_sorted arr.length (arr.length - 1) arr 0 rfl ?_
  exact ⟨arr, [], by simp, by omega, List.sorted_nil, fun _ _ y hy => by cases hy⟩

/-! ## The binary search -/

theorem wrap32_of_small {x : Int} (h0 : 0 ≤ x) (h1 : x ≤ 16777216) : wrap32 x = x := by
  unfold wrap32
  omega

theorem round_f32_of_small {x : Int} (h0 : 0 ≤ x) (h1 : x ≤ 16777216) : round_f32 x = x := by
  have h : x.natAbs ≤ 16777216 := by omega
  simp only [round_f32, h, if_true]

theorem midpoint_eq {l r : Int} (h0 : 0 ≤ l) (hlt : l < r) (hr : r ≤ 8388608) :
    midpoint l r = (l + r + 1) / 2 := by
  unfold midpoint ceil_half
  rw [wrap32_of_small (by omega) (by omega), round_f32_of_small (by omega) (by omega)]

theorem midpoint_bounds {l r : Int} (h0 : 0 ≤ l) (hlt : l < r) (hr : r ≤ 8388608) :
    l < midpoint l r ∧ midpoint l r ≤ r := by
  rw [midpoint_eq h0 hlt hr]
  constructor <;> omega

theorem midpoint_rounds_to_even : midpoint 8388608 8388609 = 8388608 := by
  decide

theorem read_ok (arr : List Int) (i : Int) (h0 : 0 ≤ i) (h1 : i < arr.length) :
    read arr i = .ok (arr.getD i.toNat 0) := by
  simp [read, h0, h1]

theorem sorted_getD_le {arr : List Int} (hs : List.Sorted (· ≤ ·) arr) {i j : Nat}
    (hij : i ≤ j) (hj : j < arr.length) : arr.getD i 0 ≤ arr.getD j 0 := by
  have hi : i < arr.length := lt_of_le_of_lt hij hj
  rw [List.getD_eq_getElem arr 0 hi, List.getD_eq_getElem arr 0 hj]
  exact hs.rel_get_of_le (a := ⟨i, hi⟩) (b := ⟨j, hj⟩) hij

theorem search_loop_bounds (arr : List Int) (target : Int) (hmax : arr.length ≤ 8388609) :
    ∀ (fuel : Nat) (l r : Int), 0 ≤ l → l ≤ r → r < arr.length → (r - l).toNat ≤ fuel →
      ∃ l', search_loop arr target fuel l r = .ok l' ∧ l ≤ l' ∧ l' ≤ r ∧
        ∀ p ∈ search_trace arr target fuel l r,
          0 ≤ p.1 ∧ p.1 ≤ p.2 ∧ p.2 ≤ (arr.length : Int) - 1 := by
  intro fuel
  induction fuel with
  | zero =>
    intro l r h0 hlr hr hf
    have he : l = r := by omega
    subst he
    refine ⟨l, by simp [search_loop], le_refl _, le_refl _, ?_⟩
    intro p hp
    simp [search_trace] at hp
    subst hp
    exact ⟨h0, le_refl _, by omega⟩
  | succ fuel ih =>
    intro l r h0 hlr hr hf
    by_cases he : l = r
    · subst he
      refine ⟨l, by simp [search_loop], le_refl _, le_refl _, ?_⟩
      intro p hp
      simp [search_trace] at hp
      subst hp
      exact ⟨h0, le_refl _, by omega⟩
    · have hlt : l < r := lt_of_le_of_ne hlr he
      obtain ⟨hm1, hm2⟩ := midpoint_bounds h0 hlt (by omega)
      have hread := read_ok arr (midpoint l r) (by omega) (by omega)
      by_cases hx : arr.getD (midpoint l r).toNat 0 > target
      · obtain ⟨l', h1, h2, h3, h4⟩ := ih l (midpoint l r - 1) h0 (by omega) (by omega)
          (by omega)
        refine ⟨l', ?_, h2, by omega, ?_⟩
        · rw [search_loop]
          simp only [ne_eq, he, not_false_eq_true, if_true, hread, bind, Except.bind, hx,
            if_false, h1]
        · intro p hp
          rw [search_trace] at hp
          simp only [ne_eq, he, not_false_eq_true, if_true, hread, hx, List.mem_cons] at hp
          rcases hp with rfl | hp
          · exact ⟨h0, hlr, by omega⟩
          · exact h4 p hp
      · obtain ⟨l', h1, h2, h3, h4⟩ := ih (midpoint l r) r (by omega) hm2 hr (by omega)
        refine ⟨l', ?_, by omega, h3, ?_⟩
        · rw [search_loop]
          simp only [ne_eq, he, not_false_eq_true, if_true, hread, bind, Except.bind, hx,
            if_false, h1]
        · intro p hp
          rw [search_trace] at hp
          simp only [ne_eq, he, not_false_eq_true, if_true, hread, hx, if_false,
            List.mem_cons] at hp
          rcases hp with rfl | hp
          · exact ⟨h0, hlr, by omega⟩
          · exact h4 p hp

theorem search_loop_sorted (arr : List Int) (target : Int) (hmax : arr.length ≤ 8388609)
    (hs : List.Sorted (· ≤ ·) arr) :
    ∀ (fuel : Nat) (l r : Int), 0 ≤ l → l ≤ r → r < arr.length → (r - l).toNat ≤ fuel →
      (∀ i : Nat, r < i → i < arr.length → target < arr.getD i 0) →
      (l = 0 ∨ arr.getD l.toNat 0 ≤ target) →
      ∃ l', search_loop arr target fuel l r = .ok l' ∧ 0 ≤ l' ∧ l' < arr.length ∧
        (∀ i : Nat, l' < i → i < arr.length → target < arr.getD i 0) ∧
        (l' = 0 ∨ arr.getD l'.toNat 0 ≤ target) := by
  intro fuel
  induction fuel with
  | zero =>
    intro l r h0 hlr hr hf hhi hlo
    have he : l = r := by omega
    subst he
    exact ⟨l, by simp [search_loop], h0, hr, hhi, hlo⟩
  | succ fuel ih =>
    intro l r h0 hlr hr hf hhi hlo
    by_cases he : l = r
    · subst he
      exact ⟨l, by simp [search_loop], h0, hr, hhi, hlo⟩
    · have hlt : l < r := lt_of_le_of_ne hlr he
      obtain ⟨hm1, hm2⟩ := midpoint_bounds h0 hlt (by omega)
      have hread := read_ok arr (midpoint l r) (by omega) (by omega)
      by_cases hx : arr.getD (midpoint l r).toNat 0 > target
      · obtain ⟨l', h1, h2⟩ := ih l (midpoint l r - 1) h0 (by omega) (by omega)
          (by omega)
          (by
            intro i hi hlen
            have hle : (midpoint l r).toNat ≤ i := by omega
            exact lt_of_lt_of_le hx (sorted_getD_le hs hle hlen))
          hlo
        refine ⟨l', ?_, h2⟩
        rw [search_loop]
        simp only [ne_eq, he, not_false_eq_true, if_true, hread, bind, Except.bind, hx,
          if_false, h1]
      · obtain ⟨l', h1, h2⟩ := ih (midpoint l r) r (by omega) hm2 hr (by omega) hhi
          (Or.inr (not_lt.1 hx))
        refine ⟨l', ?_, h2⟩
        rw [search_loop]
        simp only [ne_eq, he, not_false_eq_true, if_true, hread, bind, Except.bind, hx,
          if_false, h1]

theorem binary_search_core (arr : List Int) (target : Int) (hsize : 1 ≤ arr.length)
    (hmax : arr.length ≤ 8388609) (hs : List.Sorted (· ≤ ·) arr) (fuel : Nat) (hf : arr.length - 1 ≤ fuel) :
    ∃ k : Nat, k < arr.length ∧
      binary_search arr target fuel = .ok ((k : Int), decide (arr.getD k 0 = target)) ∧
      (∀ i : Nat, k < i → i < arr.length → target < arr.getD i 0) ∧
      (k = 0 ∨ arr.getD k 0 ≤ target) := by
  obtain ⟨l', h1, h2, h3, h4, h5⟩ := search_loop_sorted arr target hmax hs fuel 0
    ((arr.length : Int) - 1) (le_refl _) (by omega) (by omega) (by omega)
    (fun i hi hlen => by omega) (Or.inl rfl)
  have hk : ((l'.toNat : Nat) : Int) = l' := Int.toNat_of_nonneg h2
  refine ⟨l'.toNat, by omega, ?_, ?_, ?_⟩
  · have hread := read_ok arr l' h2 h3
    simp only [binary_search, h1, hread, bind, Except.bind, pure, Except.pure, hk]
  · intro i hi hlen
    exact h4 i (by omega) hlen
  · rcases h5 with h | h
    · left; omega
    · right; exact h

theorem mem_iff_getD (arr : List Int) (x : Int) :
    x ∈ arr ↔ ∃ i, i < arr.length ∧ arr.getD i 0 = x := by
  constructor
  · intro hx
    obtain ⟨i, hi, he⟩ := List.getElem_of_mem hx
    exact ⟨i, hi, by rw [List.getD_eq_getElem arr 0 hi]; exact he⟩
  · rintro ⟨i, hi, he⟩
    rw [List.getD_eq_getElem arr 0 hi] at he
    exact he ▸ List.getElem_mem hi

theorem binary_search_greatest (arr : List Int) (target : Int) (hs : List.Sorted (· ≤ ·) arr)
    {k : Nat} (hk : k < arr.length)
    (hhi : ∀ i : Nat, k < i → i < arr.length → target < arr.getD i 0)
    (hlo : k = 0 ∨ arr.getD k 0 ≤ target) :
    ((∃ i, i < arr.length ∧ arr.getD i 0 ≤ target) →
      arr.getD k 0 ≤ target ∧ ∀ i, i < arr.length → arr.getD i 0 ≤ target → i ≤ k) ∧
    ((¬ ∃ i, i < arr.length ∧ arr.getD i 0 ≤ target) → k = 0) ∧
    (∀ i, i < arr.length → arr.getD i 0 = target → i ≤ k ∧ arr.getD k 0 = target) := by
  have hgreat : ∀ i, i < arr.length → arr.getD i 0 ≤ target → i ≤ k := by
    intro i hi hle
    by_contra hlt
    have := hhi i (by omega) hi
    omega
  have hle : (∃ i, i < arr.length ∧ arr.getD i 0 ≤ target) → arr.getD k 0 ≤ target := by
    rintro ⟨i, hi, hit⟩
    rcases hlo with h0 | h
    · subst h0
      exact le_trans (sorted_getD_le hs (Nat.zero_le i) hi) hit
    · exact h
  refine ⟨fun hex => ⟨hle hex, hgreat⟩, ?_, ?_⟩
  · intro hno
    rcases hlo with h0 | h
    · exact h0
    · exact absurd ⟨k, hk, h⟩ hno
  · intro i hi he
    have hik := hgreat i hi (le_of_eq he)
    refine ⟨hik, le_antisymm (hle ⟨i, hi, le_of_eq he⟩) ?_⟩
    rw [← he]
    exact sorted_getD_le hs hik hk

/-- C13. On a non-empty buffer sorted in ascending order (of the program's 16
elements, and of any length up to `2 ^ 23 + 1`, the range on which the `float`
midpoint is the exact rounded-up half) the binary search returns (its loop
needs at most `size - 1` iterations) an index `k` inside the buffer; if the
target occurs in the buffer then `arr[k]` is the target and it is reported as
found, and it is reported as not found exactly when it does not occur. -/
theorem binary_search_finds_target (arr : List Int) (target : Int) (hsize : 1 ≤ arr.length)
    (hmax : arr.length ≤ 8388609) (hs : List.Sorted (· ≤ ·) arr) (fuel : Nat)
    (hf : arr.length - 1 ≤ fuel) :
    ∃ (k : Nat) (found : Bool), binary_search arr target fuel = .ok ((k : Int), found) ∧
      k < arr.length ∧
      (target ∈ arr → arr.getD k 0 = target ∧ found = true) ∧
      (found = false ↔ target ∉ arr) := by
  obtain ⟨k, hk, hres, hhi, hlo⟩ := binary_search_core arr target hsize hmax hs fuel hf
  obtain ⟨_, _, hlast⟩ := binary_search_greatest arr target hs hk hhi hlo
  have hin : target ∈ arr → arr.getD k 0 = target := by
    intro hm
    obtain ⟨i, hi, he⟩ := (mem_iff_getD arr target).1 hm
    exact (hlast i hi he).2
  refine ⟨k, _, hres, hk, fun hm => ⟨hin hm, decide_eq_true (hin hm)⟩, ?_⟩
  constructor
  · intro hfalse hm
    rw [decide_eq_true (hin hm)] at hfalse
    cases hfalse
  · intro hnm
    have : arr.getD k 0 ≠ target := fun he => hnm ((mem_iff_getD arr target).2 ⟨k, hk, he⟩)
    exact decide_eq_false this

/-- Witness for C13: searching 11 in a sorted buffer of 16 elements. -/
theorem binary_search_finds_target_witness :
    1 ≤ sorted_buffer.length ∧ sorted_buffer.length ≤ 8388609 ∧
    List.Sorted (· ≤ ·) sorted_buffer ∧ sorted_buffer.length - 1 ≤ 15 ∧
    ∃ (k : Nat) (found : Bool), binary_search sorted_buffer 11 15 = .ok ((k : Int), found) ∧
      k < sorted_buffer.length ∧
      ((11 : Int) ∈ sorted_buffer → sorted_buffer.getD k 0 = 11 ∧ found = true) ∧
      (found = false ↔ (11 : Int) ∉ sorted_buffer) :=
  ⟨by decide, by decide, by decide, by decide,
    binary_search_finds_target sorted_buffer 11 (by decide) (by decide) (by decide) 15
      (by decide)⟩

/-- C19. On every buffer of at least one element (of the program's 16
elements, and of any length up to `2 ^ 23 + 1`), sorted or not, the binary
search returns once its budget reaches `size - 1` iterations: no read leaves the
buffer, the final `l` lies in `0 .. size - 1`, and at every test of the loop
condition `0 <= l <= r <= size - 1`, with `mid` inside the buffer whenever the
loop goes on. The midpoint is rounded up: for `0 <= l < r <= 2 ^ 23` it is
greater than `l` and at most `r`, so `l = mid` increases `l` and `r = mid - 1`
stays at or above `l`. -/
theorem binary_search_terminates_in_bounds (arr : List Int) (target : Int)
    (hsize : 1 ≤ arr.length) (hmax : arr.length ≤ 8388609) :
    (∀ fuel, arr.length - 1 ≤ fuel →
      ∃ (l : Int) (found : Bool), binary_search arr target fuel = .ok (l, found) ∧
        0 ≤ l ∧ l ≤ (arr.length : Int) - 1 ∧
        ∀ p ∈ search_trace arr target fuel 0 ((arr.length : Int) - 1),
          0 ≤ p.1 ∧ p.1 ≤ p.2 ∧ p.2 ≤ (arr.length : Int) - 1 ∧
          (p.1 ≠ p.2 → 0 ≤ midpoint p.1 p.2 ∧
            midpoint p.1 p.2 ≤ (arr.length : Int) - 1)) ∧
    (∀ l r : Int, 0 ≤ l → l < r → r ≤ (arr.length : Int) - 1 →
      l < midpoint l r ∧ midpoint l r ≤ r ∧ l ≤ midpoint l r - 1) := by
  refine ⟨?_, ?_⟩
  · intro fuel hf
    obtain ⟨l', h1, h2, h3, h4⟩ := search_loop_bounds arr target hmax fuel 0
      ((arr.length : Int) - 1) (le_refl _) (by omega) (by omega) (by omega)
    have hread := read_ok arr l' h2 (by omega)
    refine ⟨l', decide (arr.getD l'.toNat 0 = target), ?_, h2, h3, ?_⟩
    · simp only [binary_search, h1, hread, bind, Except.bind, pure, Except.pure]
    · intro p hp
      obtain ⟨a, b, c⟩ := h4 p hp
      refine ⟨a, b, c, fun hne => ?_⟩
      obtain ⟨d, e⟩ := midpoint_bounds a (lt_of_le_of_ne b hne) (by omega)
      constructor <;> omega
  · intro l r h0 hlr hr
    obtain ⟨a, b⟩ := midpoint_bounds h0 hlr (by omega)
    exact ⟨a, b, by omega⟩

/-- Witness for C19: searching 4 in an unsorted buffer of 16 elements. -/
theorem binary_search_terminates_in_bounds_witness :
    1 ≤ unsorted_buffer.length ∧ unsorted_buffer.length ≤ 8388609 ∧
    ((∀ fuel, unsorted_buffer.length - 1 ≤ fuel →
      ∃ (l : Int) (found : Bool), binary_search unsorted_buffer 4 fuel = .ok (l, found) ∧
        0 ≤ l ∧ l ≤ (unsorted_buffer.length : Int) - 1 ∧
        ∀ p ∈ search_trace unsorted_buffer 4 fuel 0 ((unsorted_buffer.length : Int) - 1),
          0 ≤ p.1 ∧ p.1 ≤ p.2 ∧ p.2 ≤ (unsorted_buffer.length : Int) - 1 ∧
          (p.1 ≠ p.2 → 0 ≤ midpoint p.1 p.2 ∧
            midpoint p.1 p.2 ≤ (unsorted_buffer.length : Int) - 1)) ∧
    (∀ l r : Int, 0 ≤ l → l < r → r ≤ (unsorted_buffer.length : Int) - 1 →
      l < midpoint l r ∧ midpoint l r ≤ r ∧ l ≤ midpoint l r - 1)) :=
  ⟨by decide, by decide,
    binary_search_terminates_in_bounds unsorted_buffer 4 (by decide) (by decide)⟩

/-- C20. On a non-empty buffer sorted in ascending order (of the program's 16
elements, and of any length up to `2 ^ 23 + 1`) the binary search returns the
greatest index `k` with `arr[k] <= target` when there is such an index, and 0
when there is none; so when the target occurs, every occurrence sits at or
before `k` and `arr[k]` is the target (the last occurrence). -/
theorem binary_search_returns_last (arr : List Int) (target : Int) (hsize : 1 ≤ arr.length)
    (hmax : arr.length ≤ 8388609) (hs : List.Sorted (· ≤ ·) arr) (fuel : Nat)
    (hf : arr.length - 1 ≤ fuel) :
    ∃ (k : Nat) (found : Bool), binary_search arr target fuel = .ok ((k : Int), found) ∧
      k < arr.length ∧
      ((∃ i, i < arr.length ∧ arr.getD i 0 ≤ target) →
        arr.getD k 0 ≤ target ∧ ∀ i, i < arr.length → arr.getD i 0 ≤ target → i ≤ k) ∧
      ((¬ ∃ i, i < arr.length ∧ arr.getD i 0 ≤ target) → k = 0) ∧
      (∀ i, i < arr.length → arr.getD i 0 = target → i ≤ k ∧ arr.getD k 0 = target) := by
  obtain ⟨k, hk, hres, hhi, hlo⟩ := binary_search_core arr target hsize hmax hs fuel hf
  exact ⟨k, _, hres, hk, binary_search_greatest arr target hs hk hhi hlo⟩

/-- Witness for C20: searching 11 in the sorted buffer of 16 elements, where
it occurs twice. -/
theorem binary_search_returns_last_witness :
    1 ≤ sorted_buffer.length ∧ sorted_buffer.length ≤ 8388609 ∧
    List.Sorted (· ≤ ·) sorted_buffer ∧ sorted_buffer.length - 1 ≤ 15 ∧
    ∃ (k : Nat) (found : Bool), binary_search sorted_buffer 11 15 = .ok ((k : Int), found) ∧
      k < sorted_buffer.length ∧
      ((∃ i, i < sorted_buffer.length ∧ sorted_buffer.getD i 0 ≤ 11) →
        sorted_buffer.getD k 0 ≤ 11 ∧
        ∀ i, i < sorted_buffer.length → sorted_buffer.getD i 0 ≤ 11 → i ≤ k) ∧
      ((¬ ∃ i, i < sorted_buffer.length ∧ sorted_buffer.getD i 0 ≤ 11) → k = 0) ∧
      (∀ i, i < sorted_buffer.length → sorted_buffer.getD i 0 = 11 →
        i ≤ k ∧ sorted_buffer.getD k 0 = 11) :=
  ⟨by decide, by decide, by decide, by decide,
    binary_search_returns_last sorted_buffer 11 (by decide) (by decide) (by decide) 15
      (by decide)⟩

theorem outer_loop_passes (size : Nat) :
    ∀ (n : Nat) (arr : List Int) (k : Nat), (outer_loop size n arr k).passes ≤ k + n := by
  intro n
  induction n with
  | zero => intro arr k; simp [outer_loop]
  | succ n ih =>
    intro arr k
    simp only [outer_loop]
    split
    · show k + 1 ≤ k + (n + 1)
      omega
    · have := ih (inner_loop (size - 1) 0 arr false).1 (k + 1)
      omega

/-- C12. For every integer buffer (of length 16 or of any other length) the
bubble sort returns, after at most `size - 1` inner passes, a buffer sorted in
ascending order that is a permutation of the original one; the buffer
5, 3, 3, 1 becomes 1, 3, 3, 5. -/
theorem bubble_sort_sorts :
    (∀ arr : List Int,
      List.Sorted (· ≤ ·) (bubble_sort arr).arr ∧ (bubble_sort arr).arr.Perm arr ∧
      (bubble_sort arr).passes ≤ arr.length - 1) ∧
    (bubble_sort [5, 3, 3, 1]).arr = [1, 3, 3, 5] := by
  refine ⟨fun arr => ?_, by decide⟩
  obtain ⟨h1, h2⟩ := bubble_sort_sorted_perm arr
  refine ⟨h1, h2, ?_⟩
  have := outer_loop_passes arr.length (arr.length - 1) arr 0
  simpa [bubble_sort] using this

theorem bubble_sort_of_sorted_eq (arr : List Int) (hs : List.Sorted (· ≤ ·) arr) :
    (2 ≤ arr.length →
      inner_loop (arr.length - 1) 0 arr false = (arr, false) ∧
      bubble_sort arr = { arr := arr, passes := 1, broke := true }) ∧
    (arr.length < 2 → bubble_sort arr = { arr := arr, passes := 0, broke := false }) := by
  cases arr with
  | nil => simp [bubble_sort, outer_loop]
  | cons c rest =>
    have hsw : bubble_swaps c rest = false := (bubble_sorted_iff c rest).2 hs
    have hpass : inner_loop ((c :: rest).length - 1) 0 (c :: rest) false = (c :: rest, false) := by
      rw [inner_loop_pass, bubble_of_no_swaps c rest hsw, hsw]
    cases rest with
    | nil => simp [bubble_sort, outer_loop]
    | cons y rest =>
      refine ⟨fun _ => ⟨hpass, ?_⟩, fun h => by simp at h; omega⟩
      have hlen : (c :: y :: rest).length - 1 = rest.length + 1 := by simp
      unfold bubble_sort
      rw [hlen, outer_loop, hpass]
      simp

/-- C17. For every buffer of at least two elements (the buffer of the program
has 16) that is already sorted in ascending order, the bubble sort makes
exactly one inner pass, that pass swaps nothing and leaves the buffer as it
was, and the outer loop is left through `break`. Hence the sort is idempotent:
sorting its own result changes nothing. -/
theorem bubble_sort_of_sorted :
    (∀ arr : List Int, List.Sorted (· ≤ ·) arr → 2 ≤ arr.length →
      inner_loop (arr.length - 1) 0 arr false = (arr, false) ∧
      bubble_sort arr = { arr := arr, passes := 1, broke := true }) ∧
    (∀ arr : List Int, (bubble_sort (bubble_sort arr).arr).arr = (bubble_sort arr).arr) := by
  have hfix : ∀ arr : List Int, List.Sorted (· ≤ ·) arr → (bubble_sort arr).arr = arr := by
    intro arr hs
    obtain ⟨h2, h1⟩ := bubble_sort_of_sorted_eq arr hs
    rcases Nat.lt_or_ge arr.length 2 with h | h
    · rw [h1 h]
    · rw [(h2 h).2]
  exact ⟨fun arr hs hlen => (bubble_sort_of_sorted_eq arr hs).1 hlen,
    fun arr => hfix _ (bubble_sort_sorted_perm arr).1⟩

/-- Witness for C17: the sorted buffer of 16 elements. -/
theorem bubble_sort_of_sorted_witness :
    List.Sorted (· ≤ ·) sorted_buffer ∧ 2 ≤ sorted_buffer.length ∧
    inner_loop (sorted_buffer.length - 1) 0 sorted_buffer false = (sorted_buffer, false) ∧
    bubble_sort sorted_buffer = { arr := sorted_buffer, passes := 1, broke := true } :=
  ⟨by decide, by decide, bubble_sort_of_sorted.1 sorted_buffer (by decide) (by decide)⟩

end DataStructures
